import Mathlib

/-!
# A verification development for the `schema` package

The Go package `schema` has two halves: a reflective binary codec
(`encode.go`, `decode.go`) and a run-time type registry (`type.go`).  This file
embeds both in Lean and proves properties of the wire format and of the
registry.

Conventions of the embedding

* A `reflect.Type` is a term of `Ty`; a `reflect.Value` is a pair of a `Ty`
  and a `Val` (the data).  Values have value semantics: pointers are trees,
  aliasing and cyclic structures are outside the embedding.  Type identity is
  structural, as it is for the unnamed types package reflect builds.
* The stream of an `Encoder` is an in-memory buffer that never fails
  (`bytes.Buffer`, as in the tests of the repository); an encode call returns
  the bytes it appended together with its error.  The stream of a `Decoder`
  is the list of unread bytes of such a buffer.
* Machine integers are `Nat`/`Int` with explicit wrap-around; the platform
  `int`/`uint`/`uintptr` are 64 bits wide.
* A floating point number is its memory image, least significant byte first
  (4 or 8 bytes); a complex number is the pair of the images of its parts.
  A conversion between `float32` and `float64` keeps the number; of a
  signalling NaN it sets the quiet bit, as the processors Go runs on do.
* A map is the list of its entries in iteration order.  The keys of a map
  are compared with the `==` of Go: numbers by value, a NaN equal to nothing,
  strings, booleans and integers by content, arrays and structs element by
  element, pointers by identity.  The comparisons that occur are between a
  key the decoder has just built and the keys of the destination, or between
  two different keys of one map, so a pointer that is not nil is never
  equal to the other one.
* The fields of a struct type are not embedded, and their names are ASCII: a
  field is exported when its name begins with one of `A` to `Z`.  A value
  reached through an unexported field is read-only; every `Set...` method of
  package reflect panics on it.  A blank field holds the zero value.
* Allocation always succeeds, whatever the size asked for.
* The two maps of the registry are lists of the assignments made to them,
  the latest first.  The registry is used by one goroutine; its lock is left
  out.
* The recursion of `createType` and `createSchema` is bounded by a number of
  nested calls (`fuel`); the answer `none` says that the bound did not
  suffice, and a call that answers `none` for every bound does not return.
* A resolver is a function of the name: it has no state and it returns.
* A Go string is the list of its characters; the type expressions are split
  at ASCII characters only.
* Of the panics of package reflect the ones for a nil type, for a map key
  type without `==`, for a repeated field name and for a setter on a
  read-only value are part of the embedding; its limits on the size of a type
  and on the length of a name or tag are not: types fit the address space.

The definitions come first: the byte stream and the varints of
`encoding/binary`, types and values, the encoder, the decoder, the registry,
and the notions the properties are stated with.  The lemmas and the
properties follow.
-/

namespace GoSchema

/-! ## Bytes, errors and the byte stream -/

/-- One octet. -/
abbrev Byte := Fin 256

/-- Truncating conversion `byte(x)`. -/
def Byte.ofNat (n : Nat) : Byte := ⟨n % 256, Nat.mod_lt _ (by decide)⟩

/-- The kinds of `reflect.Kind`. -/
inductive Kind
  | Invalid | Bool | Int | Int8 | Int16 | Int32 | Int64
  | Uint | Uint8 | Uint16 | Uint32 | Uint64 | Uintptr
  | Float32 | Float64 | Complex64 | Complex128
  | Array | Chan | Func | Interface | Map | Ptr | Slice | String | Struct
  | UnsafePointer
  deriving DecidableEq, Repr

/-- The ways a call of the codec ends without success: the error values it
can return, and `setPanic`, which is no error value but the panic of package
reflect at a `Set...` call on a read-only value (one reached through an
unexported struct field).  The panic ends the call and every call of the
codec around it, at the point where a returned error would.  `hook n` stands
for an error made up by a caller-supplied extension function. -/
inductive Err
  /-- `io.EOF` -/
  | EOF
  /-- `io.ErrUnexpectedEOF` -/
  | ErrUnexpectedEOF
  /-- the overflow error of `encoding/binary` -/
  | errOverflow
  /-- `"%T is not pointer"` -/
  | notPointer
  /-- `"unexpected kind: ..."` -/
  | unexpectedKind (k : Kind)
  /-- `"unknown type: ..."` -/
  | unknownType
  /-- an error returned by an extension function -/
  | hook (code : Nat)
  /-- not returned: the panic `reflect.Value.Set... using value obtained using
  unexported field` -/
  | setPanic
  deriving DecidableEq, Repr

/-- The unread bytes of the decoder's stream. -/
abbrev Reader := List Byte

/-- The method `Read(p)` of an in-memory buffer for `len(p) = n`: the bytes
copied into `p`, the remaining stream, and the error.  An empty buffer
answers `io.EOF` unless `n = 0`; otherwise `min n (unread)` bytes are copied. -/
def Reader.Read (r : Reader) (n : Nat) : List Byte × Reader × Option Err :=
  if r = [] then
    if n = 0 then ([], r, none) else ([], r, some Err.EOF)
  else (r.take n, r.drop n, none)

/-- The method `byteReader.ReadByte` of `decode.go`: a one-byte `Read`. -/
def Reader.ReadByte (r : Reader) : Byte × Reader × Option Err :=
  match r.Read 1 with
  | (_, r1, some err) => (0, r1, some err)
  | (buf, r1, none) =>
    if buf.length < 1 then (0, r1, some Err.EOF)
    else (buf.headD 0, r1, none)

/-! ## Variable-length integers (`encoding/binary`) -/

/-- The constant `binary.MaxVarintLen64`. -/
def MaxVarintLen64 : Nat := 10

/-- The loop of `binary.PutUvarint`; `n + 1` bounds the number of bytes that
are still to be written (a `uint64` has at most ten groups of seven bits). -/
def PutUvarint.loop : Nat → Nat → List Byte
  | 0, x => [Byte.ofNat x]
  | n + 1, x =>
    if x ≥ 0x80 then Byte.ofNat (x ||| 0x80) :: PutUvarint.loop n (x >>> 7)
    else [Byte.ofNat x]

/-- The bytes `binary.PutUvarint` stores for the `uint64` value `x`. -/
def PutUvarint (x : Nat) : List Byte :=
  PutUvarint.loop (MaxVarintLen64 - 1) (x % 2 ^ 64)

/-- The zigzag remap of `binary.PutVarint`: `ux := uint64(x) << 1`, and
`ux = ^ux` when `x < 0`. -/
def zigzag (x : Int) : Nat :=
  let ux := ((x % 2 ^ 64).toNat <<< 1) % 2 ^ 64
  if x < 0 then 2 ^ 64 - 1 - ux else ux

/-- The bytes `binary.PutVarint` stores for the `int64` value `x`. -/
def PutVarint (x : Int) : List Byte := PutUvarint (zigzag x)

/-- The loop of `binary.ReadUvarint`, entered at iteration `i` with the
accumulator `x` and the shift `s`; the first argument counts the iterations
that remain (`MaxVarintLen64 - i`). -/
def ReadUvarint.loop : Nat → Nat → Nat → Nat → Reader → Nat × Reader × Option Err
  | 0, _, x, _, r => (x, r, some Err.errOverflow)
  | n + 1, i, x, s, r =>
    match r.ReadByte with
    | (_, r1, some err) =>
      (x, r1, some (if i > 0 ∧ err = Err.EOF then Err.ErrUnexpectedEOF else err))
    | (b, r1, none) =>
      if b.val < 0x80 then
        if i = MaxVarintLen64 - 1 ∧ b.val > 1 then (x, r1, some Err.errOverflow)
        else (x ||| (b.val <<< s) % 2 ^ 64, r1, none)
      else ReadUvarint.loop n (i + 1) (x ||| ((b.val &&& 0x7f) <<< s) % 2 ^ 64) (s + 7) r1

/-- The function `binary.ReadUvarint`. -/
def ReadUvarint (r : Reader) : Nat × Reader × Option Err :=
  ReadUvarint.loop MaxVarintLen64 0 0 0 r

/-- The function `binary.ReadVarint`: `x := int64(ux >> 1)`, and `x = ^x` when
the lowest bit of `ux` is set.  The error of `ReadUvarint` is passed on. -/
def ReadVarint (r : Reader) : Int × Reader × Option Err :=
  match ReadUvarint r with
  | (ux, r1, err) =>
    let x : Int := ((ux >>> 1 : Nat) : Int)
    (if ux &&& 1 ≠ 0 then -x - 1 else x, r1, err)

/-! ## Types and values (`reflect.Type`, `reflect.Value`) -/

/-- The kinds of type that have no element type the codec looks into: the
predeclared boolean, numeric and string types, and the channel, function and
unsafe pointer kinds. -/
inductive Basic
  | Bool | Int | Int8 | Int16 | Int32 | Int64
  | Uint | Uint8 | Uint16 | Uint32 | Uint64 | Uintptr
  | Float32 | Float64 | Complex64 | Complex128 | String
  | Chan | Func | UnsafePointer
  deriving DecidableEq, Repr

mutual
/-- A `reflect.Type`.  Type identity is structural. -/
inductive Ty
  | basic (b : Basic)
  | iface
  | array (n : Nat) (e : Ty)
  | map (k v : Ty)
  | ptr (e : Ty)
  | slice (e : Ty)
  | struct (fields : List StructField)
/-- A `reflect.StructField`: name, type and tag of one field. -/
inductive StructField
  | mk (Name : String) (Typ : Ty) (Tag : String)
end

/-- The type `bool`. -/
@[match_pattern] abbrev Ty.bool : Ty := .basic .Bool

/-- The type `int`. -/
@[match_pattern] abbrev Ty.int : Ty := .basic .Int

/-- The type `int8`. -/
@[match_pattern] abbrev Ty.int8 : Ty := .basic .Int8

/-- The type `int16`. -/
@[match_pattern] abbrev Ty.int16 : Ty := .basic .Int16

/-- The type `int32`. -/
@[match_pattern] abbrev Ty.int32 : Ty := .basic .Int32

/-- The type `int64`. -/
@[match_pattern] abbrev Ty.int64 : Ty := .basic .Int64

/-- The type `uint`. -/
@[match_pattern] abbrev Ty.uint : Ty := .basic .Uint

/-- The type `uint8`. -/
@[match_pattern] abbrev Ty.uint8 : Ty := .basic .Uint8

/-- The type `uint16`. -/
@[match_pattern] abbrev Ty.uint16 : Ty := .basic .Uint16

/-- The type `uint32`. -/
@[match_pattern] abbrev Ty.uint32 : Ty := .basic .Uint32

/-- The type `uint64`. -/
@[match_pattern] abbrev Ty.uint64 : Ty := .basic .Uint64

/-- The type `uintptr`. -/
@[match_pattern] abbrev Ty.uintptr : Ty := .basic .Uintptr

/-- The type `float32`. -/
@[match_pattern] abbrev Ty.float32 : Ty := .basic .Float32

/-- The type `float64`. -/
@[match_pattern] abbrev Ty.float64 : Ty := .basic .Float64

/-- The type `complex64`. -/
@[match_pattern] abbrev Ty.complex64 : Ty := .basic .Complex64

/-- The type `complex128`. -/
@[match_pattern] abbrev Ty.complex128 : Ty := .basic .Complex128

/-- The type `string`. -/
@[match_pattern] abbrev Ty.string : Ty := .basic .String

/-- A channel type. -/
@[match_pattern] abbrev Ty.chan : Ty := .basic .Chan

/-- A function type. -/
@[match_pattern] abbrev Ty.func : Ty := .basic .Func

/-- The type `unsafe.Pointer`. -/
@[match_pattern] abbrev Ty.unsafePointer : Ty := .basic .UnsafePointer

/-- Name of a struct field. -/
def StructField.Name : StructField → String
  | .mk n _ _ => n

/-- The method `StructField.IsExported`, on the name of the field: the name
begins with an upper case letter. -/
def IsExported (name : String) : Bool :=
  match name.data with
  | c :: _ => 65 ≤ c.toNat && c.toNat ≤ 90
  | [] => false

/-- Type of a struct field. -/
def StructField.Typ : StructField → Ty
  | .mk _ t _ => t

/-- Tag of a struct field. -/
def StructField.Tag : StructField → String
  | .mk _ _ g => g

/-- The kind of a basic type. -/
def Basic.Kind : Basic → Kind
  | .Bool => .Bool | .Int => .Int | .Int8 => .Int8 | .Int16 => .Int16
  | .Int32 => .Int32 | .Int64 => .Int64
  | .Uint => .Uint | .Uint8 => .Uint8 | .Uint16 => .Uint16 | .Uint32 => .Uint32
  | .Uint64 => .Uint64 | .Uintptr => .Uintptr
  | .Float32 => .Float32 | .Float64 => .Float64
  | .Complex64 => .Complex64 | .Complex128 => .Complex128
  | .String => .String | .Chan => .Chan | .Func => .Func
  | .UnsafePointer => .UnsafePointer

/-- The method `Type.Kind`. -/
def Ty.Kind : Ty → Kind
  | .basic b => b.Kind
  | .iface => .Interface
  | .array _ _ => .Array
  | .map _ _ => .Map
  | .ptr _ => .Ptr
  | .slice _ => .Slice
  | .struct _ => .Struct

mutual
/-- Structural equality test on types. -/
def Ty.beq : Ty → Ty → Bool
  | .basic a, .basic b => a == b
  | .iface, .iface => true
  | .array n a, .array m b => n == m && Ty.beq a b
  | .map k v, .map k2 v2 => Ty.beq k k2 && Ty.beq v v2
  | .ptr a, .ptr b => Ty.beq a b
  | .slice a, .slice b => Ty.beq a b
  | .struct fs, .struct gs => Ty.beqFields fs gs
  | _, _ => false
/-- Structural equality test on field lists. -/
def Ty.beqFields : List StructField → List StructField → Bool
  | [], [] => true
  | .mk n t g :: fs, .mk n2 t2 g2 :: gs =>
    n == n2 && Ty.beq t t2 && g == g2 && Ty.beqFields fs gs
  | _, _ => false
end

instance : BEq Ty := ⟨Ty.beq⟩

/-- The data of a `reflect.Value`.  `nil` is the nil slice, map, pointer or
interface.  A non-nil slice is its visible elements followed by the spare
elements of its backing array up to the capacity.  A map is the list of its
entries in iteration order.  A floating point number is its memory image,
least significant byte first; a complex number is the images of its real and
imaginary part. -/
inductive Val
  | bool (b : Bool)
  | int (i : Int)
  | uint (u : Nat)
  | float (bits : List Byte)
  | complex (re im : List Byte)
  | str (s : List Byte)
  | nil
  | slice (elems spare : List Val)
  | array (elems : List Val)
  | map (entries : List (Val × Val))
  | struct (fields : List Val)
  | ptr (elem : Val)
  | iface (t : Ty) (v : Val)

instance : Inhabited Val := ⟨Val.nil⟩

mutual
/-- Structural equality test on values: the two are the same data. -/
def Val.beq : Val → Val → Bool
  | .bool a, .bool b => a == b
  | .int a, .int b => a == b
  | .uint a, .uint b => a == b
  | .float a, .float b => a == b
  | .complex a c, .complex b d => a == b && c == d
  | .str a, .str b => a == b
  | .nil, .nil => true
  | .slice a s, .slice b s2 => Val.beqList a b && Val.beqList s s2
  | .array a, .array b => Val.beqList a b
  | .map a, .map b => Val.beqEntries a b
  | .struct a, .struct b => Val.beqList a b
  | .ptr a, .ptr b => Val.beq a b
  | .iface t a, .iface t2 b => Ty.beq t t2 && Val.beq a b
  | _, _ => false
/-- Structural equality test on lists of values. -/
def Val.beqList : List Val → List Val → Bool
  | [], [] => true
  | x :: xs, y :: ys => Val.beq x y && Val.beqList xs ys
  | _, _ => false
/-- Structural equality test on lists of map entries. -/
def Val.beqEntries : List (Val × Val) → List (Val × Val) → Bool
  | [], [] => true
  | (k, v) :: xs, (k2, v2) :: ys => Val.beq k k2 && Val.beq v v2 && Val.beqEntries xs ys
  | _, _ => false
end

instance : BEq Val := ⟨Val.beq⟩

/-- Width in bits of an integer kind (the platform kinds are 64 bits wide). -/
def Basic.bits : Basic → Nat
  | .Int8 | .Uint8 => 8
  | .Int16 | .Uint16 => 16
  | .Int32 | .Uint32 => 32
  | _ => 64

/-- Two's-complement wrap of `x` to `bits` bits, as a conversion such as
`int16(x)` does. -/
def wrapInt (bits : Nat) (x : Int) : Int :=
  (x + 2 ^ (bits - 1)) % 2 ^ bits - 2 ^ (bits - 1)

/-- The method `Value.SetInt` on a destination of kind `b`. -/
def SetInt (b : Basic) (x : Int) : Val := .int (wrapInt b.bits x)

/-- The method `Value.SetUint` on a destination of kind `b`. -/
def SetUint (b : Basic) (x : Nat) : Val := .uint (x % 2 ^ b.bits)

/-- The zero value of a basic type. -/
def zeroBasic : Basic → Val
  | .Bool => .bool false
  | .Int | .Int8 | .Int16 | .Int32 | .Int64 => .int 0
  | .Uint | .Uint8 | .Uint16 | .Uint32 | .Uint64 | .Uintptr => .uint 0
  | .Float32 => .float (List.replicate 4 0)
  | .Float64 => .float (List.replicate 8 0)
  | .Complex64 => .complex (List.replicate 4 0) (List.replicate 4 0)
  | .Complex128 => .complex (List.replicate 8 0) (List.replicate 8 0)
  | .String => .str []
  | .Chan | .Func | .UnsafePointer => .nil

mutual
/-- The zero value of a type (`reflect.Zero`, `reflect.New(t).Elem()`). -/
def zero : Ty → Val
  | .basic b => zeroBasic b
  | .array n e => .array (List.replicate n (zero e))
  | .struct fs => .struct (zeroFields fs)
  | .iface | .map _ _ | .ptr _ | .slice _ => .nil
/-- The zero values of the fields of a struct type. -/
def zeroFields : List StructField → List Val
  | [] => []
  | .mk _ t _ :: fs => zero t :: zeroFields fs
end

/-- The method `Value.Bool`. -/
def Val.Bool : Val → Bool
  | .bool b => b
  | _ => false

/-- The method `Value.Int`. -/
def Val.Int : Val → Int
  | .int i => i
  | _ => 0

/-- The method `Value.Uint`. -/
def Val.Uint : Val → Nat
  | .uint u => u
  | _ => 0

/-- The memory image of a floating point value. -/
def Val.Bits : Val → List Byte
  | .float bs => bs
  | _ => []

/-- The memory image of the real part of a complex value. -/
def Val.Real : Val → List Byte
  | .complex re _ => re
  | _ => []

/-- The memory image of the imaginary part of a complex value. -/
def Val.Imag : Val → List Byte
  | .complex _ im => im
  | _ => []

/-- The memory image is a NaN of its width: all exponent bits are set and
the fraction is not zero. -/
def isNaN : List Byte → Bool
  | [b0, b1, b2, b3] =>
    b3.val % 128 == 127 && decide (128 ≤ b2.val) &&
      (b2.val % 128 != 0 || b1.val != 0 || b0.val != 0)
  | [b0, b1, b2, b3, b4, b5, b6, b7] =>
    b7.val % 128 == 127 && decide (240 ≤ b6.val) &&
      (b6.val % 16 != 0 || b5.val != 0 || b4.val != 0 || b3.val != 0 || b2.val != 0
        || b1.val != 0 || b0.val != 0)
  | _ => false

/-- The memory image is a zero, of either sign: all bits but the sign bit are
clear. -/
def isZeroFloat : List Byte → Bool
  | [b0, b1, b2, b3] => b0.val == 0 && b1.val == 0 && b2.val == 0 && b3.val % 128 == 0
  | [b0, b1, b2, b3, b4, b5, b6, b7] =>
    b0.val == 0 && b1.val == 0 && b2.val == 0 && b3.val == 0 && b4.val == 0 && b5.val == 0
      && b6.val == 0 && b7.val % 128 == 0
  | _ => false

/-- The conversion `float32(float64(x))` on the memory image of the
`float32` value `x`, which is what `Value.Float` followed by `float32(...)`,
and `float64(...)` followed by `Value.SetFloat`, do to a `float32`: the
number is kept; the quiet bit (the highest bit of the fraction) of a NaN is
set. -/
def viaFloat64 : List Byte → List Byte
  | [b0, b1, b2, b3] =>
    if isNaN [b0, b1, b2, b3] then [b0, b1, Byte.ofNat (b2.val ||| 0x40), b3]
    else [b0, b1, b2, b3]
  | bs => bs

/-- The `==` of Go on two floating point numbers of one width: neither is a
NaN, and they are the same number (the two zeros are equal). -/
def floatEq (a b : List Byte) : Bool :=
  !isNaN a && !isNaN b && (a == b || (isZeroFloat a && isZeroFloat b))

mutual
/-- The `==` of Go on two map keys of one type, one of which the decoder has
just built (or which are two different keys of one map): booleans, integers
and strings by content, floating point and complex numbers by value, arrays
and structs element by element, nil pointers equal and a pointer that is not
nil equal to no other.  (Slices and maps have no `==`; an interface key is
never decoded.) -/
def keyEq : Val → Val → Bool
  | .bool a, .bool b => a == b
  | .int a, .int b => a == b
  | .uint a, .uint b => a == b
  | .str a, .str b => a == b
  | .float a, .float b => floatEq a b
  | .complex a c, .complex b d => floatEq a b && floatEq c d
  | .nil, .nil => true
  | .array a, .array b => keyEqList a b
  | .struct a, .struct b => keyEqList a b
  | _, _ => false
/-- The test `keyEq` on the elements of two arrays or the fields of two
structs. -/
def keyEqList : List Val → List Val → Bool
  | [], [] => true
  | x :: xs, y :: ys => keyEq x y && keyEqList xs ys
  | _, _ => false
end

/-- The method `Value.String` (the bytes of the string). -/
def Val.String : Val → List Byte
  | .str s => s
  | _ => []

/-- The byte a value of kind `bool`, `int8` or `uint8` occupies in memory. -/
def Val.memByte : Val → Byte
  | .bool b => if b then 1 else 0
  | .int i => Byte.ofNat (i % 256).toNat
  | .uint u => Byte.ofNat u
  | _ => 0

/-- The conversion `int8(b)` of a byte read into the memory of an `int8`. -/
def int8OfByte (b : Byte) : Int :=
  if b.val < 128 then (b.val : Int) else (b.val : Int) - 256

/-! ## The type registry (`type.go`): its data -/

/-- The struct `Field` of a schema definition.  `Tags` lists the entries of
the Go map. -/
structure Field where
  Name : String
  Typ : String
  Tags : List (String × String)

/-- The struct `Schema`. -/
structure Schema where
  Name : String
  Fields : List Field

/-- The struct `options` of the registry.  A resolver (`type Resolver`) is a
function of the name that answers a schema and an error. -/
structure options where
  disablePointer : Bool
  stringKeyOnly : Bool
  schemaResolver : Option (String → Schema × Option Err)

/-- The struct `Types`: the two maps of the registry and its options.  A map
is the list of the assignments made to it, the latest first, so that an
assignment to a key shadows the earlier ones.  A stored `reflect.Type` can be
the nil interface, which is `none`. -/
structure Types where
  tm : List (String × Option Ty)
  tn : List (Option Ty × String)
  os : options

/-- The method `Types.TypeByName`: the pair `(t, ok)` is `some t` when `ok`
is true. -/
def Types.TypeByName (ts : Types) (name : String) : Option (Option Ty) :=
  ts.tm.lookup name

/-- The method `Types.NameByType`: the pair `(name, ok)` is `some name` when
`ok` is true. -/
def Types.NameByType (ts : Types) (t : Option Ty) : Option String :=
  ts.tn.lookup t

/-! ## The encoder (`encode.go`) -/

/-- What one encode call did: the bytes it appended to the stream and the
error it returned.  When `err` is set, `out` holds what was written before
the failure. -/
structure EncRes where
  out : List Byte
  err : Option Err
  deriving DecidableEq

/-- Sequencing of two writes: the second happens only if the first returned
no error. -/
def EncRes.andThen (a b : EncRes) : EncRes :=
  match a.err with
  | some _ => a
  | none => ⟨a.out ++ b.out, b.err⟩

/-- The struct `Encoder` without its stream: the extension table, a partial
map from types to functions, and the optional registry.  An extension
function is given by the bytes it writes and the error it returns for a
value. -/
structure Encoder where
  Extend : Ty → Option (Val → EncRes)
  Types : Option Types

/-- The bytes of a Go string holding the text `s`. -/
def nameBytes (s : String) : List Byte :=
  s.toUTF8.data.toList.map fun b => Byte.ofNat b.toNat

/-- The `reflect.String` case of `InternalEncode`: the length through
`binary.PutVarint`, then the bytes. -/
def encodeString (s : List Byte) : EncRes :=
  ⟨PutVarint s.length ++ s, none⟩

/-- The cases of `InternalEncode` for the kinds without element type: one
raw byte for `bool`, `int8` and `uint8`; `binary.PutVarint` for the other
signed and `binary.PutUvarint` for the other unsigned integers; the memory
image for floating point and complex numbers, where a `float32` and the
parts of a `complex64` have gone through `float64` (`float32(rv.Float())`,
`complex64(rv.Complex())`); the string case; and the error of the default
branch for channels, functions and unsafe pointers. -/
def encodeBasic (b : Basic) (rv : Val) : EncRes :=
  match b with
  | .Bool => ⟨[if rv.Bool then 1 else 0], none⟩
  | .Int8 => ⟨[Byte.ofNat (rv.Int % 256).toNat], none⟩
  | .Uint8 => ⟨[Byte.ofNat rv.Uint], none⟩
  | .Int | .Int16 | .Int32 | .Int64 => ⟨PutVarint rv.Int, none⟩
  | .Uint | .Uint16 | .Uint32 | .Uint64 | .Uintptr => ⟨PutUvarint rv.Uint, none⟩
  | .Float32 => ⟨viaFloat64 rv.Bits, none⟩
  | .Float64 => ⟨rv.Bits, none⟩
  | .Complex64 => ⟨viaFloat64 rv.Real ++ viaFloat64 rv.Imag, none⟩
  | .Complex128 => ⟨rv.Real ++ rv.Imag, none⟩
  | .String => encodeString rv.String
  | .Chan | .Func | .UnsafePointer => ⟨[], some (Err.unexpectedKind b.Kind)⟩

mutual
/-- The method `Encoder.InternalEncode` on a value of type `t` with data `rv`. -/
def InternalEncode (e : Encoder) : Ty → Val → EncRes
  | .basic b, rv => encodeBasic b rv
  | .slice el, rv =>
    match rv with
    | .slice elems _ =>
      match el.Kind with
      | .Int8 | .Uint8 | .Bool => ⟨PutVarint elems.length ++ elems.map Val.memByte, none⟩
      | _ => EncRes.andThen ⟨PutVarint elems.length, none⟩ (encodeElems e el elems)
    | _ => ⟨PutVarint 0, none⟩
  | .array _ el, rv =>
    match rv with
    | .array elems => encodeElems e el elems
    | _ => ⟨[], none⟩
  | .map kt vt, rv =>
    match rv with
    | .map entries =>
      EncRes.andThen ⟨PutVarint entries.length, none⟩ (encodeEntries e kt vt entries)
    | _ => ⟨PutVarint 0, none⟩
  | .struct fs, rv =>
    match e.Extend (.struct fs) with
    | some fn => fn rv
    | none =>
      match rv with
      | .struct vs => encodeFields e fs vs
      | _ => ⟨[], none⟩
  | .ptr el, rv =>
    match rv with
    | .ptr x => EncRes.andThen ⟨[1], none⟩ (InternalEncode e el x)
    | _ => ⟨[0], none⟩
  | .iface, rv =>
    match rv with
    | .iface tp x =>
      match e.Types with
      | none => ⟨[], some Err.unknownType⟩
      | some ts =>
        match ts.NameByType (some tp) with
        | none => ⟨[], some Err.unknownType⟩
        | some nm => EncRes.andThen (encodeString (nameBytes nm)) (InternalEncode e tp x)
    | _ => ⟨[0], none⟩
/-- The element loop of the slice and array cases. -/
def encodeElems (e : Encoder) (el : Ty) : List Val → EncRes
  | [] => ⟨[], none⟩
  | x :: xs => EncRes.andThen (InternalEncode e el x) (encodeElems e el xs)
/-- The entry loop of the map case: key, then value, in iteration order. -/
def encodeEntries (e : Encoder) (kt vt : Ty) : List (Val × Val) → EncRes
  | [] => ⟨[], none⟩
  | (k, v) :: rest =>
    EncRes.andThen (InternalEncode e kt k)
      (EncRes.andThen (InternalEncode e vt v) (encodeEntries e kt vt rest))
/-- The field loop of the struct case. -/
def encodeFields (e : Encoder) : List StructField → List Val → EncRes
  | .mk _ t _ :: fs, v :: vs => EncRes.andThen (InternalEncode e t v) (encodeFields e fs vs)
  | _, _ => ⟨[], none⟩
end

/-- The method `Encoder.Encode`; the argument `a` of type `interface{}` is a
dynamic type and a value, or nil. -/
def Encoder.Encode (e : Encoder) (a : Val) : EncRes :=
  match a with
  | .iface t rv => if t.Kind ≠ Kind.Ptr then ⟨[], some Err.notPointer⟩ else InternalEncode e t rv
  | _ => ⟨[], some Err.notPointer⟩

/-! ## The decoder (`decode.go`) -/

/-- What one decode call did: the destination afterwards, the unread rest of
the stream, and the error it returned; the value `Err.setPanic` in the place
of the error says that the call did not return but panicked. -/
structure DecRes where
  val : Val
  rest : Reader
  err : Option Err

/-- The struct `Decoder` without its stream: the extension table.  An
extension function maps the destination and the stream to the result. -/
structure Decoder where
  Extend : Ty → Option (Val → Reader → DecRes)

/-- The element loop of the slice and array cases: the elements are decoded
in place, in order; a failing element ends the loop. -/
def decodeElems (f : Val → Reader → DecRes) : List Val → Reader → List Val × Reader × Option Err
  | [], r => ([], r, none)
  | x :: xs, r =>
    let dd := f x r
    match dd.err with
    | some err => (dd.val :: xs, dd.rest, some err)
    | none =>
      match decodeElems f xs dd.rest with
      | (ys, r2, err) => (dd.val :: ys, r2, err)

/-- The method `Value.SetMapIndex` on the entries of a map: the value of an
equal key is replaced, a new key is added.  With the value the runtime also
stores the new key in the place of the equal one, for the kinds in which
equal keys can differ (the two zeros of a floating point number). -/
def SetMapIndex : List (Val × Val) → Val → Val → List (Val × Val)
  | [], k, v => [(k, v)]
  | (k0, v0) :: rest, k, v =>
    if keyEq k0 k then (k, v) :: rest else (k0, v0) :: SetMapIndex rest k v

/-- The pairs stored one after the other into the entries `m`. -/
def storeAll (m : List (Val × Val)) (pairs : List (Val × Val)) : List (Val × Val) :=
  pairs.foldl (fun m kv => SetMapIndex m kv.1 kv.2) m

/-- The entry loop of the map case: `n` times, a fresh key and a fresh value
are decoded by `fk` and `fv` and stored in the map. -/
def decodeEntries (fk fv : Reader → DecRes) :
    Nat → List (Val × Val) → Reader → List (Val × Val) × Reader × Option Err
  | 0, m, r => (m, r, none)
  | n + 1, m, r =>
    let dk := fk r
    match dk.err with
    | some err => (m, dk.rest, some err)
    | none =>
      let dv := fv dk.rest
      match dv.err with
      | some err => (m, dv.rest, some err)
      | none => decodeEntries fk fv n (SetMapIndex m dk.val dv.val) dv.rest

/-- The elements of an array value. -/
def Val.arrayElems : Val → List Val
  | .array elems => elems
  | _ => []

/-- The fields of a struct value. -/
def Val.structFields : Val → List Val
  | .struct vs => vs
  | _ => []

/-- The entries of a map value; none for the nil map. -/
def Val.mapEntries : Val → List (Val × Val)
  | .map entries => entries
  | _ => []

/-- The storage the slice case decodes into: the destination `rv` is kept
with its length set to `n` when it is non-nil and its capacity covers `n`,
otherwise `reflect.MakeSlice` gives `n` zero elements and no spare room. -/
def sliceStorage (el : Ty) (rv : Val) (n : Nat) : List Val × List Val :=
  match rv with
  | .slice elems spare =>
    if elems.length + spare.length < n then (List.replicate n (zero el), [])
    else ((elems ++ spare).take n, (elems ++ spare).drop n)
  | _ => (List.replicate n (zero el), [])

/-- The pointee the pointer case decodes into: the pointee of a non-nil
destination, a new zero value (`reflect.New`) for a nil one. -/
def ptrTarget (el : Ty) (rv : Val) : Val :=
  match rv with
  | .ptr x => x
  | _ => zero el

/-- The signed integer cases of `InternalDecode` (`binary.ReadVarint`, then
`SetInt`). -/
def decodeInt (t : Basic) (rv : Val) (r : Reader) : DecRes :=
  match ReadVarint r with
  | (_, r1, some err) => ⟨rv, r1, some err⟩
  | (i, r1, none) => ⟨SetInt t i, r1, none⟩

/-- The unsigned integer cases of `InternalDecode` (`binary.ReadUvarint`, then
`SetUint`). -/
def decodeUint (t : Basic) (rv : Val) (r : Reader) : DecRes :=
  match ReadUvarint r with
  | (_, r1, some err) => ⟨rv, r1, some err⟩
  | (u, r1, none) => ⟨SetUint t u, r1, none⟩

/-- The floating point and complex cases of `InternalDecode`: one `Read` into
the `n` bytes of a local variable, `io.EOF` when fewer arrive; then
`SetFloat` or `SetComplex`, which stores `set buf` for the bytes `buf`. -/
def decodeFloat (n : Nat) (set : List Byte → Val) (rv : Val) (r : Reader) : DecRes :=
  match r.Read n with
  | (_, r1, some err) => ⟨rv, r1, some err⟩
  | (buf, r1, none) =>
    if buf.length ≠ n then ⟨rv, r1, some Err.EOF⟩
    else ⟨set buf, r1, none⟩

/-- What `SetFloat(float64(v))` stores in a `float32` for the bytes read into
`v`. -/
def setFloat32 (buf : List Byte) : Val := .float (viaFloat64 buf)

/-- What `SetFloat(v)` stores in a `float64` for the bytes read into `v`. -/
def setFloat64 (buf : List Byte) : Val := .float buf

/-- What `SetComplex(complex128(v))` stores in a `complex64` for the bytes
read into `v`: the real part comes first. -/
def setComplex64 (buf : List Byte) : Val :=
  .complex (viaFloat64 (buf.take 4)) (viaFloat64 (buf.drop 4))

/-- What `SetComplex(v)` stores in a `complex128` for the bytes read into
`v`. -/
def setComplex128 (buf : List Byte) : Val := .complex (buf.take 8) (buf.drop 8)

/-- The `reflect.String` case of `InternalDecode`: a length that is read with
an error, or is not positive, ends the call; otherwise one `Read` of that
many bytes, `io.EOF` when fewer arrive. -/
def decodeString (rv : Val) (r : Reader) : DecRes :=
  match ReadVarint r with
  | (_, r1, some err) => ⟨rv, r1, some err⟩
  | (i, r1, none) =>
    if i ≤ 0 then ⟨rv, r1, none⟩
    else
      match r1.Read i.toNat with
      | (_, r2, some err) => ⟨rv, r2, some err⟩
      | (slc, r2, none) =>
        if slc.length ≠ i.toNat then ⟨rv, r2, some Err.EOF⟩
        else ⟨.str slc, r2, none⟩

/-- The cases of `InternalDecode` for the kinds without element type. -/
def decodeBasic (b : Basic) (rv : Val) (r : Reader) : DecRes :=
  match b with
  | .Bool =>
    match r.ReadByte with
    | (_, r1, some err) => ⟨rv, r1, some err⟩
    | (c, r1, none) => ⟨.bool (c ≠ 0), r1, none⟩
  | .Int8 =>
    match r.ReadByte with
    | (_, r1, some err) => ⟨rv, r1, some err⟩
    | (c, r1, none) => ⟨SetInt .Int8 (int8OfByte c), r1, none⟩
  | .Uint8 =>
    match r.ReadByte with
    | (_, r1, some err) => ⟨rv, r1, some err⟩
    | (c, r1, none) => ⟨SetUint .Uint8 c.val, r1, none⟩
  | .Int | .Int16 | .Int32 | .Int64 => decodeInt b rv r
  | .Uint | .Uint16 | .Uint32 | .Uint64 | .Uintptr => decodeUint b rv r
  | .Float32 => decodeFloat 4 setFloat32 rv r
  | .Float64 => decodeFloat 8 setFloat64 rv r
  | .Complex64 => decodeFloat 8 setComplex64 rv r
  | .Complex128 => decodeFloat 16 setComplex128 rv r
  | .String => decodeString rv r
  | .Chan | .Func | .UnsafePointer => ⟨rv, r, some (Err.unexpectedKind b.Kind)⟩

/-- The cases of `InternalDecode` for the kinds without element type, on a
read-only destination: the bytes are read as on any destination, and the
`Set...` call that would store them panics.  A string whose length is not
positive is not stored, so that nothing happens. -/
def decodeBasicRO (b : Basic) (rv : Val) (r : Reader) : DecRes :=
  match b with
  | .String =>
    match ReadVarint r with
    | (_, r1, some err) => ⟨rv, r1, some err⟩
    | (i, r1, none) =>
      if i ≤ 0 then ⟨rv, r1, none⟩
      else
        match r1.Read i.toNat with
        | (_, r2, some err) => ⟨rv, r2, some err⟩
        | (slc, r2, none) =>
          if slc.length ≠ i.toNat then ⟨rv, r2, some Err.EOF⟩
          else ⟨rv, r2, some Err.setPanic⟩
  | .Chan | .Func | .UnsafePointer => ⟨rv, r, some (Err.unexpectedKind b.Kind)⟩
  | _ =>
    match decodeBasic b rv r with
    | ⟨_, r1, some err⟩ => ⟨rv, r1, some err⟩
    | ⟨_, r1, none⟩ => ⟨rv, r1, some Err.setPanic⟩

mutual
/-- The method `Decoder.InternalDecode` on a destination of type `t` holding
`rv` that can be set (it is addressable and was not reached through an
unexported field), reading from `r`. -/
def InternalDecode (d : Decoder) : Ty → Val → Reader → DecRes
  | .basic b, rv, r => decodeBasic b rv r
  | .iface, rv, r => ⟨rv, r, some (Err.unexpectedKind .Interface)⟩
  | .slice el, rv, r =>
    match ReadVarint r with
    | (_, r1, some err) => ⟨rv, r1, some err⟩
    | (i, r1, none) =>
      if i ≤ 0 then ⟨rv, r1, none⟩
      else
        match decodeElems (InternalDecode d el) (sliceStorage el rv i.toNat).1 r1 with
        | (ys, r2, err) => ⟨.slice ys (sliceStorage el rv i.toNat).2, r2, err⟩
  | .array _ el, rv, r =>
    match decodeElems (InternalDecode d el) rv.arrayElems r with
    | (ys, r2, err) => ⟨.array ys, r2, err⟩
  | .map kt vt, rv, r =>
    match ReadVarint r with
    | (_, r1, some err) => ⟨rv, r1, some err⟩
    | (i, r1, none) =>
      if i ≤ 0 then ⟨rv, r1, none⟩
      else
        match decodeEntries (InternalDecode d kt (zero kt)) (InternalDecode d vt (zero vt))
            i.toNat rv.mapEntries r1 with
        | (m, r2, err) => ⟨.map m, r2, err⟩
  | .struct fs, rv, r =>
    match d.Extend (.struct fs) with
    | some fn => fn rv r
    | none =>
      match decodeFields d fs rv.structFields r with
      | (ys, r2, err) => ⟨.struct ys, r2, err⟩
  | .ptr el, rv, r =>
    match r.ReadByte with
    | (_, r1, some err) => ⟨rv, r1, some err⟩
    | (c, r1, none) =>
      if c.val ≤ 0 then ⟨rv, r1, none⟩
      else
        match InternalDecode d el (ptrTarget el rv) r1 with
        | ⟨x, r2, err⟩ => ⟨.ptr x, r2, err⟩
/-- The field loop of the struct case: the fields are decoded in place, in
declaration order; a failing field ends the loop.  The value `rv.Field(x)` of
an unexported field is read-only. -/
def decodeFields (d : Decoder) : List StructField → List Val → Reader → List Val × Reader × Option Err
  | .mk n t _ :: fs, v :: vs, r =>
    match (if IsExported n then InternalDecode d t v r else decodeRO d t v r) with
    | ⟨x, r1, some err⟩ => (x :: vs, r1, some err)
    | ⟨x, r1, none⟩ =>
      match decodeFields d fs vs r1 with
      | (ys, r2, err) => (x :: ys, r2, err)
  | _, vs, r => (vs, r, none)
/-- The method `Decoder.InternalDecode` on a read-only destination of type
`t` holding `rv`: it reads what it reads on any destination and panics at the
first `Set`, `SetLen`, `SetMapIndex` or other setter it reaches.  The
elements of a read-only array, the fields of a read-only struct and the
pointee of a read-only pointer are read-only; the key and the value of a map
entry are new variables, which can be set. -/
def decodeRO (d : Decoder) : Ty → Val → Reader → DecRes
  | .basic b, rv, r => decodeBasicRO b rv r
  | .iface, rv, r => ⟨rv, r, some (Err.unexpectedKind .Interface)⟩
  | .slice _, rv, r =>
    match ReadVarint r with
    | (_, r1, some err) => ⟨rv, r1, some err⟩
    | (i, r1, none) =>
      if i ≤ 0 then ⟨rv, r1, none⟩ else ⟨rv, r1, some Err.setPanic⟩
  | .array _ el, rv, r =>
    match decodeElems (decodeRO d el) rv.arrayElems r with
    | (ys, r2, err) => ⟨.array ys, r2, err⟩
  | .map kt vt, rv, r =>
    match ReadVarint r with
    | (_, r1, some err) => ⟨rv, r1, some err⟩
    | (i, r1, none) =>
      if i ≤ 0 then ⟨rv, r1, none⟩
      else
        match rv with
        | .map _ =>
          match InternalDecode d kt (zero kt) r1 with
          | ⟨_, r2, some err⟩ => ⟨rv, r2, some err⟩
          | ⟨_, r2, none⟩ =>
            match InternalDecode d vt (zero vt) r2 with
            | ⟨_, r3, some err⟩ => ⟨rv, r3, some err⟩
            | ⟨_, r3, none⟩ => ⟨rv, r3, some Err.setPanic⟩
        | _ => ⟨rv, r1, some Err.setPanic⟩
  | .struct fs, rv, r =>
    match d.Extend (.struct fs) with
    | some fn => fn rv r
    | none =>
      match decodeFieldsRO d fs rv.structFields r with
      | (ys, r2, err) => ⟨.struct ys, r2, err⟩
  | .ptr el, rv, r =>
    match r.ReadByte with
    | (_, r1, some err) => ⟨rv, r1, some err⟩
    | (c, r1, none) =>
      if c.val ≤ 0 then ⟨rv, r1, none⟩
      else
        match rv with
        | .ptr x =>
          match decodeRO d el x r1 with
          | ⟨y, r2, err⟩ => ⟨.ptr y, r2, err⟩
        | _ => ⟨rv, r1, some Err.setPanic⟩
/-- The field loop of the struct case on a read-only struct. -/
def decodeFieldsRO (d : Decoder) : List StructField → List Val → Reader → List Val × Reader × Option Err
  | .mk _ t _ :: fs, v :: vs, r =>
    match decodeRO d t v r with
    | ⟨x, r1, some err⟩ => (x :: vs, r1, some err)
    | ⟨x, r1, none⟩ =>
      match decodeFieldsRO d fs vs r1 with
      | (ys, r2, err) => (x :: ys, r2, err)
  | _, vs, r => (vs, r, none)
end

/-- The method `Decoder.Decode`; the argument `a` of type `interface{}` is a
dynamic type and a value, or nil, and the result holds the argument after the
call.  The answer `none` is a panic.  The value `reflect.ValueOf(a)` is not
settable: when it is a nil pointer and a presence byte above zero is read,
`rv.Set` panics. -/
def Decoder.Decode (d : Decoder) (a : Val) (r : Reader) : Option DecRes :=
  match a with
  | .iface t rv =>
    if t.Kind ≠ Kind.Ptr then some ⟨a, r, some Err.notPointer⟩
    else
      match rv with
      | .ptr _ =>
        match InternalDecode d t rv r with
        | ⟨x, r1, err⟩ =>
          if err = some Err.setPanic then none else some ⟨.iface t x, r1, err⟩
      | _ =>
        match r.ReadByte with
        | (_, r1, some err) => some ⟨a, r1, some err⟩
        | (c, r1, none) => if c.val ≤ 0 then some ⟨a, r1, none⟩ else none
  | _ => some ⟨a, r, some Err.notPointer⟩

/-! ## Shapes and well-typed values -/

/-- The basic kinds whose `==` compares the content: booleans, integers and
strings. -/
def basicKeyOK : Basic → Bool
  | .Bool | .Int | .Int8 | .Int16 | .Int32 | .Int64
  | .Uint | .Uint8 | .Uint16 | .Uint32 | .Uint64 | .Uintptr | .String => true
  | _ => false

mutual
/-- The key kinds on which two keys are equal exactly when they hold the
same data, so that any key can be looked up: booleans, integers, strings,
and arrays and structs built from them.  (A NaN is equal to nothing, not
even to itself, and a pointer is equal to itself only.) -/
def Ty.keyOK : Ty → Bool
  | .basic b => basicKeyOK b
  | .array _ e => Ty.keyOK e
  | .struct fs => Ty.keyOKFields fs
  | _ => false
/-- All fields have such a key kind. -/
def Ty.keyOKFields : List StructField → Bool
  | [] => true
  | .mk _ t _ :: fs => Ty.keyOK t && Ty.keyOKFields fs
end

/-- The basic kinds the codec handles in both directions: all but channels,
functions and unsafe pointers. -/
def basicCodable : Basic → Bool
  | .Chan | .Func | .UnsafePointer => false
  | _ => true

mutual
/-- The shapes the codec handles in both directions: built from bool, the
integer kinds, floats and complex numbers, strings, slices, arrays, maps,
structs whose fields are exported, and pointers; no interface, channel,
function or unsafe pointer anywhere. -/
def Ty.codable : Ty → Bool
  | .basic b => basicCodable b
  | .iface => false
  | .array _ e => Ty.codable e
  | .slice e => Ty.codable e
  | .ptr e => Ty.codable e
  | .map k v => Ty.codable k && Ty.codable v
  | .struct fs => Ty.codableFields fs
/-- All fields are exported and have a shape the codec handles. -/
def Ty.codableFields : List StructField → Bool
  | [] => true
  | .mk n t _ :: fs => IsExported n && Ty.codable t && Ty.codableFields fs
end

/-- No two entries of a map have equal keys, as in every map of Go. -/
def noDupKeys : List (Val × Val) → Bool
  | [] => true
  | (k, _) :: rest => !(rest.any fun kv => keyEq k kv.1) && noDupKeys rest

/-- The data `v` is a value of the basic kind `b`: integers are in the range
of the kind, memory images have the size of the kind, the length of a string
fits an `int`. -/
def hasTypeBasic (b : Basic) (v : Val) : Bool :=
  match b, v with
  | .Bool, .bool _ => true
  | .Int8, .int i => decide (-2 ^ 7 ≤ i ∧ i < 2 ^ 7)
  | .Int16, .int i => decide (-2 ^ 15 ≤ i ∧ i < 2 ^ 15)
  | .Int32, .int i => decide (-2 ^ 31 ≤ i ∧ i < 2 ^ 31)
  | .Int, .int i | .Int64, .int i => decide (-2 ^ 63 ≤ i ∧ i < 2 ^ 63)
  | .Uint8, .uint u => decide (u < 2 ^ 8)
  | .Uint16, .uint u => decide (u < 2 ^ 16)
  | .Uint32, .uint u => decide (u < 2 ^ 32)
  | .Uint, .uint u | .Uint64, .uint u | .Uintptr, .uint u => decide (u < 2 ^ 64)
  | .Float32, .float bs => decide (bs.length = 4)
  | .Float64, .float bs => decide (bs.length = 8)
  | .Complex64, .complex re im => decide (re.length = 4 ∧ im.length = 4)
  | .Complex128, .complex re im => decide (re.length = 8 ∧ im.length = 8)
  | .String, .str s => decide (s.length < 2 ^ 63)
  | .Chan, .nil | .Func, .nil | .UnsafePointer, .nil => true
  | _, _ => false

mutual
/-- The data `v` is a value of type `t`: it has the shape of `t`, basic
values are values of their kind, arrays have the length of their type, and
lengths fit an `int`. -/
def hasType : Ty → Val → Bool
  | .basic b, v => hasTypeBasic b v
  | .slice el, v => match v with
    | .nil => true
    | .slice elems spare =>
      decide (elems.length + spare.length < 2 ^ 63) && hasTypeList el elems
        && hasTypeList el spare
    | _ => false
  | .array n el, v => match v with
    | .array elems => decide (elems.length = n) && hasTypeList el elems
    | _ => false
  | .map kt vt, v => match v with
    | .nil => true
    | .map entries =>
      decide (entries.length < 2 ^ 63) && hasTypeEntries kt vt entries
    | _ => false
  | .struct fs, v => match v with
    | .struct vs => hasTypeFields fs vs
    | _ => false
  | .ptr el, v => match v with
    | .nil => true
    | .ptr x => hasType el x
    | _ => false
  | .iface, v => match v with
    | .nil => true
    | .iface t x => hasType t x
    | _ => false
/-- Every element is a value of type `el`. -/
def hasTypeList (el : Ty) : List Val → Bool
  | [] => true
  | x :: xs => hasType el x && hasTypeList el xs
/-- Every entry is a key of type `kt` with a value of type `vt`. -/
def hasTypeEntries (kt vt : Ty) : List (Val × Val) → Bool
  | [] => true
  | (k, v) :: rest => hasType kt k && hasType vt v && hasTypeEntries kt vt rest
/-- The values are, in order, values of the field types. -/
def hasTypeFields : List StructField → List Val → Bool
  | [], [] => true
  | .mk _ t _ :: fs, v :: vs => hasType t v && hasTypeFields fs vs
  | _, _ => false
end

mutual
/-- The value as the decoder rebuilds it in a fresh destination: an empty
slice or map becomes nil (a zero length is read as "nothing to decode"), a
decoded slice has no spare capacity, the entries of a map are stored one
after the other into a new map (which keeps them as they are when no two
keys are equal), a `float32` and the parts of a `complex64` have gone
through `float64` (`viaFloat64`, which leaves the images of eight bytes as
they are); everything else is kept. -/
def canon : Val → Val
  | .slice elems _ =>
    match elems with
    | [] => .nil
    | x :: xs => .slice (canon x :: canonList xs) []
  | .array elems => .array (canonList elems)
  | .map entries =>
    match entries with
    | [] => .nil
    | (k, v) :: rest => .map (storeAll [] ((canon k, canon v) :: canonEntries rest))
  | .struct vs => .struct (canonList vs)
  | .ptr x => .ptr (canon x)
  | .iface t x => .iface t (canon x)
  | .bool b => .bool b
  | .int i => .int i
  | .uint u => .uint u
  | .float bs => .float (viaFloat64 bs)
  | .complex re im => .complex (viaFloat64 re) (viaFloat64 im)
  | .str s => .str s
  | .nil => .nil
/-- The function `canon` on every element. -/
def canonList : List Val → List Val
  | [] => []
  | x :: xs => canon x :: canonList xs
/-- The function `canon` on every key and value. -/
def canonEntries : List (Val × Val) → List (Val × Val)
  | [] => []
  | (k, v) :: rest => (canon k, canon v) :: canonEntries rest
end

/-! ## Notions used to state the properties -/

mutual
/-- No slice or map inside the value is empty without being nil, no slice has
spare capacity, no two keys of a map are equal, and no `float32` or part of a
`complex64` is a NaN whose quiet bit is clear: the values on which `canon`
has nothing to change. -/
def plain : Val → Bool
  | .slice elems spare => !elems.isEmpty && spare.isEmpty && plainList elems
  | .array elems => plainList elems
  | .map entries => !entries.isEmpty && noDupKeys entries && plainEntries entries
  | .struct vs => plainList vs
  | .ptr x => plain x
  | .iface _ x => plain x
  | .float bs => viaFloat64 bs == bs
  | .complex re im => viaFloat64 re == re && viaFloat64 im == im
  | .bool _ | .int _ | .uint _ | .str _ | .nil => true
/-- The predicate `plain` on every element. -/
def plainList : List Val → Bool
  | [] => true
  | x :: xs => plain x && plainList xs
/-- The predicate `plain` on every key and value. -/
def plainEntries : List (Val × Val) → Bool
  | [] => true
  | (k, v) :: rest => plain k && plain v && plainEntries rest
end

/-- The method `Value.MapIndex` on the entries of a map, for a key that is
not one of the pointers stored in the map. -/
def MapIndex : List (Val × Val) → Val → Option Val
  | [], _ => none
  | (k0, v0) :: rest, k => if keyEq k0 k then some v0 else MapIndex rest k

/-- The key/value pairs the entry loop of the map case reads from the stream,
in order, whatever the destination holds: `n` times a fresh key by `fk` and a
fresh value by `fv`, up to the first failure. -/
def readPairs (fk fv : Reader → DecRes) : Nat → Reader → List (Val × Val) × Reader × Option Err
  | 0, r => ([], r, none)
  | n + 1, r =>
    let dk := fk r
    match dk.err with
    | some err => ([], dk.rest, some err)
    | none =>
      let dv := fv dk.rest
      match dv.err with
      | some err => ([], dv.rest, some err)
      | none =>
        match readPairs fk fv n dv.rest with
        | (ps, r2, err) => ((dk.val, dv.val) :: ps, r2, err)

/-- The three facts the codec satisfies on a value `v` of type `t`: encoding
succeeds; decoding the encoding followed by any bytes `rest` into a fresh
destination gives `canon v` and leaves `rest`; decoding a strict initial
segment of the encoding fails. -/
def Good (e : Encoder) (d : Decoder) (t : Ty) (v : Val) : Prop :=
  (InternalEncode e t v).err = none ∧
  (∀ rest, InternalDecode d t (zero t) ((InternalEncode e t v).out ++ rest)
      = ⟨canon v, rest, none⟩) ∧
  (∀ p q, (InternalEncode e t v).out = p ++ q → q ≠ [] →
      (InternalDecode d t (zero t) p).err ≠ none)

/-- The three facts, for a basic kind. -/
def GoodBasic (b : Basic) (v : Val) : Prop :=
  (encodeBasic b v).err = none ∧
  (∀ rest, decodeBasic b (zeroBasic b) ((encodeBasic b v).out ++ rest) = ⟨canon v, rest, none⟩) ∧
  (∀ p q, (encodeBasic b v).out = p ++ q → q ≠ [] → (decodeBasic b (zeroBasic b) p).err ≠ none)

/-- The three facts, for the elements of a slice or an array. -/
def GoodElems (e : Encoder) (d : Decoder) (el : Ty) (vs : List Val) : Prop :=
  (encodeElems e el vs).err = none ∧
  (∀ rest, decodeElems (InternalDecode d el) (List.replicate vs.length (zero el))
      ((encodeElems e el vs).out ++ rest) = (canonList vs, rest, none)) ∧
  (∀ p q, (encodeElems e el vs).out = p ++ q → q ≠ [] →
      (decodeElems (InternalDecode d el) (List.replicate vs.length (zero el)) p).2.2 ≠ none)

/-- The three facts, for the fields of a struct. -/
def GoodFields (e : Encoder) (d : Decoder) (fs : List StructField) (vs : List Val) : Prop :=
  (encodeFields e fs vs).err = none ∧
  (∀ rest, decodeFields d fs (zeroFields fs) ((encodeFields e fs vs).out ++ rest)
      = (canonList vs, rest, none)) ∧
  (∀ p q, (encodeFields e fs vs).out = p ++ q → q ≠ [] →
      (decodeFields d fs (zeroFields fs) p).2.2 ≠ none)

/-- The three facts, for the entries of a map. -/
def GoodEntries (e : Encoder) (d : Decoder) (kt vt : Ty) (es : List (Val × Val)) : Prop :=
  (encodeEntries e kt vt es).err = none ∧
  (∀ m rest,
    decodeEntries (InternalDecode d kt (zero kt)) (InternalDecode d vt (zero vt)) es.length m
      ((encodeEntries e kt vt es).out ++ rest) = (storeAll m (canonEntries es), rest, none)) ∧
  (∀ m p q, (encodeEntries e kt vt es).out = p ++ q → q ≠ [] →
    (decodeEntries (InternalDecode d kt (zero kt)) (InternalDecode d vt (zero vt)) es.length m
      p).2.2 ≠ none)

/-- The results of `InternalEncode` on the fields of a record, in declaration
order. -/
def fieldResults (e : Encoder) (fs : List StructField) (vs : List Val) : List EncRes :=
  (List.zip fs vs).map fun p => InternalEncode e p.1.Typ p.2

/-- The results up to and including the first one that is an error (all of
them when none is). -/
def uptoFailure : List EncRes → List EncRes
  | [] => []
  | r :: rs => if r.err.isSome then [r] else r :: uptoFailure rs

/-- An encoder with an empty extension table and no registry. -/
def plainEncoder : Encoder := ⟨fun _ => none, none⟩

/-- A decoder with an empty extension table. -/
def plainDecoder : Decoder := ⟨fun _ => none⟩

/-- The bytes of the string `"123456"`. -/
def str123456 : List Byte := [0x31, 0x32, 0x33, 0x34, 0x35, 0x36]

/-- A sample record type: an unsigned id, a string, a slice of `int16`, a map
from strings to pointers to `int8`, and a `float32`. -/
def sampleTy : Ty :=
  .struct [.mk "ID" .uint "", .mk "UUID" .string "json:\"uuid\"", .mk "Marks" (.slice .int16) "",
    .mk "Index" (.map .string (.ptr .int8)) "", .mk "Level" .float32 ""]

/-- A value of the sample record type. -/
def sampleVal : Val :=
  .struct [.uint 300, .str str123456, .slice [.int (-3), .int 700] [],
    .map [(.str [1], .ptr (.int (-5))), (.str [], .nil)], .float [0, 0, 128, 63]]

/-- The encoding of `sampleVal`. -/
def sampleBytes : List Byte :=
  [172, 2, 12, 0x31, 0x32, 0x33, 0x34, 0x35, 0x36, 4, 5, 248, 10, 4, 2, 1, 1, 251, 0, 0,
    0, 0, 128, 63]

/-- A record type with an unsigned id and a string, as the first fields of the
record of the tests. -/
def idRecordTy : Ty := .struct [.mk "ID" .uint "json:\"id,omitempty\"", .mk "UUID" .string ""]

/-- A record type of two `uint8` fields. -/
def pairTy : Ty := .struct [.mk "A" .uint8 "", .mk "B" .uint8 ""]

/-- A record type of two `uint8` fields whose names are not exported. -/
def hiddenTy : Ty := .struct [.mk "a" .uint8 "", .mk "b" .uint8 ""]

/-- The memory image of the `float32` with the bits 0x7fa00000, a signalling
NaN. -/
def snan32 : List Byte := [0x00, 0x00, 0xa0, 0x7f]

/-- The memory image of the `float32` with the bits 0x7fe00000, the quiet NaN
with the same payload. -/
def qnan32 : List Byte := [0x00, 0x00, 0xe0, 0x7f]

/-- An extension function that writes one byte and reports an error. -/
def sampleHook : Val → EncRes := fun _ => ⟨[0xff], some (Err.hook 1)⟩

/-- An encoder whose extension table has an entry for the type `int`. -/
def intHookEncoder : Encoder :=
  ⟨fun t => match t with
    | .basic .Int => some sampleHook
    | _ => none, none⟩

/-- An extension function that reads nothing and reports an error. -/
def sampleDecHook : Val → Reader → DecRes := fun rv r => ⟨rv, r, some (Err.hook 2)⟩

/-- A decoder whose extension table has an entry for the type `int`. -/
def intHookDecoder : Decoder :=
  ⟨fun t => match t with
    | .basic .Int => some sampleDecHook
    | _ => none⟩

/-- An encoder whose extension table has an entry for the record type
`pairTy`. -/
def pairHookEncoder : Encoder :=
  ⟨fun t => if t == pairTy then some sampleHook else none, none⟩

/-- A decoder whose extension table has an entry for the record type
`pairTy`. -/
def pairHookDecoder : Decoder :=
  ⟨fun t => if t == pairTy then some sampleDecHook else none⟩

/-- A registry that knows the name of `int` only. -/
def intRegistry : Types :=
  ⟨[("int", some .int)], [(some .int, "int")], ⟨false, false, none⟩⟩

/-! ## The type registry (`type.go`): its operations -/

/-- The errors the registry returns. -/
inductive TypeErr
  /-- `"invalid schema name: %s"` -/
  | invalidSchemaName (name : String)
  /-- `"invalid field name: %s"` -/
  | invalidFieldName (name : String)
  /-- `"invalid array type: %s, error: %v"` -/
  | invalidArrayType (typ : String)
  /-- `"failed to resolve schema: %s, error: %v"` -/
  | resolveFailed (typ : String)
  /-- `"unknown type: %s"` -/
  | unknownType (typ : String)
  /-- `"recovered from: %v"` -/
  | recovered
  deriving DecidableEq, Repr

/-- The character class `[A-Z]`. -/
def isUpper (c : Char) : Bool := 65 ≤ c.toNat && c.toNat ≤ 90

/-- The character class `[0-9]`. -/
def isDigit (c : Char) : Bool := 48 ≤ c.toNat && c.toNat ≤ 57

/-- The character class `[A-Za-z0-9_]`. -/
def isWord (c : Char) : Bool :=
  isUpper c || (97 ≤ c.toNat && c.toNat ≤ 122) || isDigit c || c.toNat == 95

/-- The characters `.` matches in a Go regular expression: all but the line
feed. -/
def isDot (c : Char) : Bool := c.toNat != 10

/-- The method `MatchString` of the regular expression `ir`,
`^[A-Z][A-Za-z0-9_]*$`. -/
def ir.MatchString (s : String) : Bool :=
  match s.data with
  | [] => false
  | c :: cs => isUpper c && cs.all isWord

/-- The groups a bracketed expression splits into: for the text `body` after
the opening bracket, the longest run of characters of the class `cls`, which
must not be empty and must be followed by the closing bracket, and the rest,
which must not be empty and must not contain a line feed. -/
def bracketGroups (cls : Char → Bool) (body : List Char) : Option (String × String) :=
  match body.dropWhile cls with
  | c :: rest =>
    if c.toNat == 93 && !(body.takeWhile cls).isEmpty && !rest.isEmpty && rest.all isDot then
      some (String.mk (body.takeWhile cls), String.mk rest)
    else none
  | [] => none

/-- The method `FindStringSubmatch` of the regular expression `mr`,
`^map\[([A-Za-z0-9_]+)\](.+)$`: the two groups, when the text matches. -/
def mr.FindStringSubmatch (typ : String) : Option (String × String) :=
  if "map[".data.isPrefixOf typ.data then bracketGroups isWord (typ.data.drop 4) else none

/-- The method `FindStringSubmatch` of the regular expression `ar`,
`^\[([0-9]+)\](.+)$`: the two groups, when the text matches. -/
def ar.FindStringSubmatch (typ : String) : Option (String × String) :=
  if "[".data.isPrefixOf typ.data then bracketGroups isDigit (typ.data.drop 1) else none

/-- The function `strings.HasPrefix`. -/
def HasPrefix (s pre : String) : Bool := pre.data.isPrefixOf s.data

/-- The slice expression `s[n:]` of a string that starts with `n` one-byte
characters. -/
def sliceFrom (s : String) (n : Nat) : String := String.mk (s.data.drop n)

/-- The call `strconv.ParseInt(s, 10, 64)` for a string of decimal digits: the
value, or `none` for the range error of a value above the largest `int64`. -/
def ParseInt (s : String) : Option Nat :=
  if s.data.foldl (fun n c => 10 * n + (c.toNat - 48)) 0 < 2 ^ 63 then
    some (s.data.foldl (fun n c => 10 * n + (c.toNat - 48)) 0)
  else none

/-- One tag of a field as `createSchema` writes it: the key, a colon, and the
value in double quotes. -/
def tagEntry (kv : String × String) : String :=
  kv.1 ++ String.mk [Char.ofNat 58, Char.ofNat 34] ++ kv.2 ++ String.mk [Char.ofNat 34]

/-- The order `<=` of Go on strings: lexicographic in the character codes. -/
def lexLe : List Char → List Char → Bool
  | [], _ => true
  | _ :: _, [] => false
  | a :: as, b :: bs => a.toNat < b.toNat || (a.toNat == b.toNat && lexLe as bs)

/-- The tag of a struct field: the entries, sorted (`sort.Strings`) and
joined by one space. -/
def tagString (tags : List (String × String)) : String :=
  " ".intercalate ((tags.map tagEntry).insertionSort fun a b => lexLe a.data b.data = true)

mutual
/-- The types with a Go `==`, which `reflect.MapOf` accepts as key: all but
functions, maps, slices, and the arrays and structs that contain them. -/
def Ty.comparable : Ty → Bool
  | .basic b => b != Basic.Func
  | .iface => true
  | .array _ e => Ty.comparable e
  | .map _ _ => false
  | .ptr _ => true
  | .slice _ => false
  | .struct fs => Ty.comparableFields fs
/-- All fields are comparable. -/
def Ty.comparableFields : List StructField → Bool
  | [] => true
  | .mk _ t _ :: fs => Ty.comparable t && Ty.comparableFields fs
end

/-- The function `reflect.SliceOf`; the argument `none` is the nil interface
and the answer `none` a panic. -/
def SliceOf (e : Option Ty) : Option Ty := e.map Ty.slice

/-- The function `reflect.PtrTo`; the argument `none` is the nil interface and
the answer `none` a panic. -/
def PtrTo (e : Option Ty) : Option Ty := e.map Ty.ptr

/-- The function `reflect.ArrayOf`; the argument `none` is the nil interface
and the answer `none` a panic. -/
def ArrayOf (n : Nat) (e : Option Ty) : Option Ty := e.map (Ty.array n)

/-- The function `reflect.MapOf`; an argument `none` is the nil interface and
the answer `none` a panic, also raised for a key type without `==`. -/
def MapOf (k e : Option Ty) : Option Ty :=
  match k, e with
  | some kt, some et => if kt.comparable then some (.map kt et) else none
  | _, _ => none

/-- The fields handed to `reflect.StructOf`, with their types when all of
them have one. -/
def structFieldsOf : List (String × Option Ty × String) → Option (List StructField)
  | [] => some []
  | (n, some t, tag) :: fs => (structFieldsOf fs).map fun l => StructField.mk n t tag :: l
  | (_, none, _) :: _ => none

/-- The function `reflect.StructOf` on fields with exported names; a field is
its name, its type (`none` is the nil interface) and its tag.  The answer
`none` is a panic, raised for a field without type and for a repeated field
name. -/
def StructOf (fs : List (String × Option Ty × String)) : Option Ty :=
  if (fs.map fun f => f.1).Nodup then (structFieldsOf fs).map Ty.struct else none

/-- How a call into the registry ends: it returns `(t, err)`, or it panics;
either way the registry is left in the state `ts`. -/
inductive Outcome
  | ret (ts : Types) (t : Option Ty) (err : Option TypeErr)
  | panic (ts : Types)

/-- The registry after the call. -/
def Outcome.ts : Outcome → Types
  | .ret ts _ _ => ts
  | .panic ts => ts

/-- The type the call returned. -/
def Outcome.t : Outcome → Option Ty
  | .ret _ t _ => t
  | .panic _ => none

/-- The error the call returned. -/
def Outcome.err : Outcome → Option TypeErr
  | .ret _ _ err => err
  | .panic _ => none

/-- Whether the call panicked. -/
def Outcome.panicked : Outcome → Bool
  | .ret _ _ _ => false
  | .panic _ => true

/-- The statement pattern `x, err := call; if err != nil { return nil, err }`
followed by the rest `k` of the function; a panic of the call, and a call
that does not return (`none`), end the function as well. -/
def Outcome.andThen (r : Option Outcome) (k : Types → Option Ty → Option Outcome) :
    Option Outcome :=
  match r with
  | none => none
  | some (.panic ts) => some (.panic ts)
  | some (.ret ts _ (some err)) => some (.ret ts none (some err))
  | some (.ret ts t none) => k ts t

/-- The two assignments `ts.tm[typ] = t; ts.tn[t] = typ`. -/
def Types.publish (ts : Types) (typ : String) (t : Option Ty) : Types :=
  { ts with tm := (typ, t) :: ts.tm, tn := (t, typ) :: ts.tn }

/-- The end of a branch of `createType` that builds a type with package
reflect: the panic of the constructor, or the two assignments and the
return. -/
def publishBuilt (ts : Types) (typ : String) (built : Option Ty) : Option Outcome :=
  match built with
  | none => some (.panic ts)
  | some t => some (.ret (ts.publish typ (some t)) (some t) none)

/-- How the field loop of `createSchema` ends: with the fields for
`reflect.StructOf`, or with the outcome of the whole call. -/
inductive FieldsRes
  | built (ts : Types) (fs : List (String × Option Ty × String))
  | abort (o : Outcome)

/-- The field loop of `createSchema`; `ct` is the method `createType`. -/
def createFields (ct : Types → String → Option Outcome) :
    Types → List Field → Option FieldsRes
  | ts, [] => some (.built ts [])
  | ts, f :: rest =>
    if !ir.MatchString f.Name then
      some (.abort (.ret ts none (some (.invalidFieldName f.Name))))
    else
      match ct ts f.Typ with
      | none => none
      | some (.panic s) => some (.abort (.panic s))
      | some (.ret s _ (some err)) => some (.abort (.ret s none (some err)))
      | some (.ret s t none) =>
        match createFields ct s rest with
        | none => none
        | some (.abort o) => some (.abort o)
        | some (.built s2 fs) => some (.built s2 ((f.Name, t, tagString f.Tags) :: fs))

mutual
/-- The method `Types.createType`.  The recursion of the source is bounded by
`fuel`, the number of nested calls allowed; `none` says that the fuel did not
suffice. -/
def createType : Nat → Types → String → Option Outcome
  | 0, _, _ => none
  | fuel + 1, ts, typ =>
    match ts.tm.lookup typ with
    | some t => some (.ret ts t none)
    | none =>
      if HasPrefix typ "[]" then
        Outcome.andThen (createType fuel ts (sliceFrom typ 2)) fun s e =>
          publishBuilt s typ (SliceOf e)
      else if HasPrefix typ "map[string]" then
        Outcome.andThen (createType fuel ts (sliceFrom typ 11)) fun s e =>
          publishBuilt s typ (MapOf (some .string) e)
      else if !ts.os.disablePointer && HasPrefix typ "*" then
        Outcome.andThen (createType fuel ts (sliceFrom typ 1)) fun s e =>
          publishBuilt s typ (PtrTo e)
      else
        match (if ts.os.stringKeyOnly then none else mr.FindStringSubmatch typ) with
        | some (k, v) =>
          Outcome.andThen (createType fuel ts k) fun s1 kt =>
            Outcome.andThen (createType fuel s1 v) fun s2 vt =>
              publishBuilt s2 typ (MapOf kt vt)
        | none =>
          match ar.FindStringSubmatch typ with
          | some (digits, el) =>
            match ParseInt digits with
            | none => some (.ret ts none (some (.invalidArrayType typ)))
            | some n =>
              Outcome.andThen (createType fuel ts el) fun s e =>
                publishBuilt s typ (ArrayOf n e)
          | none =>
            match (if ir.MatchString typ then ts.os.schemaResolver else none) with
            | some resolver =>
              match resolver typ with
              | (_, some _) => some (.ret ts none (some (.resolveFailed typ)))
              | (s, none) =>
                Outcome.andThen (createSchema fuel ts s) fun s1 t =>
                  some (.ret (s1.publish typ t) t none)
            | none => some (.ret (ts.publish typ none) none (some (.unknownType typ)))
/-- The method `Types.createSchema`, bounded by `fuel` like `createType`. -/
def createSchema : Nat → Types → Schema → Option Outcome
  | 0, _, _ => none
  | fuel + 1, ts, s =>
    match ts.tm.lookup s.Name with
    | some t => some (.ret ts t none)
    | none =>
      if !ir.MatchString s.Name then some (.ret ts none (some (.invalidSchemaName s.Name)))
      else
        match createFields (createType fuel) ts s.Fields with
        | none => none
        | some (.abort o) => some o
        | some (.built s1 fs) =>
          match StructOf fs with
          | none => some (.panic s1)
          | some t => some (.ret (s1.publish s.Name (some t)) (some t) none)
end

/-- The deferred `recover` of the public methods: a panic becomes the error
`"recovered from: ..."`. -/
def recovered (r : Option Outcome) : Option Outcome :=
  match r with
  | some (.panic ts) => some (.ret ts none (some .recovered))
  | other => other

/-- The method `Types.CreateType`. -/
def Types.CreateType (fuel : Nat) (ts : Types) (typ : String) : Option Outcome :=
  match ts.tm.lookup typ with
  | some t => some (.ret ts t none)
  | none => recovered (createType fuel ts typ)

/-- The method `Types.CreateSchema`. -/
def Types.CreateSchema (fuel : Nat) (ts : Types) (s : Schema) : Option Outcome :=
  match ts.tm.lookup s.Name with
  | some t => some (.ret ts t none)
  | none => recovered (createSchema fuel ts s)

/-- The option `DisablePointer()`. -/
def DisablePointer : options → options := fun o => { o with disablePointer := true }

/-- The option `StringKeyOnly()`. -/
def StringKeyOnly : options → options := fun o => { o with stringKeyOnly := true }

/-- The option `UseResolver(r)`. -/
def UseResolver (r : String → Schema × Option Err) : options → options :=
  fun o => { o with schemaResolver := some r }

/-- The names `New` registers. -/
def builtins : List (String × Option Ty) :=
  [("bool", some .bool), ("int", some .int), ("uint", some .uint), ("int8", some .int8),
   ("int16", some .int16), ("int32", some .int32), ("int64", some .int64),
   ("uint8", some .uint8), ("uint16", some .uint16), ("uint32", some .uint32),
   ("uint64", some .uint64), ("uintptr", some .uintptr), ("float32", some .float32),
   ("float64", some .float64), ("complex64", some .complex64),
   ("complex128", some .complex128), ("string", some .string)]

/-- The function `New`. -/
def New (opts : List (options → options)) : Types :=
  { tm := builtins
    tn := builtins.map fun nt => (nt.2, nt.1)
    os := opts.foldl (fun o f => f o) ⟨false, false, none⟩ }

/-- The registry states a program can see: the one `New` returns, and the one
a call of `CreateType` or `CreateSchema` that returns leaves behind. -/
inductive Reachable (opts : List (options → options)) : Types → Prop
  | new : Reachable opts (New opts)
  | createType (fuel : Nat) (ts : Types) (typ : String) (out : Outcome) :
      Reachable opts ts → ts.CreateType fuel typ = some out → Reachable opts out.ts
  | createSchema (fuel : Nat) (ts : Types) (s : Schema) (out : Outcome) :
      Reachable opts ts → ts.CreateSchema fuel s = some out → Reachable opts out.ts

/-! ## What a call into the registry may do to it -/

/-- The assignments `createType` and `createSchema` make, by the branch that
makes them: in the registry `s`, the name `typ` is given the type `t`.  The
components of a compound expression are registered in `s` with the types the
compound is built from; a name that matches `ir` is given what a schema build
answered; the branch for an unknown expression assigns the nil type. -/
inductive Published (s : Types) (typ : String) : Option Ty → Prop
  | slice (e : Ty) : HasPrefix typ "[]" = true →
      s.tm.lookup (sliceFrom typ 2) = some (some e) → Published s typ (some (.slice e))
  | stringMap (e : Ty) : HasPrefix typ "map[string]" = true →
      s.tm.lookup (sliceFrom typ 11) = some (some e) →
      Published s typ (some (.map .string e))
  | ptr (e : Ty) : s.os.disablePointer = false → HasPrefix typ "*" = true →
      s.tm.lookup (sliceFrom typ 1) = some (some e) → Published s typ (some (.ptr e))
  | map (k v : String) (kt vt : Ty) : s.os.stringKeyOnly = false →
      mr.FindStringSubmatch typ = some (k, v) → s.tm.lookup k = some (some kt) →
      s.tm.lookup v = some (some vt) → kt.comparable = true →
      Published s typ (some (.map kt vt))
  | array (digits el : String) (n : Nat) (e : Ty) :
      ar.FindStringSubmatch typ = some (digits, el) → ParseInt digits = some n →
      s.tm.lookup el = some (some e) → Published s typ (some (.array n e))
  | schema (t : Option Ty) : ir.MatchString typ = true → Published s typ t
  | unknown : HasPrefix typ "[]" = false → HasPrefix typ "map[string]" = false →
      (!s.os.disablePointer && HasPrefix typ "*") = false →
      (if s.os.stringKeyOnly then none else mr.FindStringSubmatch typ) = none →
      ar.FindStringSubmatch typ = none → Published s typ none

/-- The registry `ts` grows into another one by a sequence of assignments,
each to a name that is not registered in `ts`; without a resolver the name
is not registered at the time of the assignment either. -/
inductive Grows (ts : Types) : Types → Prop
  | refl : Grows ts ts
  | step (s : Types) (typ : String) (t : Option Ty) : Grows ts s →
      ts.tm.lookup typ = none → Published s typ t →
      (ts.os.schemaResolver = none → s.tm.lookup typ = none) →
      Grows ts (s.publish typ t)

/-- What the proofs establish of a call `createType(typ)` that starts in `ts`
and ends with `out`: the registry grows; a returned type is registered under
`typ`; and without a resolver a name the call registers is no longer than
`typ` and, when the call succeeds, does not match `ir`. -/
def Sound (ts : Types) (typ : String) (out : Outcome) : Prop :=
  Grows ts out.ts ∧
  (∀ s t, out = .ret s t none → s.tm.lookup typ = some t) ∧
  (ts.os.schemaResolver = none → ∀ n, out.ts.tm.lookup n ≠ none →
    ts.tm.lookup n ≠ none ∨
      (n.length ≤ typ.length ∧
        (out.err = none → out.panicked = false → ir.MatchString n = false)))

/-! ## Notions and sample data for the properties of the registry -/

/-- The kind `reflect.ValueOf(a).Kind()` of an argument of type
`interface{}`; it is `Invalid` for the nil interface. -/
def kindOfArg (a : Val) : Kind :=
  match a with
  | .iface t _ => t.Kind
  | _ => Kind.Invalid

/-- The registry `New()` after a request for `[]int`. -/
def sliceIntRegistry : Types := (New []).publish "[]int" (some (.slice .int))

/-- A schema of two `uint8` fields; its type is `pairTy`. -/
def pairSchema : Schema := ⟨"Pair", [⟨"A", "uint8", []⟩, ⟨"B", "uint8", []⟩]⟩

/-- A schema whose second field has an invalid name. -/
def badFieldSchema : Schema := ⟨"Rec", [⟨"A", "[]int", []⟩, ⟨"b", "int", []⟩]⟩

/-- A schema with a field of its own type. -/
def nodeSchema : Schema := ⟨"Node", [⟨"Next", "Node", []⟩]⟩

/-- A resolver that knows the schema `Node` and answers it for its name. -/
def nodeResolver : String → Schema × Option Err :=
  fun name => if name = "Node" then (nodeSchema, none) else (⟨"", []⟩, some (Err.hook 0))

/-- A registry made with `DisablePointer()`. -/
def noPointerRegistry : Types := New [DisablePointer]

/-- The type `[2]int`. -/
def arrayTy : Ty := .array 2 .int

/-- The registry `New()` after requests for `[2]int` and for `[02]int`. -/
def aliasRegistry : Types :=
  ((New []).publish "[2]int" (some arrayTy)).publish "[02]int" (some arrayTy)

/-- The registry `New()` after a request for `*int`. -/
def ptrIntRegistry : Types := (New []).publish "*int" (some (.ptr .int))

/-- The registry `New()` after a request for `[]string`. -/
def sliceStringRegistry : Types := (New []).publish "[]string" (some (.slice .string))

/-- A resolver that answers the name `A` with a schema called `B`, and the
name `Y` with an empty schema called `B` as well. -/
def aliasResolver : String → Schema × Option Err :=
  fun name =>
    if name = "A" then (⟨"B", [⟨"F1", "Y", []⟩, ⟨"F2", "A", []⟩]⟩, none)
    else if name = "Y" then (⟨"B", []⟩, none)
    else (⟨"", []⟩, some (Err.hook 0))

/-- A resolver that answers the name `A` with a schema called `B`, whose
fields use `Y` and `*map[A]int`, and the name `Y` with an empty schema called
`A`. -/
def staleResolver : String → Schema × Option Err :=
  fun name =>
    if name = "A" then (⟨"B", [⟨"F1", "Y", []⟩, ⟨"F2", "*map[A]int", []⟩]⟩, none)
    else if name = "Y" then (⟨"A", []⟩, none)
    else (⟨"", []⟩, some (Err.hook 0))

/-- The type the name `A` has after `CreateType("A")` with `staleResolver`. -/
def staleTy : Ty :=
  .struct [.mk "F1" (.struct []) "", .mk "F2" (.ptr (.map (.struct []) .int)) ""]

/-! ## The two paths of the slice case of the encoder -/

/-- The element kinds for which the slice case of `InternalEncode` copies the
memory of the slice: `int8`, `uint8` and `bool`. -/
def byteLike (el : Ty) : Bool :=
  el.Kind == Kind.Int8 || el.Kind == Kind.Uint8 || el.Kind == Kind.Bool

/-- The general path of the slice case of `InternalEncode` (the row "slice
(general)" of the wire format), taken here for any element type: the length
through `binary.PutVarint`, then every element through `InternalEncode`. -/
def encodeSliceGeneral (e : Encoder) (el : Ty) (rv : Val) : EncRes :=
  match rv with
  | .slice elems _ => EncRes.andThen ⟨PutVarint elems.length, none⟩ (encodeElems e el elems)
  | _ => ⟨PutVarint 0, none⟩

/-- The raw copy in the words of the wire format (the row "slice of byte-like
element"): the count, then the bytes of the elements as they lie in memory. -/
def encodeSliceRaw (rv : Val) : EncRes :=
  match rv with
  | .slice elems _ => ⟨PutVarint elems.length ++ elems.map Val.memByte, none⟩
  | _ => ⟨PutVarint 0, none⟩

/-- A slice of four bytes, with spare capacity. -/
def sampleByteSlice : Val := .slice [.uint 1, .uint 255, .uint 0, .uint 7] [.uint 9]

/-- A slice of `int8`. -/
def sampleInt8Slice : Val := .slice [.int (-1), .int 127, .int (-128)] []

/-! ## The byte stream -/

theorem ReadByte_nil : Reader.ReadByte [] = (0, [], some Err.EOF) := by
  simp [Reader.ReadByte, Reader.Read]

theorem ReadByte_cons (b : Byte) (r : Reader) : Reader.ReadByte (b :: r) = (b, r, none) := by
  simp [Reader.ReadByte, Reader.Read]

theorem Read_append (bs rest : List Byte) (h : bs ≠ []) :
    Reader.Read (bs ++ rest) bs.length = (bs, rest, none) := by
  simp [Reader.Read, h]

theorem Read_short (p : List Byte) (n : Nat) (h : p.length < n) :
    (Reader.Read p n).2.2 ≠ none ∨ (Reader.Read p n).1.length ≠ n := by
  unfold Reader.Read
  by_cases hp : p = []
  · subst hp
    have : n ≠ 0 := by simp at h; omega
    simp [this]
  · simp [hp]
    omega

/-! ## Variable-length integers -/

set_option maxRecDepth 100000 in
theorem or_128_small : ∀ y, y < 256 → y ||| 128 = y % 128 + 128 := by decide

theorem or_128_mod (x : Nat) : (x ||| 128) % 256 = x % 128 + 128 := by
  have h1 : (x ||| 128) % 2 ^ 8 = (x % 2 ^ 8) ||| 128 := by
    apply Nat.eq_of_testBit_eq
    intro i
    simp only [Nat.testBit_mod_two_pow, Nat.testBit_or]
    have h128 : (128 : Nat) = 2 ^ 7 := by norm_num
    rw [h128, Nat.testBit_two_pow]
    by_cases hi : i < 8
    · simp [hi]
    · have : ¬ (7 = i) := by omega
      simp [hi, this]
  have h3 := or_128_small (x % 256) (Nat.mod_lt _ (by decide))
  norm_num at h1
  rw [h1, h3]
  omega

theorem and_127 (y : Nat) : y &&& 0x7f = y % 128 := by
  have := Nat.and_pow_two_sub_one_eq_mod y 7
  norm_num at this
  simpa using this

theorem lor_shift (acc y s : Nat) (h : acc < 2 ^ s) : acc ||| y <<< s = acc + y * 2 ^ s := by
  rw [Nat.shiftLeft_eq, Nat.or_comm, Nat.mul_comm, ← Nat.mul_add_lt_is_or h, Nat.add_comm]

theorem acc_step (acc y s : Nat) (h : acc < 2 ^ s) (hy : acc + y * 2 ^ s < 2 ^ 64) :
    acc ||| (y <<< s) % 2 ^ 64 = acc + y * 2 ^ s := by
  have : (y <<< s) % 2 ^ 64 = y <<< s := by
    rw [Nat.shiftLeft_eq]
    exact Nat.mod_eq_of_lt (by omega)
  rw [this, lor_shift _ _ _ h]

theorem Byte_ofNat_val (x : Nat) : (Byte.ofNat x).val = x % 256 := rfl

theorem ReadUvarint_loop_cons (n i x s : Nat) (b : Byte) (r : Reader) :
    ReadUvarint.loop (n + 1) i x s (b :: r) =
      if b.val < 0x80 then
        if i = MaxVarintLen64 - 1 ∧ b.val > 1 then (x, r, some Err.errOverflow)
        else (x ||| (b.val <<< s) % 2 ^ 64, r, none)
      else ReadUvarint.loop n (i + 1) (x ||| ((b.val &&& 0x7f) <<< s) % 2 ^ 64) (s + 7) r := by
  rw [ReadUvarint.loop, ReadByte_cons]

/-- Reading back what `PutUvarint.loop` wrote, from iteration `i` on. -/
theorem ReadUvarint_loop_put (n : Nat) :
    ∀ (i acc x : Nat) (rest : List Byte), n + i = 9 → acc < 2 ^ (7 * i) →
      acc + x * 2 ^ (7 * i) < 2 ^ 64 →
      ReadUvarint.loop (n + 1) i acc (7 * i) (PutUvarint.loop n x ++ rest)
        = (acc + x * 2 ^ (7 * i), rest, none) := by
  induction n with
  | zero =>
    intro i acc x rest hi hacc hx
    have hi9 : i = 9 := by omega
    subst hi9
    have hx2 : x < 2 := by
      by_contra hc
      have : 2 * 2 ^ (7 * 9) ≤ x * 2 ^ (7 * 9) := Nat.mul_le_mul_right _ (by omega)
      norm_num at this hx
      omega
    have hb : (Byte.ofNat x).val = x := by
      rw [Byte_ofNat_val]; omega
    simp only [PutUvarint.loop, List.singleton_append, ReadUvarint_loop_cons, hb]
    have h1 : x < 128 := by omega
    have h2 : ¬ (9 = MaxVarintLen64 - 1 ∧ x > 1) := by omega
    rw [if_pos h1, if_neg h2, acc_step _ _ _ hacc hx]
  | succ n ih =>
    intro i acc x rest hi hacc hx
    have hP : 2 ^ (7 * (i + 1)) = 128 * 2 ^ (7 * i) := by
      rw [Nat.mul_add, Nat.pow_add]; norm_num; ring
    by_cases hx128 : x ≥ 0x80
    · have hb : (Byte.ofNat (x ||| 0x80)).val = x % 128 + 128 := by
        rw [Byte_ofNat_val]; exact or_128_mod x
      have hnot : ¬ (x % 128 + 128 < 0x80) := by omega
      have hand : (x % 128 + 128) &&& 0x7f = x % 128 := by
        rw [and_127]; omega
      have hxP : x * 2 ^ (7 * i) = (x % 128) * 2 ^ (7 * i) + (x / 128) * (128 * 2 ^ (7 * i)) := by
        conv_lhs => rw [← Nat.div_add_mod x 128]
        ring
      have hle : (x % 128) * 2 ^ (7 * i) ≤ 127 * 2 ^ (7 * i) :=
        Nat.mul_le_mul_right _ (by omega)
      have hshift : x >>> 7 = x / 128 := by
        rw [Nat.shiftRight_eq_div_pow]
      have hs : 7 * i + 7 = 7 * (i + 1) := by ring
      simp only [PutUvarint.loop, if_pos hx128, List.cons_append]
      rw [ReadUvarint_loop_cons]
      simp only [hb, if_neg hnot, hand, hshift]
      rw [acc_step _ _ _ hacc (by omega), hs, ih (i + 1) _ _ rest (by omega) (by omega) (by rw [hP]; omega)]
      rw [hP]
      have : acc + x % 128 * 2 ^ (7 * i) + x / 128 * (128 * 2 ^ (7 * i)) = acc + x * 2 ^ (7 * i) := by
        omega
      rw [this]
    · have hb : (Byte.ofNat x).val = x := by
        rw [Byte_ofNat_val]; omega
      have h1 : x < 0x80 := by omega
      have h2 : ¬ (i = MaxVarintLen64 - 1 ∧ x > 1) := by
        simp [MaxVarintLen64]; omega
      simp only [PutUvarint.loop, if_neg hx128, List.singleton_append, ReadUvarint_loop_cons,
        hb, if_pos h1, if_neg h2]
      rw [acc_step _ _ _ hacc hx]

theorem ReadUvarint_PutUvarint (x : Nat) (rest : List Byte) (hx : x < 2 ^ 64) :
    ReadUvarint (PutUvarint x ++ rest) = (x, rest, none) := by
  unfold ReadUvarint PutUvarint
  rw [Nat.mod_eq_of_lt hx]
  have := ReadUvarint_loop_put 9 0 0 x rest (by rfl) (by norm_num) (by simpa using hx)
  simpa [MaxVarintLen64] using this

/-- A stream of continuation bytes only never yields a number. -/
theorem ReadUvarint_loop_cont (p : List Byte) (hp : ∀ b ∈ p, 0x80 ≤ b.val) :
    ∀ n i x s, (ReadUvarint.loop n i x s p).2.2 ≠ none := by
  induction p with
  | nil =>
    intro n i x s
    cases n <;> simp [ReadUvarint.loop, ReadByte_nil]
  | cons b p ih =>
    intro n i x s
    cases n with
    | zero => simp [ReadUvarint.loop]
    | succ n =>
      rw [ReadUvarint_loop_cons]
      have hb := hp b (by simp)
      rw [if_neg (by omega)]
      exact ih (fun c hc => hp c (by simp [hc])) _ _ _ _

/-- Every byte of `PutUvarint` but the last has its continuation bit set. -/
theorem PutUvarint_loop_init (n : Nat) :
    ∀ (x : Nat) (p q : List Byte), PutUvarint.loop n x = p ++ q → q ≠ [] →
      ∀ b ∈ p, 0x80 ≤ b.val := by
  induction n with
  | zero =>
    intro x p q h hq
    cases p with
    | nil => simp
    | cons c p =>
      simp [PutUvarint.loop] at h
      exact absurd h.2.2 hq
  | succ n ih =>
    intro x p q h hq
    cases p with
    | nil => simp
    | cons c p =>
      by_cases hx : x ≥ 0x80
      · simp only [PutUvarint.loop, if_pos hx, List.cons_append, List.cons.injEq] at h
        intro b hb
        rcases List.mem_cons.1 hb with hbc | hbp
        · rw [hbc, ← h.1, Byte_ofNat_val, or_128_mod]
          omega
        · exact ih _ _ _ h.2 hq b hbp
      · simp [PutUvarint.loop, hx] at h
        exact absurd h.2.2 hq

theorem ReadUvarint_trunc (x : Nat) (p q : List Byte) (h : PutUvarint x = p ++ q)
    (hq : q ≠ []) : (ReadUvarint p).2.2 ≠ none :=
  ReadUvarint_loop_cont p (PutUvarint_loop_init _ _ p q h hq) _ _ _ _

theorem PutUvarint_ne_nil (x : Nat) : PutUvarint x ≠ [] := by
  unfold PutUvarint
  generalize x % 2 ^ 64 = y
  simp only [MaxVarintLen64]
  rw [PutUvarint.loop]
  split <;> simp

theorem zigzag_lt (x : Int) : zigzag x < 2 ^ 64 := by
  unfold zigzag
  simp only [Nat.shiftLeft_eq]
  split <;> omega

theorem zigzag_nonneg (x : Int) (h0 : 0 ≤ x) (h1 : x < 2 ^ 63) : zigzag x = 2 * x.toNat := by
  unfold zigzag
  simp only [Nat.shiftLeft_eq]
  rw [if_neg (by omega)]
  omega

theorem zigzag_neg (x : Int) (h0 : -2 ^ 63 ≤ x) (h1 : x < 0) :
    zigzag x = 2 * (-x - 1).toNat + 1 := by
  unfold zigzag
  simp only [Nat.shiftLeft_eq]
  rw [if_pos h1]
  omega

theorem ReadVarint_eq (r : Reader) :
    ReadVarint r =
      (if (ReadUvarint r).1 &&& 1 ≠ 0 then -(((ReadUvarint r).1 >>> 1 : Nat) : Int) - 1
        else (((ReadUvarint r).1 >>> 1 : Nat) : Int),
       (ReadUvarint r).2.1, (ReadUvarint r).2.2) := by
  unfold ReadVarint
  generalize ReadUvarint r = z
  obtain ⟨a, b, c⟩ := z
  rfl

theorem unzigzag (x : Int) (h0 : -2 ^ 63 ≤ x) (h1 : x < 2 ^ 63) :
    (if zigzag x &&& 1 ≠ 0 then -((zigzag x >>> 1 : Nat) : Int) - 1
      else ((zigzag x >>> 1 : Nat) : Int)) = x := by
  simp only [Nat.shiftRight_eq_div_pow, Nat.and_one_is_mod]
  by_cases hx : x < 0
  · rw [zigzag_neg x h0 hx, if_pos (by omega)]
    omega
  · rw [zigzag_nonneg x (by omega) h1, if_neg (by omega)]
    omega

theorem ReadVarint_PutVarint (x : Int) (rest : List Byte) (h0 : -2 ^ 63 ≤ x)
    (h1 : x < 2 ^ 63) : ReadVarint (PutVarint x ++ rest) = (x, rest, none) := by
  rw [ReadVarint_eq]
  unfold PutVarint
  rw [ReadUvarint_PutUvarint _ _ (zigzag_lt x)]
  simp only [unzigzag x h0 h1]

theorem ReadVarint_trunc (x : Int) (p q : List Byte) (h : PutVarint x = p ++ q)
    (hq : q ≠ []) : (ReadVarint p).2.2 ≠ none := by
  rw [ReadVarint_eq]
  exact ReadUvarint_trunc (zigzag x) p q h hq

theorem PutVarint_ne_nil (x : Int) : PutVarint x ≠ [] := PutUvarint_ne_nil _

theorem PutVarint_zero : PutVarint 0 = [0] := by decide

/-! ## Equality tests are exact -/

mutual
theorem Ty.beq_iff : ∀ (a b : Ty), Ty.beq a b = true ↔ a = b
  | .basic a, b => by cases b <;> simp [Ty.beq]
  | .iface, b => by cases b <;> simp [Ty.beq]
  | .array n a, b => by
    cases b <;> simp [Ty.beq]
    intro _
    exact Ty.beq_iff a _
  | .map k v, b => by
    cases b <;> simp [Ty.beq]
    rw [Ty.beq_iff k, Ty.beq_iff v]
  | .ptr a, b => by
    cases b <;> simp [Ty.beq]
    exact Ty.beq_iff a _
  | .slice a, b => by
    cases b <;> simp [Ty.beq]
    exact Ty.beq_iff a _
  | .struct fs, b => by
    cases b <;> simp [Ty.beq]
    exact Ty.beqFields_iff fs _
theorem Ty.beqFields_iff : ∀ (a b : List StructField), Ty.beqFields a b = true ↔ a = b
  | [], b => by cases b <;> simp [Ty.beqFields]
  | .mk n t g :: fs, b => by
    rcases b with _ | ⟨⟨n2, t2, g2⟩, gs⟩ <;> simp [Ty.beqFields]
    rw [Ty.beq_iff t, Ty.beqFields_iff fs]
    tauto
end

instance : DecidableEq Ty := fun a b => decidable_of_iff _ (Ty.beq_iff a b)

mutual
theorem Val.beq_eq : ∀ (a b : Val), Val.beq a b = true ↔ a = b
  | .bool a, b => by
    cases b
    case bool b =>
      show (a == b) = true ↔ _
      simp
    all_goals exact ⟨fun h => (Bool.false_ne_true h).elim, fun h => Val.noConfusion h⟩
  | .int a, b => by
    cases b
    case int b =>
      show (a == b) = true ↔ _
      simp
    all_goals exact ⟨fun h => (Bool.false_ne_true h).elim, fun h => Val.noConfusion h⟩
  | .uint a, b => by
    cases b
    case uint b =>
      show (a == b) = true ↔ _
      simp
    all_goals exact ⟨fun h => (Bool.false_ne_true h).elim, fun h => Val.noConfusion h⟩
  | .float a, b => by
    cases b
    case float b =>
      show (a == b) = true ↔ _
      simp
    all_goals exact ⟨fun h => (Bool.false_ne_true h).elim, fun h => Val.noConfusion h⟩
  | .complex a c, b => by
    cases b
    case complex b d =>
      show (a == b && c == d) = true ↔ _
      simp
    all_goals exact ⟨fun h => (Bool.false_ne_true h).elim, fun h => Val.noConfusion h⟩
  | .str a, b => by
    cases b
    case str b =>
      show (a == b) = true ↔ _
      simp
    all_goals exact ⟨fun h => (Bool.false_ne_true h).elim, fun h => Val.noConfusion h⟩
  | .nil, b => by
    cases b
    case nil => exact ⟨fun _ => rfl, fun _ => rfl⟩
    all_goals exact ⟨fun h => (Bool.false_ne_true h).elim, fun h => Val.noConfusion h⟩
  | .slice a s, b => by
    cases b
    case slice b s2 =>
      show (Val.beqList a b && Val.beqList s s2) = true ↔ _
      simp [Val.beqList_eq a, Val.beqList_eq s]
    all_goals exact ⟨fun h => (Bool.false_ne_true h).elim, fun h => Val.noConfusion h⟩
  | .array a, b => by
    cases b
    case array b =>
      show Val.beqList a b = true ↔ _
      simp [Val.beqList_eq a]
    all_goals exact ⟨fun h => (Bool.false_ne_true h).elim, fun h => Val.noConfusion h⟩
  | .map a, b => by
    cases b
    case map b =>
      show Val.beqEntries a b = true ↔ _
      simp [Val.beqEntries_eq a]
    all_goals exact ⟨fun h => (Bool.false_ne_true h).elim, fun h => Val.noConfusion h⟩
  | .struct a, b => by
    cases b
    case struct b =>
      show Val.beqList a b = true ↔ _
      simp [Val.beqList_eq a]
    all_goals exact ⟨fun h => (Bool.false_ne_true h).elim, fun h => Val.noConfusion h⟩
  | .ptr a, b => by
    cases b
    case ptr b =>
      show Val.beq a b = true ↔ _
      simp [Val.beq_eq a]
    all_goals exact ⟨fun h => (Bool.false_ne_true h).elim, fun h => Val.noConfusion h⟩
  | .iface t a, b => by
    cases b
    case iface t2 b =>
      show (Ty.beq t t2 && Val.beq a b) = true ↔ _
      simp [Ty.beq_iff t, Val.beq_eq a]
    all_goals exact ⟨fun h => (Bool.false_ne_true h).elim, fun h => Val.noConfusion h⟩
theorem Val.beqList_eq : ∀ (a b : List Val), Val.beqList a b = true ↔ a = b
  | [], b => by cases b <;> simp [Val.beqList]
  | x :: xs, b => by
    cases b <;> simp [Val.beqList]
    rw [Val.beq_eq x, Val.beqList_eq xs]
theorem Val.beqEntries_eq : ∀ (a b : List (Val × Val)), Val.beqEntries a b = true ↔ a = b
  | [], b => by cases b <;> simp [Val.beqEntries]
  | (k, v) :: xs, b => by
    rcases b with _ | ⟨⟨k2, v2⟩, ys⟩ <;> simp [Val.beqEntries]
    rw [Val.beq_eq k, Val.beq_eq v, Val.beqEntries_eq xs, and_assoc]
end

instance : DecidableEq Val := fun a b => decidable_of_iff _ (Val.beq_eq a b)

instance : DecidableEq DecRes := fun a b =>
  decidable_of_iff (a.val = b.val ∧ a.rest = b.rest ∧ a.err = b.err) (by
    cases a; cases b; simp)

theorem Val.eq_of_beq (a b : Val) : (a == b) = true ↔ a = b := Val.beq_eq a b

theorem Val.beq_false_iff (a b : Val) : (a == b) = false ↔ a ≠ b := by
  rw [Ne, ← Val.eq_of_beq, Bool.not_eq_true]

/-! ## Encoding and decoding one value: the scalar kinds -/

theorem split_trunc {α : Type} (a b p q : List α) (h : a ++ b = p ++ q) (_hq : q ≠ []) :
    (∃ c, c ≠ [] ∧ a = p ++ c) ∨ (∃ p1, p = a ++ p1 ∧ b = p1 ++ q) := by
  rcases List.append_eq_append_iff.1 h with ⟨a1, h1, h2⟩ | ⟨c1, h1, h2⟩
  · exact Or.inr ⟨a1, h1, h2⟩
  · by_cases hc : c1 = []
    · subst hc
      simp at h1 h2
      exact Or.inr ⟨[], by simp [h1], by simp [h2]⟩
    · exact Or.inl ⟨c1, hc, h1⟩

theorem single_trunc {α : Type} (c : α) (p q : List α) (h : [c] = p ++ q) (hq : q ≠ []) :
    p = [] := by
  cases p with
  | nil => rfl
  | cons x p =>
    simp at h
    exact absurd h.2.2 hq

theorem wrapInt_id (bits : Nat) (i : Int) (hb : 0 < bits)
    (h0 : -2 ^ (bits - 1) ≤ i) (h1 : i < 2 ^ (bits - 1)) : wrapInt bits i = i := by
  unfold wrapInt
  have hp : (2 : Int) ^ bits = 2 * 2 ^ (bits - 1) := by
    obtain ⟨k, rfl⟩ : ∃ k, bits = k + 1 := ⟨bits - 1, by omega⟩
    simp [pow_succ, mul_comm]
  rw [hp]
  generalize (2 : Int) ^ (bits - 1) = P at *
  have : (i + P) % (2 * P) = i + P := Int.emod_eq_of_lt (by omega) (by omega)
  omega

theorem decodeInt_good (t : Basic) (rv : Val) (i : Int) (h0 : -2 ^ 63 ≤ i) (h1 : i < 2 ^ 63)
    (hw : wrapInt t.bits i = i) :
    (∀ rest, decodeInt t rv (PutVarint i ++ rest) = ⟨.int i, rest, none⟩) ∧
    (∀ p q, PutVarint i = p ++ q → q ≠ [] → (decodeInt t rv p).err ≠ none) := by
  constructor
  · intro rest
    simp [decodeInt, ReadVarint_PutVarint i rest h0 h1, SetInt, hw]
  · intro p q h hq
    have := ReadVarint_trunc i p q h hq
    unfold decodeInt
    rcases hr : ReadVarint p with ⟨a, r1, err⟩
    rw [hr] at this
    cases err with
    | none => simp at this
    | some err => simp

theorem decodeUint_good (t : Basic) (rv : Val) (u : Nat) (h1 : u < 2 ^ t.bits) (hb : t.bits ≤ 64) :
    (∀ rest, decodeUint t rv (PutUvarint u ++ rest) = ⟨.uint u, rest, none⟩) ∧
    (∀ p q, PutUvarint u = p ++ q → q ≠ [] → (decodeUint t rv p).err ≠ none) := by
  have h64 : u < 2 ^ 64 := lt_of_lt_of_le h1 (Nat.pow_le_pow_right (by norm_num) hb)
  constructor
  · intro rest
    simp [decodeUint, ReadUvarint_PutUvarint u rest h64, SetUint, Nat.mod_eq_of_lt h1]
  · intro p q h hq
    have := ReadUvarint_trunc u p q h hq
    unfold decodeUint
    rcases hr : ReadUvarint p with ⟨a, r1, err⟩
    rw [hr] at this
    cases err with
    | none => simp at this
    | some err => simp

theorem decodeFloat_good (n : Nat) (set : List Byte → Val) (rv : Val) (bs : List Byte)
    (hn : 0 < n) (hl : bs.length = n) :
    (∀ rest, decodeFloat n set rv (bs ++ rest) = ⟨set bs, rest, none⟩) ∧
    (∀ p q, bs = p ++ q → q ≠ [] → (decodeFloat n set rv p).err ≠ none) := by
  constructor
  · intro rest
    have hne : bs ≠ [] := by
      intro h0; rw [h0] at hl; simp at hl; omega
    unfold decodeFloat
    rw [← hl, Read_append bs rest hne]
    simp
  · intro p q h hq
    have hlen : p.length < n := by
      have hq1 : 0 < q.length := List.length_pos.2 hq
      rw [h] at hl; simp at hl; omega
    unfold decodeFloat
    rcases hr : Reader.Read p n with ⟨buf, r1, err⟩
    have hs := Read_short p n hlen
    rw [hr] at hs
    cases err with
    | some err => simp
    | none =>
      simp at hs
      simp [hs]

theorem canon_scalar (v : Val) (h : (∃ b, v = .bool b) ∨ (∃ i, v = .int i) ∨ (∃ u, v = .uint u)
    ∨ (∃ s, v = .str s)) : canon v = v := by
  rcases h with ⟨b, rfl⟩ | ⟨i, rfl⟩ | ⟨u, rfl⟩ | ⟨s, rfl⟩ <;> rfl

/-! ## The conversion through `float64` -/

set_option maxRecDepth 100000 in
theorem quiet_byte : ∀ b : Byte, 128 ≤ b.val →
    128 ≤ (Byte.ofNat (b.val ||| 0x40)).val ∧ (Byte.ofNat (b.val ||| 0x40)).val % 128 ≠ 0 ∧
    Byte.ofNat ((Byte.ofNat (b.val ||| 0x40)).val ||| 0x40) = Byte.ofNat (b.val ||| 0x40) := by
  decide

theorem viaFloat64_length (bs : List Byte) : (viaFloat64 bs).length = bs.length := by
  unfold viaFloat64
  split
  · split <;> rfl
  · rfl

theorem viaFloat64_other (bs : List Byte) (h : bs.length ≠ 4) : viaFloat64 bs = bs := by
  unfold viaFloat64
  split
  · simp at h
  · rfl

theorem viaFloat64_idem (bs : List Byte) : viaFloat64 (viaFloat64 bs) = viaFloat64 bs := by
  by_cases h : bs.length = 4
  · match bs, h with
    | [b0, b1, b2, b3], _ =>
      by_cases hn : isNaN [b0, b1, b2, b3] = true
      · have h1 : viaFloat64 [b0, b1, b2, b3] = [b0, b1, Byte.ofNat (b2.val ||| 0x40), b3] := by
          simp only [viaFloat64, hn, if_true]
        rw [h1]
        simp only [isNaN, Bool.and_eq_true, beq_iff_eq, decide_eq_true_eq] at hn
        obtain ⟨h3, h2⟩ := hn.1
        have hq := quiet_byte b2 h2
        have hn2 : isNaN [b0, b1, Byte.ofNat (b2.val ||| 0x40), b3] = true := by
          simp only [isNaN, Bool.and_eq_true, beq_iff_eq, decide_eq_true_eq, Bool.or_eq_true,
            bne_iff_ne]
          exact ⟨⟨h3, hq.1⟩, Or.inl (Or.inl hq.2.1)⟩
        simp only [viaFloat64, hn2, if_true, hq.2.2]
      · have h1 : viaFloat64 [b0, b1, b2, b3] = [b0, b1, b2, b3] := by
          simp only [viaFloat64, hn, if_false]
          simp
        rw [h1, h1]
  · rw [viaFloat64_other bs h, viaFloat64_other bs h]

theorem good_bool (b : Bool) : GoodBasic .Bool (.bool b) := by
  refine ⟨rfl, ?_, ?_⟩
  · intro rest
    cases b <;> simp [encodeBasic, decodeBasic, Val.Bool, ReadByte_cons, canon]
  · intro p q h hq
    simp only [encodeBasic] at h
    have hp := single_trunc _ p q h hq
    subst hp
    simp [decodeBasic, ReadByte_nil]

theorem good_int8 (i : Int) (h0 : -2 ^ 7 ≤ i) (h1 : i < 2 ^ 7) :
    GoodBasic .Int8 (.int i) := by
  refine ⟨rfl, ?_, ?_⟩
  · intro rest
    simp only [encodeBasic, decodeBasic, Val.Int, ReadByte_cons, canon,
      List.singleton_append, SetInt, Basic.bits]
    have hv : (Byte.ofNat (i % 256).toNat).val = (i % 256).toNat := by
      rw [Byte_ofNat_val]; omega
    have : int8OfByte (Byte.ofNat (i % 256).toNat) = i := by
      unfold int8OfByte
      rw [hv]
      split <;> omega
    rw [this, wrapInt_id 8 i (by norm_num) (by simpa using h0) (by simpa using h1)]
  · intro p q h hq
    simp only [encodeBasic] at h
    have hp := single_trunc _ p q h hq
    subst hp
    simp [decodeBasic, ReadByte_nil]

theorem good_uint8 (u : Nat) (h1 : u < 2 ^ 8) : GoodBasic .Uint8 (.uint u) := by
  refine ⟨rfl, ?_, ?_⟩
  · intro rest
    simp only [encodeBasic, decodeBasic, Val.Uint, ReadByte_cons, canon,
      List.singleton_append, SetUint, Basic.bits, Byte_ofNat_val]
    have : u % 256 % 2 ^ 8 = u := by omega
    rw [this]
  · intro p q h hq
    simp only [encodeBasic] at h
    have hp := single_trunc _ p q h hq
    subst hp
    simp [decodeBasic, ReadByte_nil]

/-! ## The string case -/

theorem decodeString_err (rv : Val) (r : Reader) (h : (ReadVarint r).2.2 ≠ none) :
    (decodeString rv r).err ≠ none := by
  unfold decodeString
  rcases hrd : ReadVarint r with ⟨a, r1, err⟩
  rw [hrd] at h
  cases err with
  | none => exact absurd rfl h
  | some err => simp

theorem decodeString_nonpos (rv : Val) (r r1 : Reader) (i : Int)
    (h : ReadVarint r = (i, r1, none)) (hi : i ≤ 0) : decodeString rv r = ⟨rv, r1, none⟩ := by
  unfold decodeString
  rw [h]
  simp only [if_pos hi]

theorem decodeString_ok (rv : Val) (r r1 r2 : Reader) (i : Int) (slc : List Byte)
    (h : ReadVarint r = (i, r1, none)) (hi : ¬ i ≤ 0)
    (h2 : r1.Read i.toNat = (slc, r2, none)) (h3 : slc.length = i.toNat) :
    decodeString rv r = ⟨.str slc, r2, none⟩ := by
  unfold decodeString
  rw [h]
  simp only [if_neg hi]
  rw [h2]
  simp only [ne_eq, h3, not_true_eq_false, if_false]

theorem decodeString_short (rv : Val) (r r1 : Reader) (i : Int)
    (h : ReadVarint r = (i, r1, none)) (hi : ¬ i ≤ 0) (h2 : r1.length < i.toNat) :
    (decodeString rv r).err ≠ none := by
  unfold decodeString
  rw [h]
  simp only [if_neg hi]
  rcases hrd : Reader.Read r1 i.toNat with ⟨buf, r2, err⟩
  have hs := Read_short r1 i.toNat h2
  rw [hrd] at hs
  cases err with
  | some err => simp
  | none =>
    simp at hs
    simp [hs]

theorem good_string (s : List Byte) (hl : s.length < 2 ^ 63) :
    GoodBasic .String (.str s) := by
  have hr : ∀ rest, ReadVarint (PutVarint (s.length : Int) ++ rest) = ((s.length : Int), rest, none) :=
    fun rest => ReadVarint_PutVarint _ rest (by omega) (by exact_mod_cast hl)
  have hout : (encodeBasic .String (.str s)).out = PutVarint (s.length : Int) ++ s := rfl
  have hdec : ∀ rv r, decodeBasic .String rv r = decodeString rv r := fun _ _ => rfl
  refine ⟨rfl, ?_, ?_⟩
  · intro rest
    rw [hout, hdec, List.append_assoc]
    by_cases hs : s = []
    · subst hs
      exact decodeString_nonpos _ _ _ _ (hr _) (by simp)
    · have hpos : ¬ ((s.length : Int) ≤ 0) := by
        have := List.length_pos.2 hs
        omega
      exact decodeString_ok _ _ _ _ _ _ (hr _) hpos (by simpa using Read_append s rest hs) (by simp)
  · intro p q h hq
    rw [hout] at h
    rw [hdec]
    rcases split_trunc _ _ p q h hq with ⟨c, hc, h1⟩ | ⟨p1, h1, h2⟩
    · exact decodeString_err _ _ (ReadVarint_trunc _ p c h1 hc)
    · subst h1
      have hq1 : 0 < q.length := List.length_pos.2 hq
      have hlen : p1.length < s.length := by
        rw [h2]; simp; omega
      exact decodeString_short _ _ _ _ (hr _) (by omega) (by simpa using hlen)

theorem good_int (b : Basic) (i : Int)
    (hdec : ∀ rv r, decodeBasic b rv r = decodeInt b rv r)
    (hout : ∀ v, encodeBasic b v = ⟨PutVarint v.Int, none⟩)
    (h0 : -2 ^ 63 ≤ i) (h1 : i < 2 ^ 63) (hw : wrapInt b.bits i = i) :
    GoodBasic b (.int i) := by
  have hg := decodeInt_good b (zeroBasic b) i h0 h1 hw
  refine ⟨by rw [hout], ?_, ?_⟩
  · intro rest
    rw [hout, hdec]
    exact hg.1 rest
  · intro p q h hq
    rw [hout] at h
    rw [hdec]
    exact hg.2 p q h hq

theorem good_uint (b : Basic) (u : Nat)
    (hdec : ∀ rv r, decodeBasic b rv r = decodeUint b rv r)
    (hout : ∀ v, encodeBasic b v = ⟨PutUvarint v.Uint, none⟩)
    (h1 : u < 2 ^ b.bits) (hb : b.bits ≤ 64) :
    GoodBasic b (.uint u) := by
  have hg := decodeUint_good b (zeroBasic b) u h1 hb
  refine ⟨by rw [hout], ?_, ?_⟩
  · intro rest
    rw [hout, hdec]
    exact hg.1 rest
  · intro p q h hq
    rw [hout] at h
    rw [hdec]
    exact hg.2 p q h hq

theorem good_float (b : Basic) (n : Nat) (set : List Byte → Val) (v : Val) (out : List Byte)
    (hdec : ∀ rv r, decodeBasic b rv r = decodeFloat n set rv r)
    (hout : encodeBasic b v = ⟨out, none⟩)
    (hn : 0 < n) (hl : out.length = n) (hset : set out = canon v) :
    GoodBasic b v := by
  have hg := decodeFloat_good n set (zeroBasic b) out hn hl
  refine ⟨by rw [hout], ?_, ?_⟩
  · intro rest
    rw [hout, hdec, ← hset]
    exact hg.1 rest
  · intro p q h hq
    rw [hout] at h
    rw [hdec]
    exact hg.2 p q h hq

theorem canon_float (bs : List Byte) : canon (.float bs) = .float (viaFloat64 bs) := by
  simp only [canon]

theorem canon_complex (re im : List Byte) :
    canon (.complex re im) = .complex (viaFloat64 re) (viaFloat64 im) := by
  simp only [canon]

theorem basic_good (b : Basic) (v : Val) (hs : basicCodable b = true)
    (ht : hasTypeBasic b v = true) : GoodBasic b v := by
  cases b <;> cases v <;>
    first
    | exact (Bool.false_ne_true ht).elim
    | exact (Bool.false_ne_true hs).elim
    | skip
  case Bool.bool b => exact good_bool b
  case Int8.int i =>
    simp [hasTypeBasic] at ht
    exact good_int8 i (by simpa using ht.1) (by simpa using ht.2)
  case Uint8.uint u =>
    simp [hasTypeBasic] at ht
    exact good_uint8 u (by simpa using ht)
  case String.str s =>
    simp [hasTypeBasic] at ht
    exact good_string s (by simpa using ht)
  case Int.int i =>
    simp [hasTypeBasic] at ht
    exact good_int _ i (fun _ _ => rfl) (fun _ => rfl) (by simpa using ht.1) (by simpa using ht.2)
      (wrapInt_id 64 i (by norm_num) (by simpa using ht.1) (by simpa using ht.2))
  case Int64.int i =>
    simp [hasTypeBasic] at ht
    exact good_int _ i (fun _ _ => rfl) (fun _ => rfl) (by simpa using ht.1) (by simpa using ht.2)
      (wrapInt_id 64 i (by norm_num) (by simpa using ht.1) (by simpa using ht.2))
  case Int32.int i =>
    simp [hasTypeBasic] at ht
    exact good_int _ i (fun _ _ => rfl) (fun _ => rfl) (by omega) (by omega)
      (wrapInt_id 32 i (by norm_num) (by simpa using ht.1) (by simpa using ht.2))
  case Int16.int i =>
    simp [hasTypeBasic] at ht
    exact good_int _ i (fun _ _ => rfl) (fun _ => rfl) (by omega) (by omega)
      (wrapInt_id 16 i (by norm_num) (by simpa using ht.1) (by simpa using ht.2))
  case Uint.uint u =>
    simp [hasTypeBasic] at ht
    exact good_uint _ u (fun _ _ => rfl) (fun _ => rfl) (by simpa [Basic.bits] using ht) (by decide)
  case Uint64.uint u =>
    simp [hasTypeBasic] at ht
    exact good_uint _ u (fun _ _ => rfl) (fun _ => rfl) (by simpa [Basic.bits] using ht) (by decide)
  case Uintptr.uint u =>
    simp [hasTypeBasic] at ht
    exact good_uint _ u (fun _ _ => rfl) (fun _ => rfl) (by simpa [Basic.bits] using ht) (by decide)
  case Uint32.uint u =>
    simp [hasTypeBasic] at ht
    exact good_uint _ u (fun _ _ => rfl) (fun _ => rfl) (by simpa [Basic.bits] using ht) (by decide)
  case Uint16.uint u =>
    simp [hasTypeBasic] at ht
    exact good_uint _ u (fun _ _ => rfl) (fun _ => rfl) (by simpa [Basic.bits] using ht) (by decide)
  case Float32.float bs =>
    simp [hasTypeBasic] at ht
    refine good_float _ 4 setFloat32 _ (viaFloat64 bs) (fun _ _ => rfl) rfl (by norm_num)
      (by rw [viaFloat64_length, ht]) ?_
    rw [canon_float, setFloat32, viaFloat64_idem]
  case Float64.float bs =>
    simp [hasTypeBasic] at ht
    refine good_float _ 8 setFloat64 _ bs (fun _ _ => rfl) rfl (by norm_num) ht ?_
    rw [canon_float, setFloat64, viaFloat64_other bs (by omega)]
  case Complex64.complex re im =>
    simp [hasTypeBasic] at ht
    refine good_float _ 8 setComplex64 _ (viaFloat64 re ++ viaFloat64 im) (fun _ _ => rfl) rfl
      (by norm_num) (by rw [List.length_append, viaFloat64_length, viaFloat64_length]; omega) ?_
    have h4 : (viaFloat64 re).length = 4 := by rw [viaFloat64_length, ht.1]
    rw [canon_complex, setComplex64, ← h4, List.take_left, List.drop_left, viaFloat64_idem,
      viaFloat64_idem]
  case Complex128.complex re im =>
    simp [hasTypeBasic] at ht
    refine good_float _ 16 setComplex128 _ (re ++ im) (fun _ _ => rfl) rfl (by norm_num)
      (by rw [List.length_append]; omega) ?_
    rw [canon_complex, setComplex128, ← ht.1, List.take_left, List.drop_left,
      viaFloat64_other re (by omega), viaFloat64_other im (by omega)]

/-! ## Unfolding the encoder -/

theorem andThen_ok (a b : EncRes) (h : a.err = none) : a.andThen b = ⟨a.out ++ b.out, b.err⟩ := by
  unfold EncRes.andThen
  rw [h]

theorem andThen_err (a b : EncRes) (h : a.err ≠ none) : a.andThen b = a := by
  unfold EncRes.andThen
  cases hx : a.err with
  | none => exact absurd hx h
  | some x => rfl

set_option maxHeartbeats 1000000 in
theorem enc_basic (e : Encoder) (b : Basic) (rv : Val) :
    InternalEncode e (.basic b) rv = encodeBasic b rv := by
  simp only [InternalEncode]

theorem enc_slice_nil (e : Encoder) (el : Ty) :
    InternalEncode e (.slice el) .nil = ⟨PutVarint 0, none⟩ := by
  simp only [InternalEncode]

theorem enc_slice_bytes (e : Encoder) (el : Ty) (elems spare : List Val)
    (h : el.Kind = .Int8 ∨ el.Kind = .Uint8 ∨ el.Kind = .Bool) :
    InternalEncode e (.slice el) (.slice elems spare) =
      ⟨PutVarint elems.length ++ elems.map Val.memByte, none⟩ := by
  simp only [InternalEncode]
  rcases h with h | h | h <;> rw [h]

theorem enc_slice_gen (e : Encoder) (el : Ty) (elems spare : List Val)
    (h1 : el.Kind ≠ .Int8) (h2 : el.Kind ≠ .Uint8) (h3 : el.Kind ≠ .Bool) :
    InternalEncode e (.slice el) (.slice elems spare) =
      EncRes.andThen ⟨PutVarint elems.length, none⟩ (encodeElems e el elems) := by
  simp only [InternalEncode]

theorem enc_array (e : Encoder) (n : Nat) (el : Ty) (elems : List Val) :
    InternalEncode e (.array n el) (.array elems) = encodeElems e el elems := by
  simp only [InternalEncode]

theorem enc_map_nil (e : Encoder) (kt vt : Ty) :
    InternalEncode e (.map kt vt) .nil = ⟨PutVarint 0, none⟩ := by
  simp only [InternalEncode]

theorem enc_map (e : Encoder) (kt vt : Ty) (entries : List (Val × Val)) :
    InternalEncode e (.map kt vt) (.map entries) =
      EncRes.andThen ⟨PutVarint entries.length, none⟩ (encodeEntries e kt vt entries) := by
  simp only [InternalEncode]

theorem enc_struct_ext (e : Encoder) (fs : List StructField) (rv : Val) (fn : Val → EncRes)
    (h : e.Extend (.struct fs) = some fn) : InternalEncode e (.struct fs) rv = fn rv := by
  cases rv <;> simp only [InternalEncode, h]

theorem enc_struct (e : Encoder) (fs : List StructField) (vs : List Val)
    (h : e.Extend (.struct fs) = none) :
    InternalEncode e (.struct fs) (.struct vs) = encodeFields e fs vs := by
  simp only [InternalEncode, h]

theorem enc_ptr_nil (e : Encoder) (el : Ty) :
    InternalEncode e (.ptr el) .nil = ⟨[0], none⟩ := by
  simp only [InternalEncode]

theorem enc_ptr (e : Encoder) (el : Ty) (x : Val) :
    InternalEncode e (.ptr el) (.ptr x) = EncRes.andThen ⟨[1], none⟩ (InternalEncode e el x) := by
  simp only [InternalEncode]

theorem enc_iface_nil (e : Encoder) : InternalEncode e .iface .nil = ⟨[0], none⟩ := by
  simp only [InternalEncode]

theorem enc_iface_noTypes (e : Encoder) (tp : Ty) (x : Val) (h : e.Types = none) :
    InternalEncode e .iface (.iface tp x) = ⟨[], some Err.unknownType⟩ := by
  simp only [InternalEncode]
  rw [h]

theorem enc_iface_unknown (e : Encoder) (tp : Ty) (x : Val) (ts : Types)
    (h : e.Types = some ts) (h2 : ts.NameByType (some tp) = none) :
    InternalEncode e .iface (.iface tp x) = ⟨[], some Err.unknownType⟩ := by
  simp only [InternalEncode]
  rw [h]
  simp only [h2]

theorem enc_iface_known (e : Encoder) (tp : Ty) (x : Val) (ts : Types) (nm : String)
    (h : e.Types = some ts) (h2 : ts.NameByType (some tp) = some nm) :
    InternalEncode e .iface (.iface tp x) =
      EncRes.andThen (encodeString (nameBytes nm)) (InternalEncode e tp x) := by
  simp only [InternalEncode]
  rw [h]
  simp only [h2]

theorem encodeElems_nil (e : Encoder) (el : Ty) : encodeElems e el [] = ⟨[], none⟩ := by
  rw [encodeElems]

theorem encodeElems_cons (e : Encoder) (el : Ty) (x : Val) (xs : List Val) :
    encodeElems e el (x :: xs) = EncRes.andThen (InternalEncode e el x) (encodeElems e el xs) := by
  rw [encodeElems]

theorem encodeEntries_nil (e : Encoder) (kt vt : Ty) : encodeEntries e kt vt [] = ⟨[], none⟩ := by
  rw [encodeEntries]

theorem encodeEntries_cons (e : Encoder) (kt vt : Ty) (k v : Val) (rest : List (Val × Val)) :
    encodeEntries e kt vt ((k, v) :: rest) =
      EncRes.andThen (InternalEncode e kt k)
        (EncRes.andThen (InternalEncode e vt v) (encodeEntries e kt vt rest)) := by
  rw [encodeEntries]

theorem encodeFields_nil (e : Encoder) (vs : List Val) : encodeFields e [] vs = ⟨[], none⟩ := by
  simp only [encodeFields]

theorem encodeFields_cons (e : Encoder) (n g : String) (t : Ty) (fs : List StructField)
    (v : Val) (vs : List Val) :
    encodeFields e (.mk n t g :: fs) (v :: vs) =
      EncRes.andThen (InternalEncode e t v) (encodeFields e fs vs) := by
  simp only [encodeFields]

/-! ## Unfolding the decoder -/

set_option maxHeartbeats 1000000 in
theorem dec_basic (d : Decoder) (b : Basic) (rv : Val) (r : Reader) :
    InternalDecode d (.basic b) rv r = decodeBasic b rv r := by
  simp only [InternalDecode]

theorem dec_iface (d : Decoder) (rv : Val) (r : Reader) :
    InternalDecode d .iface rv r = ⟨rv, r, some (Err.unexpectedKind .Interface)⟩ := by
  simp only [InternalDecode]

theorem dec_slice_err (d : Decoder) (el : Ty) (rv : Val) (r : Reader)
    (h : (ReadVarint r).2.2 ≠ none) : (InternalDecode d (.slice el) rv r).err ≠ none := by
  simp only [InternalDecode]
  rcases hrd : ReadVarint r with ⟨a, r1, err⟩
  rw [hrd] at h
  cases err with
  | none => exact absurd rfl h
  | some err => simp

theorem dec_slice_nonpos (d : Decoder) (el : Ty) (rv : Val) (r r1 : Reader) (i : Int)
    (h : ReadVarint r = (i, r1, none)) (hi : i ≤ 0) :
    InternalDecode d (.slice el) rv r = ⟨rv, r1, none⟩ := by
  simp only [InternalDecode]
  rw [h]
  simp only [if_pos hi]

theorem dec_slice_pos (d : Decoder) (el : Ty) (rv : Val) (r r1 : Reader) (i : Int)
    (h : ReadVarint r = (i, r1, none)) (hi : ¬ i ≤ 0) :
    InternalDecode d (.slice el) rv r =
      ⟨.slice (decodeElems (InternalDecode d el) (sliceStorage el rv i.toNat).1 r1).1
          (sliceStorage el rv i.toNat).2,
        (decodeElems (InternalDecode d el) (sliceStorage el rv i.toNat).1 r1).2.1,
        (decodeElems (InternalDecode d el) (sliceStorage el rv i.toNat).1 r1).2.2⟩ := by
  simp only [InternalDecode]
  rw [h]
  simp only [if_neg hi]

theorem dec_array (d : Decoder) (n : Nat) (el : Ty) (rv : Val) (r : Reader) :
    InternalDecode d (.array n el) rv r =
      ⟨.array (decodeElems (InternalDecode d el) rv.arrayElems r).1,
        (decodeElems (InternalDecode d el) rv.arrayElems r).2.1,
        (decodeElems (InternalDecode d el) rv.arrayElems r).2.2⟩ := by
  simp only [InternalDecode]

theorem dec_map_err (d : Decoder) (kt vt : Ty) (rv : Val) (r : Reader)
    (h : (ReadVarint r).2.2 ≠ none) : (InternalDecode d (.map kt vt) rv r).err ≠ none := by
  simp only [InternalDecode]
  rcases hrd : ReadVarint r with ⟨a, r1, err⟩
  rw [hrd] at h
  cases err with
  | none => exact absurd rfl h
  | some err => simp

theorem dec_map_nonpos (d : Decoder) (kt vt : Ty) (rv : Val) (r r1 : Reader) (i : Int)
    (h : ReadVarint r = (i, r1, none)) (hi : i ≤ 0) :
    InternalDecode d (.map kt vt) rv r = ⟨rv, r1, none⟩ := by
  simp only [InternalDecode]
  rw [h]
  simp only [if_pos hi]

theorem dec_map_pos (d : Decoder) (kt vt : Ty) (rv : Val) (r r1 : Reader) (i : Int)
    (h : ReadVarint r = (i, r1, none)) (hi : ¬ i ≤ 0) :
    InternalDecode d (.map kt vt) rv r =
      ⟨.map (decodeEntries (InternalDecode d kt (zero kt)) (InternalDecode d vt (zero vt))
              i.toNat rv.mapEntries r1).1,
        (decodeEntries (InternalDecode d kt (zero kt)) (InternalDecode d vt (zero vt))
              i.toNat rv.mapEntries r1).2.1,
        (decodeEntries (InternalDecode d kt (zero kt)) (InternalDecode d vt (zero vt))
              i.toNat rv.mapEntries r1).2.2⟩ := by
  simp only [InternalDecode]
  rw [h]
  simp only [if_neg hi]

theorem dec_struct_ext (d : Decoder) (fs : List StructField) (rv : Val) (r : Reader)
    (fn : Val → Reader → DecRes) (h : d.Extend (.struct fs) = some fn) :
    InternalDecode d (.struct fs) rv r = fn rv r := by
  simp only [InternalDecode, h]

theorem dec_struct (d : Decoder) (fs : List StructField) (rv : Val) (r : Reader)
    (h : d.Extend (.struct fs) = none) :
    InternalDecode d (.struct fs) rv r =
      ⟨.struct (decodeFields d fs rv.structFields r).1,
        (decodeFields d fs rv.structFields r).2.1,
        (decodeFields d fs rv.structFields r).2.2⟩ := by
  simp only [InternalDecode, h]

theorem dec_ptr_err (d : Decoder) (el : Ty) (rv : Val) (r : Reader)
    (h : (r.ReadByte).2.2 ≠ none) : (InternalDecode d (.ptr el) rv r).err ≠ none := by
  simp only [InternalDecode]
  rcases hrd : r.ReadByte with ⟨a, r1, err⟩
  rw [hrd] at h
  cases err with
  | none => exact absurd rfl h
  | some err => simp

theorem dec_ptr_zero (d : Decoder) (el : Ty) (rv : Val) (r r1 : Reader) (c : Byte)
    (h : r.ReadByte = (c, r1, none)) (hc : c.val ≤ 0) :
    InternalDecode d (.ptr el) rv r = ⟨rv, r1, none⟩ := by
  simp only [InternalDecode]
  rw [h]
  simp only [if_pos hc]

theorem dec_ptr_pos (d : Decoder) (el : Ty) (rv : Val) (r r1 : Reader) (c : Byte)
    (h : r.ReadByte = (c, r1, none)) (hc : ¬ c.val ≤ 0) :
    InternalDecode d (.ptr el) rv r =
      ⟨.ptr (InternalDecode d el (ptrTarget el rv) r1).val,
        (InternalDecode d el (ptrTarget el rv) r1).rest,
        (InternalDecode d el (ptrTarget el rv) r1).err⟩ := by
  simp only [InternalDecode]
  rw [h]
  simp only [if_neg hc]

theorem decodeFields_nil (d : Decoder) (vs : List Val) (r : Reader) :
    decodeFields d [] vs r = (vs, r, none) := by
  simp only [decodeFields]

theorem decodeFields_cons_ok (d : Decoder) (n g : String) (t : Ty) (fs : List StructField)
    (v : Val) (vs : List Val) (r r1 : Reader) (x : Val) (hn : IsExported n = true)
    (h : InternalDecode d t v r = ⟨x, r1, none⟩) :
    decodeFields d (.mk n t g :: fs) (v :: vs) r =
      (x :: (decodeFields d fs vs r1).1, (decodeFields d fs vs r1).2.1,
        (decodeFields d fs vs r1).2.2) := by
  simp only [decodeFields, hn, if_true]
  rw [h]

theorem decodeFields_cons_err (d : Decoder) (n g : String) (t : Ty) (fs : List StructField)
    (v : Val) (vs : List Val) (r r1 : Reader) (x : Val) (err : Err) (hn : IsExported n = true)
    (h : InternalDecode d t v r = ⟨x, r1, some err⟩) :
    decodeFields d (.mk n t g :: fs) (v :: vs) r = (x :: vs, r1, some err) := by
  simp only [decodeFields, hn, if_true]
  rw [h]

theorem decodeElems_nil (f : Val → Reader → DecRes) (r : Reader) :
    decodeElems f [] r = ([], r, none) := rfl

theorem decodeElems_cons_ok (f : Val → Reader → DecRes) (x : Val) (xs : List Val)
    (r r1 : Reader) (y : Val) (h : f x r = ⟨y, r1, none⟩) :
    decodeElems f (x :: xs) r =
      (y :: (decodeElems f xs r1).1, (decodeElems f xs r1).2.1, (decodeElems f xs r1).2.2) := by
  simp only [decodeElems]
  rw [h]

theorem decodeElems_cons_err (f : Val → Reader → DecRes) (x : Val) (xs : List Val)
    (r r1 : Reader) (y : Val) (err : Err) (h : f x r = ⟨y, r1, some err⟩) :
    decodeElems f (x :: xs) r = (y :: xs, r1, some err) := by
  simp only [decodeElems]
  rw [h]

theorem decodeEntries_zero (fk fv : Reader → DecRes) (m : List (Val × Val)) (r : Reader) :
    decodeEntries fk fv 0 m r = (m, r, none) := rfl

theorem decodeEntries_succ_ok (fk fv : Reader → DecRes) (n : Nat) (m : List (Val × Val))
    (r r1 r2 : Reader) (k v : Val) (hk : fk r = ⟨k, r1, none⟩) (hv : fv r1 = ⟨v, r2, none⟩) :
    decodeEntries fk fv (n + 1) m r = decodeEntries fk fv n (SetMapIndex m k v) r2 := by
  simp only [decodeEntries]
  rw [hk]
  simp only []
  rw [hv]

theorem decodeEntries_succ_errk (fk fv : Reader → DecRes) (n : Nat) (m : List (Val × Val))
    (r : Reader) (hk : (fk r).err ≠ none) :
    (decodeEntries fk fv (n + 1) m r).2.2 ≠ none := by
  simp only [decodeEntries]
  cases hx : (fk r).err with
  | none => exact absurd hx hk
  | some err => simp

theorem decodeEntries_succ_errv (fk fv : Reader → DecRes) (n : Nat) (m : List (Val × Val))
    (r r1 : Reader) (k : Val) (hk : fk r = ⟨k, r1, none⟩) (hv : (fv r1).err ≠ none) :
    (decodeEntries fk fv (n + 1) m r).2.2 ≠ none := by
  simp only [decodeEntries]
  rw [hk]
  simp only []
  cases hx : (fv r1).err with
  | none => exact absurd hx hv
  | some err => simp

/-! ## Inversion of the typing judgement -/

set_option maxHeartbeats 1000000 in
theorem hasType_basic (b : Basic) (v : Val) : hasType (.basic b) v = hasTypeBasic b v := by
  simp only [hasType]

theorem hasTypeList_iff (el : Ty) (xs : List Val) :
    hasTypeList el xs = true ↔ ∀ x ∈ xs, hasType el x = true := by
  induction xs with
  | nil => simp [hasTypeList]
  | cons x xs ih => simp [hasTypeList, ih]

theorem hasType_slice (el : Ty) (v : Val) (h : hasType (.slice el) v = true) :
    v = .nil ∨ ∃ elems spare, v = .slice elems spare ∧ elems.length < 2 ^ 63 ∧
      ∀ x ∈ elems, hasType el x = true := by
  cases v <;> simp [hasType] at h
  · exact Or.inl rfl
  · refine Or.inr ⟨_, _, rfl, by omega, (hasTypeList_iff _ _).1 h.1.2⟩

theorem hasType_array (n : Nat) (el : Ty) (v : Val) (h : hasType (.array n el) v = true) :
    ∃ elems, v = .array elems ∧ elems.length = n ∧ ∀ x ∈ elems, hasType el x = true := by
  cases v <;> simp [hasType] at h
  exact ⟨_, rfl, h.1, (hasTypeList_iff _ _).1 h.2⟩

theorem hasType_ptr (el : Ty) (v : Val) (h : hasType (.ptr el) v = true) :
    v = .nil ∨ ∃ x, v = .ptr x ∧ hasType el x = true := by
  cases v <;> simp [hasType] at h
  · exact Or.inl rfl
  · exact Or.inr ⟨_, rfl, h⟩

theorem hasType_struct (fs : List StructField) (v : Val) (h : hasType (.struct fs) v = true) :
    ∃ vs, v = .struct vs ∧ hasTypeFields fs vs = true := by
  cases v <;> simp [hasType] at h
  exact ⟨_, rfl, h⟩

theorem hasTypeEntries_iff (kt vt : Ty) (es : List (Val × Val)) :
    hasTypeEntries kt vt es = true ↔
      ∀ kv ∈ es, hasType kt kv.1 = true ∧ hasType vt kv.2 = true := by
  induction es with
  | nil => simp [hasTypeEntries]
  | cons kv es ih =>
    obtain ⟨k, v⟩ := kv
    simp [hasTypeEntries, ih, and_assoc]

theorem hasType_map (kt vt : Ty) (v : Val) (h : hasType (.map kt vt) v = true) :
    v = .nil ∨ ∃ es, v = .map es ∧ es.length < 2 ^ 63 ∧
      ∀ kv ∈ es, hasType kt kv.1 = true ∧ hasType vt kv.2 = true := by
  cases v <;> simp [hasType] at h
  · exact Or.inl rfl
  · exact Or.inr ⟨_, rfl, h.1, fun kv hkv => (hasTypeEntries_iff _ _ _).1 h.2 kv hkv⟩

theorem hasTypeFields_cons (n g : String) (t : Ty) (fs : List StructField) (vs : List Val)
    (h : hasTypeFields (.mk n t g :: fs) vs = true) :
    ∃ v vs1, vs = v :: vs1 ∧ hasType t v = true ∧ hasTypeFields fs vs1 = true := by
  cases vs with
  | nil => simp [hasTypeFields] at h
  | cons v vs1 =>
    simp [hasTypeFields] at h
    exact ⟨v, vs1, rfl, h.1, h.2⟩

theorem hasTypeFields_nil (vs : List Val) (h : hasTypeFields [] vs = true) : vs = [] := by
  cases vs with
  | nil => rfl
  | cons v vs1 => simp [hasTypeFields] at h

/-! ## The canonical form -/

theorem canonList_cons (x : Val) (xs : List Val) : canonList (x :: xs) = canon x :: canonList xs := by
  simp only [canonList]

theorem canonList_nil : canonList [] = [] := by
  simp only [canonList]

theorem canonList_length (xs : List Val) : (canonList xs).length = xs.length := by
  induction xs with
  | nil => simp [canonList]
  | cons x xs ih => simp [canonList, ih]

theorem canon_slice_nil (spare : List Val) : canon (.slice [] spare) = .nil := by
  simp only [canon]

theorem canon_slice_cons (x : Val) (xs spare : List Val) :
    canon (.slice (x :: xs) spare) = .slice (canonList (x :: xs)) [] := by
  simp only [canon, canonList]

theorem canon_array (xs : List Val) : canon (.array xs) = .array (canonList xs) := by
  simp only [canon]

theorem canon_struct (xs : List Val) : canon (.struct xs) = .struct (canonList xs) := by
  simp only [canon]

theorem canon_ptr (x : Val) : canon (.ptr x) = .ptr (canon x) := by
  simp only [canon]

theorem canon_nil : canon .nil = .nil := by
  simp only [canon]

theorem canon_map_nil : canon (.map []) = .nil := by
  simp only [canon]

theorem canonEntries_cons (k v : Val) (es : List (Val × Val)) :
    canonEntries ((k, v) :: es) = (canon k, canon v) :: canonEntries es := by
  simp only [canonEntries]

theorem canonEntries_nil : canonEntries [] = [] := by
  simp only [canonEntries]

theorem canon_map_cons (kv : Val × Val) (es : List (Val × Val)) :
    canon (.map (kv :: es)) = .map (storeAll [] (canonEntries (kv :: es))) := by
  obtain ⟨k, v⟩ := kv
  simp only [canon, canonEntries]

/-! ## Sequences of elements and fields -/

theorem decodeElems_err (f : Val → Reader → DecRes) (x : Val) (xs : List Val) (r : Reader)
    (h : (f x r).err ≠ none) : (decodeElems f (x :: xs) r).2.2 ≠ none := by
  rcases hd : f x r with ⟨y, r1, err⟩
  rw [hd] at h
  cases err with
  | none => exact absurd rfl h
  | some err =>
    rw [decodeElems_cons_err f x xs r r1 y err hd]
    simp

theorem decodeFields_err (d : Decoder) (n g : String) (t : Ty) (fs : List StructField)
    (v : Val) (vs : List Val) (r : Reader) (hn : IsExported n = true)
    (h : (InternalDecode d t v r).err ≠ none) :
    (decodeFields d (.mk n t g :: fs) (v :: vs) r).2.2 ≠ none := by
  rcases hd : InternalDecode d t v r with ⟨y, r1, err⟩
  rw [hd] at h
  cases err with
  | none => exact absurd rfl h
  | some err =>
    rw [decodeFields_cons_err d n g t fs v vs r r1 y err hn hd]
    simp

theorem elems_good (e : Encoder) (d : Decoder) (el : Ty) (vs : List Val)
    (h : ∀ v ∈ vs, Good e d el v) : GoodElems e d el vs := by
  induction vs with
  | nil =>
    refine ⟨by rw [encodeElems_nil], ?_, ?_⟩
    · intro rest
      rw [encodeElems_nil, canonList_nil]
      rfl
    · intro p q hpq hq
      rw [encodeElems_nil] at hpq
      have := List.append_eq_nil.1 hpq.symm
      exact absurd this.2 hq
  | cons x xs ih =>
    have hx := h x (List.mem_cons_self _ _)
    have ih := ih (fun v hv => h v (List.mem_cons_of_mem _ hv))
    have henc : encodeElems e el (x :: xs) =
        ⟨(InternalEncode e el x).out ++ (encodeElems e el xs).out, (encodeElems e el xs).err⟩ := by
      rw [encodeElems_cons, andThen_ok _ _ hx.1]
    refine ⟨by rw [henc]; exact ih.1, ?_, ?_⟩
    · intro rest
      rw [henc]
      simp only [List.length_cons, List.replicate_succ, List.append_assoc]
      rw [decodeElems_cons_ok _ _ _ _ _ _ (hx.2.1 _), ih.2.1 rest, canonList_cons]
    · intro p q hpq hq
      rw [henc] at hpq
      simp only [List.length_cons, List.replicate_succ]
      rcases split_trunc _ _ p q hpq hq with ⟨c, hc, h1⟩ | ⟨p1, h1, h2⟩
      · exact decodeElems_err _ _ _ _ (hx.2.2 p c h1 hc)
      · subst h1
        rw [decodeElems_cons_ok _ _ _ _ _ _ (hx.2.1 _)]
        exact ih.2.2 p1 q h2 hq

theorem fields_good_nil (e : Encoder) (d : Decoder) : GoodFields e d [] [] := by
  refine ⟨by rw [encodeFields_nil], ?_, ?_⟩
  · intro rest
    rw [encodeFields_nil, decodeFields_nil, canonList_nil]
    rfl
  · intro p q hpq hq
    rw [encodeFields_nil] at hpq
    have := List.append_eq_nil.1 hpq.symm
    exact absurd this.2 hq

theorem zeroFields_cons (n g : String) (t : Ty) (fs : List StructField) :
    zeroFields (.mk n t g :: fs) = zero t :: zeroFields fs := by
  simp only [zeroFields]

theorem fields_good_cons (e : Encoder) (d : Decoder) (n g : String) (t : Ty)
    (fs : List StructField) (v : Val) (vs : List Val) (hn : IsExported n = true)
    (hx : Good e d t v) (ih : GoodFields e d fs vs) :
    GoodFields e d (.mk n t g :: fs) (v :: vs) := by
  have henc : encodeFields e (.mk n t g :: fs) (v :: vs) =
      ⟨(InternalEncode e t v).out ++ (encodeFields e fs vs).out, (encodeFields e fs vs).err⟩ := by
    rw [encodeFields_cons, andThen_ok _ _ hx.1]
  refine ⟨by rw [henc]; exact ih.1, ?_, ?_⟩
  · intro rest
    rw [henc, zeroFields_cons]
    simp only [List.append_assoc]
    rw [decodeFields_cons_ok _ _ _ _ _ _ _ _ _ _ hn (hx.2.1 _), ih.2.1 rest, canonList_cons]
  · intro p q hpq hq
    rw [henc] at hpq
    rw [zeroFields_cons]
    rcases split_trunc _ _ p q hpq hq with ⟨c, hc, h1⟩ | ⟨p1, h1, h2⟩
    · exact decodeFields_err _ _ _ _ _ _ _ _ hn (hx.2.2 p c h1 hc)
    · subst h1
      rw [decodeFields_cons_ok _ _ _ _ _ _ _ _ _ _ hn (hx.2.1 _)]
      exact ih.2.2 p1 q h2 hq

/-! ## Arrays, structs and pointers -/

theorem zero_array (n : Nat) (el : Ty) : zero (.array n el) = .array (List.replicate n (zero el)) := by
  simp only [zero]

theorem zero_struct (fs : List StructField) : zero (.struct fs) = .struct (zeroFields fs) := by
  simp only [zero]

theorem zero_ptr (el : Ty) : zero (.ptr el) = .nil := by
  simp only [zero]

theorem zero_slice (el : Ty) : zero (.slice el) = .nil := by
  simp only [zero]

theorem zero_map (kt vt : Ty) : zero (.map kt vt) = .nil := by
  simp only [zero]

theorem zero_basic (b : Basic) : zero (.basic b) = zeroBasic b := by
  simp only [zero]

theorem array_good (e : Encoder) (d : Decoder) (n : Nat) (el : Ty) (elems : List Val)
    (hn : elems.length = n) (h : GoodElems e d el elems) :
    Good e d (.array n el) (.array elems) := by
  refine ⟨by rw [enc_array]; exact h.1, ?_, ?_⟩
  · intro rest
    rw [enc_array, dec_array, zero_array, canon_array]
    simp only [Val.arrayElems]
    rw [← hn, h.2.1 rest]
  · intro p q hpq hq
    rw [enc_array] at hpq
    rw [dec_array, zero_array]
    simp only [Val.arrayElems]
    rw [← hn]
    exact h.2.2 p q hpq hq

theorem struct_good (e : Encoder) (d : Decoder) (fs : List StructField) (vs : List Val)
    (hE : e.Extend (.struct fs) = none) (hD : d.Extend (.struct fs) = none)
    (h : GoodFields e d fs vs) : Good e d (.struct fs) (.struct vs) := by
  refine ⟨by rw [enc_struct _ _ _ hE]; exact h.1, ?_, ?_⟩
  · intro rest
    rw [enc_struct _ _ _ hE, dec_struct _ _ _ _ hD, zero_struct, canon_struct]
    simp only [Val.structFields]
    rw [h.2.1 rest]
  · intro p q hpq hq
    rw [enc_struct _ _ _ hE] at hpq
    rw [dec_struct _ _ _ _ hD, zero_struct]
    simp only [Val.structFields]
    exact h.2.2 p q hpq hq

theorem ptr_good_nil (e : Encoder) (d : Decoder) (el : Ty) : Good e d (.ptr el) .nil := by
  refine ⟨by rw [enc_ptr_nil], ?_, ?_⟩
  · intro rest
    rw [enc_ptr_nil, zero_ptr, canon_nil]
    exact dec_ptr_zero _ _ _ _ _ _ (ReadByte_cons 0 rest) (by decide)
  · intro p q hpq hq
    rw [enc_ptr_nil] at hpq
    have hp := single_trunc _ p q hpq hq
    subst hp
    exact dec_ptr_err _ _ _ _ (by rw [ReadByte_nil]; simp)

theorem ptr_good (e : Encoder) (d : Decoder) (el : Ty) (x : Val) (h : Good e d el x) :
    Good e d (.ptr el) (.ptr x) := by
  have henc : InternalEncode e (.ptr el) (.ptr x) =
      ⟨1 :: (InternalEncode e el x).out, (InternalEncode e el x).err⟩ := by
    rw [enc_ptr, andThen_ok _ _ rfl]
    rfl
  have htgt : ptrTarget el .nil = zero el := rfl
  refine ⟨by rw [henc]; exact h.1, ?_, ?_⟩
  · intro rest
    rw [henc, zero_ptr, canon_ptr]
    simp only [List.cons_append]
    rw [dec_ptr_pos _ _ _ _ _ _ (ReadByte_cons 1 _) (by decide), htgt, h.2.1 rest]
  · intro p q hpq hq
    rw [henc] at hpq
    rw [zero_ptr]
    cases p with
    | nil => exact dec_ptr_err _ _ _ _ (by rw [ReadByte_nil]; simp)
    | cons c p1 =>
      simp only [List.cons_append, List.cons.injEq] at hpq
      rw [← hpq.1, dec_ptr_pos _ _ _ _ _ _ (ReadByte_cons 1 _) (by decide), htgt]
      exact h.2.2 p1 q hpq.2 hq

/-! ## Slices -/

theorem kind_int8 (el : Ty) (h : el.Kind = .Int8) : el = .basic .Int8 := by
  cases el <;> simp [Ty.Kind] at h
  case basic b => cases b <;> simp [Basic.Kind] at h; rfl

theorem kind_uint8 (el : Ty) (h : el.Kind = .Uint8) : el = .basic .Uint8 := by
  cases el <;> simp [Ty.Kind] at h
  case basic b => cases b <;> simp [Basic.Kind] at h; rfl

theorem kind_bool (el : Ty) (h : el.Kind = .Bool) : el = .basic .Bool := by
  cases el <;> simp [Ty.Kind] at h
  case basic b => cases b <;> simp [Basic.Kind] at h; rfl

/-- On a value of kind `int8`, `uint8` or `bool` the encoder writes the byte
the value occupies in memory. -/
theorem enc_memByte (e : Encoder) (el : Ty) (x : Val)
    (hk : el.Kind = .Int8 ∨ el.Kind = .Uint8 ∨ el.Kind = .Bool) (ht : hasType el x = true) :
    InternalEncode e el x = ⟨[x.memByte], none⟩ := by
  rcases hk with hk | hk | hk
  · rw [kind_int8 el hk] at ht ⊢
    rw [hasType_basic] at ht
    rw [enc_basic]
    cases x <;> first | exact (Bool.false_ne_true ht).elim | rfl
  · rw [kind_uint8 el hk] at ht ⊢
    rw [hasType_basic] at ht
    rw [enc_basic]
    cases x <;> first | exact (Bool.false_ne_true ht).elim | rfl
  · rw [kind_bool el hk] at ht ⊢
    rw [hasType_basic] at ht
    rw [enc_basic]
    cases x <;> first | exact (Bool.false_ne_true ht).elim | rfl

/-- The element loop on byte-like elements writes the memory of the slice. -/
theorem encodeElems_bytes (e : Encoder) (el : Ty) (elems : List Val)
    (hk : el.Kind = .Int8 ∨ el.Kind = .Uint8 ∨ el.Kind = .Bool)
    (ht : ∀ x ∈ elems, hasType el x = true) :
    encodeElems e el elems = ⟨elems.map Val.memByte, none⟩ := by
  induction elems with
  | nil => rw [encodeElems_nil]; rfl
  | cons x xs ih =>
    rw [encodeElems_cons, enc_memByte e el x hk (ht x (List.mem_cons_self _ _)),
      ih (fun y hy => ht y (List.mem_cons_of_mem _ hy)), andThen_ok _ _ rfl]
    rfl

/-- Both paths of the slice case write the length and then what the element
loop writes. -/
theorem enc_slice_eq (e : Encoder) (el : Ty) (elems spare : List Val)
    (ht : ∀ x ∈ elems, hasType el x = true) :
    InternalEncode e (.slice el) (.slice elems spare) =
      ⟨PutVarint elems.length ++ (encodeElems e el elems).out, (encodeElems e el elems).err⟩ := by
  by_cases hk : el.Kind = .Int8 ∨ el.Kind = .Uint8 ∨ el.Kind = .Bool
  · rw [enc_slice_bytes e el elems spare hk, encodeElems_bytes e el elems hk ht]
  · rw [enc_slice_gen e el elems spare (fun h => hk (Or.inl h)) (fun h => hk (Or.inr (Or.inl h)))
      (fun h => hk (Or.inr (Or.inr h))), andThen_ok _ _ rfl]

theorem sliceStorage_nil (el : Ty) (n : Nat) :
    sliceStorage el .nil n = (List.replicate n (zero el), []) := rfl

theorem dec_len_zero (rest : List Byte) : ReadVarint ([0] ++ rest) = (0, rest, none) := by
  have := ReadVarint_PutVarint 0 rest (by norm_num) (by norm_num)
  rw [PutVarint_zero] at this
  exact this

theorem slice_good_empty (e : Encoder) (d : Decoder) (el : Ty) (v : Val)
    (henc : InternalEncode e (.slice el) v = ⟨[0], none⟩) (hc : canon v = .nil) :
    Good e d (.slice el) v := by
  refine ⟨by rw [henc], ?_, ?_⟩
  · intro rest
    rw [henc, hc, zero_slice]
    exact dec_slice_nonpos _ _ _ _ _ _ (dec_len_zero rest) (le_refl _)
  · intro p q hpq hq
    rw [henc] at hpq
    have hp := single_trunc _ p q hpq hq
    subst hp
    exact dec_slice_err _ _ _ _ (by decide)

theorem slice_good (e : Encoder) (d : Decoder) (el : Ty) (v : Val)
    (ht : hasType (.slice el) v = true) (h : ∀ x, hasType el x = true → Good e d el x) :
    Good e d (.slice el) v := by
  rcases hasType_slice el v ht with rfl | ⟨elems, spare, rfl, hlen, hall⟩
  · exact slice_good_empty e d el .nil (by rw [enc_slice_nil, PutVarint_zero]) canon_nil
  · have hg := elems_good e d el elems (fun x hx => h x (hall x hx))
    have henc := enc_slice_eq e el elems spare hall
    cases elems with
    | nil =>
      refine slice_good_empty e d el _ ?_ (canon_slice_nil spare)
      rw [henc, encodeElems_nil]
      simp [PutVarint_zero]
    | cons x xs =>
      have hr : ∀ rest, ReadVarint (PutVarint ((x :: xs).length : Int) ++ rest)
          = (((x :: xs).length : Int), rest, none) :=
        fun rest => ReadVarint_PutVarint _ rest (by omega) (by exact_mod_cast hlen)
      have hpos : ¬ (((x :: xs).length : Int) ≤ 0) := by
        simp only [List.length_cons]; omega
      refine ⟨by rw [henc]; exact hg.1, ?_, ?_⟩
      · intro rest
        rw [henc, zero_slice, canon_slice_cons]
        simp only [List.append_assoc]
        rw [dec_slice_pos _ _ _ _ _ _ (hr _) hpos, Int.toNat_ofNat, sliceStorage_nil,
          hg.2.1 rest]
      · intro p q hpq hq
        rw [henc] at hpq
        rw [zero_slice]
        rcases split_trunc _ _ p q hpq hq with ⟨c, hc, h1⟩ | ⟨p1, h1, h2⟩
        · exact dec_slice_err _ _ _ _ (ReadVarint_trunc _ p c h1 hc)
        · subst h1
          rw [dec_slice_pos _ _ _ _ _ _ (hr _) hpos, Int.toNat_ofNat, sliceStorage_nil]
          exact hg.2.2 p1 q h2 hq

/-! ## Maps -/

theorem SetMapIndex_append (m : List (Val × Val)) (k v : Val)
    (h : ∀ kv ∈ m, keyEq kv.1 k = false) : SetMapIndex m k v = m ++ [(k, v)] := by
  induction m with
  | nil => rfl
  | cons kv m ih =>
    obtain ⟨k0, v0⟩ := kv
    have h0 : keyEq k0 k = false := h (k0, v0) (List.mem_cons_self _ _)
    simp only [SetMapIndex, h0, Bool.false_eq_true, if_false, List.cons_append, List.cons.injEq,
      true_and]
    exact ih (fun kv hkv => h kv (List.mem_cons_of_mem _ hkv))

theorem noDupKeys_cons (k v : Val) (rest : List (Val × Val)) :
    noDupKeys ((k, v) :: rest) = true ↔
      (∀ kv ∈ rest, keyEq k kv.1 = false) ∧ noDupKeys rest = true := by
  simp only [noDupKeys, Bool.and_eq_true, Bool.not_eq_true', List.any_eq_false,
    Bool.not_eq_true]

theorem decodeEntries_errk (fk fv : Reader → DecRes) (n : Nat) (m : List (Val × Val))
    (r : Reader) (hk : (fk r).err ≠ none) :
    (decodeEntries fk fv (n + 1) m r).2.2 ≠ none :=
  decodeEntries_succ_errk fk fv n m r hk

theorem storeAll_cons (m : List (Val × Val)) (k v : Val) (ps : List (Val × Val)) :
    storeAll m ((k, v) :: ps) = storeAll (SetMapIndex m k v) ps := rfl

theorem storeAll_nil (m : List (Val × Val)) : storeAll m [] = m := rfl

theorem entries_good (e : Encoder) (d : Decoder) (kt vt : Ty) (es : List (Val × Val))
    (hg : ∀ kv ∈ es, Good e d kt kv.1 ∧ Good e d vt kv.2) : GoodEntries e d kt vt es := by
  induction es with
  | nil =>
    refine ⟨by rw [encodeEntries_nil], ?_, ?_⟩
    · intro m rest
      rw [encodeEntries_nil, canonEntries_nil]
      rfl
    · intro m p q hpq hq
      rw [encodeEntries_nil] at hpq
      have := List.append_eq_nil.1 hpq.symm
      exact absurd this.2 hq
  | cons kv es ih =>
    obtain ⟨k, v⟩ := kv
    obtain ⟨hgk, hgv⟩ := hg (k, v) (List.mem_cons_self _ _)
    have ih := ih (fun kv hkv => hg kv (List.mem_cons_of_mem _ hkv))
    have henc : encodeEntries e kt vt ((k, v) :: es) =
        ⟨(InternalEncode e kt k).out ++ ((InternalEncode e vt v).out
          ++ (encodeEntries e kt vt es).out), (encodeEntries e kt vt es).err⟩ := by
      rw [encodeEntries_cons, andThen_ok _ _ hgv.1, andThen_ok _ _ hgk.1]
    refine ⟨by rw [henc]; exact ih.1, ?_, ?_⟩
    · intro m rest
      rw [henc]
      simp only [List.length_cons, List.append_assoc]
      rw [decodeEntries_succ_ok _ _ _ _ _ _ _ _ _ (hgk.2.1 _) (hgv.2.1 _), ih.2.1 _ rest,
        canonEntries_cons, storeAll_cons]
    · intro m p q hpq hq
      rw [henc] at hpq
      simp only [List.length_cons]
      rcases split_trunc _ _ p q hpq hq with ⟨c, hc, h1⟩ | ⟨p1, h1, h2⟩
      · exact decodeEntries_succ_errk _ _ _ _ _ (hgk.2.2 p c h1 hc)
      · subst h1
        rcases split_trunc _ _ p1 q h2 hq with ⟨c, hc, h3⟩ | ⟨p2, h3, h4⟩
        · exact decodeEntries_succ_errv _ _ _ _ _ _ _ (hgk.2.1 _) (hgv.2.2 p1 c h3 hc)
        · subst h3
          rw [List.append_assoc] at *
          rw [decodeEntries_succ_ok _ _ _ _ _ _ _ _ _ (hgk.2.1 _) (hgv.2.1 _)]
          exact ih.2.2 _ p2 q h4 hq

theorem map_good_empty (e : Encoder) (d : Decoder) (kt vt : Ty) (v : Val)
    (henc : InternalEncode e (.map kt vt) v = ⟨[0], none⟩) (hc : canon v = .nil) :
    Good e d (.map kt vt) v := by
  refine ⟨by rw [henc], ?_, ?_⟩
  · intro rest
    rw [henc, hc, zero_map]
    exact dec_map_nonpos _ _ _ _ _ _ _ (dec_len_zero rest) (le_refl _)
  · intro p q hpq hq
    rw [henc] at hpq
    have hp := single_trunc _ p q hpq hq
    subst hp
    exact dec_map_err _ _ _ _ _ (by decide)

theorem map_good (e : Encoder) (d : Decoder) (kt vt : Ty) (v : Val)
    (ht : hasType (.map kt vt) v = true)
    (hk : ∀ x, hasType kt x = true → Good e d kt x)
    (hv : ∀ x, hasType vt x = true → Good e d vt x) :
    Good e d (.map kt vt) v := by
  rcases hasType_map kt vt v ht with rfl | ⟨es, rfl, hlen, hall⟩
  · exact map_good_empty e d kt vt .nil (by rw [enc_map_nil, PutVarint_zero]) canon_nil
  · have hg := entries_good e d kt vt es
      (fun kv hkv => ⟨hk _ (hall kv hkv).1, hv _ (hall kv hkv).2⟩)
    have henc : InternalEncode e (.map kt vt) (.map es) =
        ⟨PutVarint es.length ++ (encodeEntries e kt vt es).out, (encodeEntries e kt vt es).err⟩ := by
      rw [enc_map, andThen_ok _ _ rfl]
    cases es with
    | nil =>
      refine map_good_empty e d kt vt _ ?_ canon_map_nil
      rw [henc, encodeEntries_nil]
      simp [PutVarint_zero]
    | cons kv es =>
      have hr : ∀ rest, ReadVarint (PutVarint ((kv :: es).length : Int) ++ rest)
          = (((kv :: es).length : Int), rest, none) :=
        fun rest => ReadVarint_PutVarint _ rest (by omega) (by exact_mod_cast hlen)
      have hpos : ¬ (((kv :: es).length : Int) ≤ 0) := by
        simp only [List.length_cons]; omega
      have hme : Val.mapEntries .nil = [] := rfl
      refine ⟨by rw [henc]; exact hg.1, ?_, ?_⟩
      · intro rest
        rw [henc, zero_map, canon_map_cons]
        simp only [List.append_assoc]
        rw [dec_map_pos _ _ _ _ _ _ _ (hr _) hpos, Int.toNat_ofNat, hme,
          hg.2.1 [] rest]
      · intro p q hpq hq
        rw [henc] at hpq
        rw [zero_map]
        rcases split_trunc _ _ p q hpq hq with ⟨c, hc, h1⟩ | ⟨p1, h1, h2⟩
        · exact dec_map_err _ _ _ _ _ (ReadVarint_trunc _ p c h1 hc)
        · subst h1
          rw [dec_map_pos _ _ _ _ _ _ _ (hr _) hpos, Int.toNat_ofNat, hme]
          exact hg.2.2 [] p1 q h2 hq

/-! ## Every supported value -/

theorem basic_codec_good (e : Encoder) (d : Decoder) (b : Basic) (v : Val)
    (hs : basicCodable b = true) (ht : hasTypeBasic b v = true) : Good e d (.basic b) v := by
  have hg := basic_good b v hs ht
  refine ⟨by rw [enc_basic]; exact hg.1, ?_, ?_⟩
  · intro rest
    rw [enc_basic, dec_basic, zero_basic]
    exact hg.2.1 rest
  · intro p q hpq hq
    rw [enc_basic] at hpq
    rw [dec_basic, zero_basic]
    exact hg.2.2 p q hpq hq

mutual
/-- Encoding a well-typed value of a shape the codec handles succeeds,
decoding the bytes (followed by anything) into a fresh destination rebuilds
the value and stops exactly at its end, and decoding a strict initial segment
fails. -/
theorem codec_good (e : Encoder) (d : Decoder) (hE : ∀ t, e.Extend t = none)
    (hD : ∀ t, d.Extend t = none) :
    ∀ (t : Ty) (v : Val), t.codable = true → hasType t v = true → Good e d t v
  | .basic b, v, hs, ht =>
    basic_codec_good e d b v (by simpa [Ty.codable] using hs)
      (by rw [hasType_basic] at ht; exact ht)
  | .iface, _, hs, _ => by simp [Ty.codable] at hs
  | .array n el, v, hs, ht => by
    obtain ⟨elems, rfl, hn, hall⟩ := hasType_array n el v ht
    have hs2 : el.codable = true := by simpa [Ty.codable] using hs
    exact array_good e d n el elems hn
      (elems_good e d el elems (fun x hx => codec_good e d hE hD el x hs2 (hall x hx)))
  | .slice el, v, hs, ht => by
    have hs2 : el.codable = true := by simpa [Ty.codable] using hs
    exact slice_good e d el v ht (fun x hx => codec_good e d hE hD el x hs2 hx)
  | .ptr el, v, hs, ht => by
    have hs2 : el.codable = true := by simpa [Ty.codable] using hs
    rcases hasType_ptr el v ht with rfl | ⟨x, rfl, hx⟩
    · exact ptr_good_nil e d el
    · exact ptr_good e d el x (codec_good e d hE hD el x hs2 hx)
  | .map kt vt, v, hs, ht => by
    have hs2 : kt.codable = true ∧ vt.codable = true := by
      simpa [Ty.codable] using hs
    exact map_good e d kt vt v ht
      (fun x hx => codec_good e d hE hD kt x hs2.1 hx)
      (fun x hx => codec_good e d hE hD vt x hs2.2 hx)
  | .struct fs, v, hs, ht => by
    obtain ⟨vs, rfl, hf⟩ := hasType_struct fs v ht
    have hs2 : Ty.codableFields fs = true := by simpa [Ty.codable] using hs
    exact struct_good e d fs vs (hE _) (hD _) (codec_good_fields e d hE hD fs vs hs2 hf)
theorem codec_good_fields (e : Encoder) (d : Decoder) (hE : ∀ t, e.Extend t = none)
    (hD : ∀ t, d.Extend t = none) :
    ∀ (fs : List StructField) (vs : List Val), Ty.codableFields fs = true →
      hasTypeFields fs vs = true → GoodFields e d fs vs
  | [], vs, _, ht => by
    rw [hasTypeFields_nil vs ht]
    exact fields_good_nil e d
  | .mk n t g :: fs, vs, hs, ht => by
    obtain ⟨v, vs1, rfl, hv, hvs⟩ := hasTypeFields_cons n g t fs vs ht
    have hs2 : (IsExported n = true ∧ t.codable = true) ∧ Ty.codableFields fs = true := by
      simpa [Ty.codableFields] using hs
    exact fields_good_cons e d n g t fs v vs1 hs2.1.1 (codec_good e d hE hD t v hs2.1.2 hv)
      (codec_good_fields e d hE hD fs vs1 hs2.2 hvs)
end

/-! ## Values the canonical form keeps -/

theorem storeAll_distinct (ps : List (Val × Val)) :
    ∀ (m : List (Val × Val)), noDupKeys ps = true →
      (∀ kv ∈ ps, ∀ kv2 ∈ m, keyEq kv2.1 kv.1 = false) → storeAll m ps = m ++ ps := by
  induction ps with
  | nil => intro m _ _; simp [storeAll_nil]
  | cons p ps ih =>
    intro m hnd hm
    obtain ⟨k, v⟩ := p
    obtain ⟨hfresh, hnd2⟩ := (noDupKeys_cons k v ps).1 hnd
    rw [storeAll_cons, SetMapIndex_append m k v
      (fun kv2 h2 => hm (k, v) (List.mem_cons_self _ _) kv2 h2), ih _ hnd2]
    · simp
    · intro kv hkv kv2 hkv2
      rcases List.mem_append.1 hkv2 with h2 | h2
      · exact hm kv (List.mem_cons_of_mem _ hkv) kv2 h2
      · simp only [List.mem_singleton] at h2
        rw [h2]
        exact hfresh kv hkv

mutual
theorem canon_plain : ∀ (v : Val), plain v = true → canon v = v
  | .slice elems spare, h => by
    cases elems with
    | nil => simp [plain] at h
    | cons x xs =>
      simp only [plain, List.isEmpty_cons, Bool.not_false, Bool.true_and, Bool.and_eq_true,
        List.isEmpty_iff] at h
      rw [canon_slice_cons, canonList_plain (x :: xs) h.2, h.1]
  | .array elems, h => by
    simp only [plain] at h
    rw [canon_array, canonList_plain elems h]
  | .map entries, h => by
    cases entries with
    | nil => simp [plain] at h
    | cons kv es =>
      simp only [plain, List.isEmpty_cons, Bool.not_false, Bool.true_and,
        Bool.and_eq_true] at h
      rw [canon_map_cons, canonEntries_plain (kv :: es) h.2,
        storeAll_distinct (kv :: es) [] h.1 (by simp)]
      simp
  | .struct vs, h => by
    simp only [plain] at h
    rw [canon_struct, canonList_plain vs h]
  | .ptr x, h => by
    simp only [plain] at h
    rw [canon_ptr, canon_plain x h]
  | .iface t x, h => by
    simp only [plain] at h
    simp only [canon]
    rw [canon_plain x h]
  | .bool _, _ => rfl
  | .int _, _ => rfl
  | .uint _, _ => rfl
  | .float bs, h => by
    simp only [plain, beq_iff_eq] at h
    rw [canon_float, h]
  | .complex re im, h => by
    simp only [plain, Bool.and_eq_true, beq_iff_eq] at h
    rw [canon_complex, h.1, h.2]
  | .str _, _ => rfl
  | .nil, _ => rfl
theorem canonList_plain : ∀ (xs : List Val), plainList xs = true → canonList xs = xs
  | [], _ => canonList_nil
  | x :: xs, h => by
    simp only [plainList, Bool.and_eq_true] at h
    rw [canonList_cons, canon_plain x h.1, canonList_plain xs h.2]
theorem canonEntries_plain : ∀ (es : List (Val × Val)), plainEntries es = true →
    canonEntries es = es
  | [], _ => canonEntries_nil
  | (k, v) :: es, h => by
    simp only [plainEntries, Bool.and_eq_true] at h
    rw [canonEntries_cons, canon_plain k h.1.1, canon_plain v h.1.2, canonEntries_plain es h.2]
end

/-! ## Lookups in a decoded map -/

theorem floatEq_symm (a b : List Byte) : floatEq a b = floatEq b a := by
  unfold floatEq
  rw [BEq.comm (a := a), Bool.and_comm (isZeroFloat a), Bool.and_comm (!isNaN a)]

theorem floatEq_trans (a b c : List Byte) (h1 : floatEq a b = true) (h2 : floatEq b c = true) :
    floatEq a c = true := by
  simp only [floatEq, Bool.and_eq_true, Bool.or_eq_true, Bool.not_eq_true', beq_iff_eq] at *
  obtain ⟨⟨ha, _⟩, h1⟩ := h1
  obtain ⟨⟨_, hc⟩, h2⟩ := h2
  refine ⟨⟨ha, hc⟩, ?_⟩
  rcases h1 with rfl | h1 <;> rcases h2 with rfl | h2
  · exact Or.inl rfl
  · exact Or.inr h2
  · exact Or.inr h1
  · exact Or.inr ⟨h1.1, h2.2⟩

mutual
theorem keyEq_symm : ∀ (a b : Val), keyEq a b = keyEq b a
  | .bool a, b => by
    cases b
    case bool b => exact BEq.comm
    all_goals rfl
  | .int a, b => by
    cases b
    case int b => exact BEq.comm
    all_goals rfl
  | .uint a, b => by
    cases b
    case uint b => exact BEq.comm
    all_goals rfl
  | .str a, b => by
    cases b
    case str b => exact BEq.comm
    all_goals rfl
  | .float a, b => by
    cases b
    case float b => exact floatEq_symm a b
    all_goals rfl
  | .complex a c, b => by
    cases b
    case complex b d =>
      show (floatEq a b && floatEq c d) = (floatEq b a && floatEq d c)
      rw [floatEq_symm a b, floatEq_symm c d]
    all_goals rfl
  | .nil, b => by cases b <;> rfl
  | .array a, b => by
    cases b
    case array b => exact keyEqList_symm a b
    all_goals rfl
  | .struct a, b => by
    cases b
    case struct b => exact keyEqList_symm a b
    all_goals rfl
  | .slice _ _, b => by cases b <;> rfl
  | .map _, b => by cases b <;> rfl
  | .ptr _, b => by cases b <;> rfl
  | .iface _ _, b => by cases b <;> rfl
theorem keyEqList_symm : ∀ (a b : List Val), keyEqList a b = keyEqList b a
  | [], b => by cases b <;> rfl
  | x :: xs, b => by
    cases b with
    | nil => rfl
    | cons y ys =>
      show (keyEq x y && keyEqList xs ys) = (keyEq y x && keyEqList ys xs)
      rw [keyEq_symm x y, keyEqList_symm xs ys]
end

mutual
theorem keyEq_trans : ∀ (a b c : Val), keyEq a b = true → keyEq b c = true → keyEq a c = true
  | .bool a, b, c => by
    cases b <;> cases c <;> intro h1 h2 <;>
      first
      | exact (Bool.false_ne_true h1).elim
      | exact (Bool.false_ne_true h2).elim
      | skip
    have e1 := eq_of_beq (show (a == _) = true from h1)
    have e2 := eq_of_beq (show (_ == _) = true from h2)
    subst e1 e2
    exact h1
  | .int a, b, c => by
    cases b <;> cases c <;> intro h1 h2 <;>
      first
      | exact (Bool.false_ne_true h1).elim
      | exact (Bool.false_ne_true h2).elim
      | skip
    have e1 := eq_of_beq (show (a == _) = true from h1)
    have e2 := eq_of_beq (show (_ == _) = true from h2)
    subst e1 e2
    exact h1
  | .uint a, b, c => by
    cases b <;> cases c <;> intro h1 h2 <;>
      first
      | exact (Bool.false_ne_true h1).elim
      | exact (Bool.false_ne_true h2).elim
      | skip
    have e1 := eq_of_beq (show (a == _) = true from h1)
    have e2 := eq_of_beq (show (_ == _) = true from h2)
    subst e1 e2
    exact h1
  | .str a, b, c => by
    cases b <;> cases c <;> intro h1 h2 <;>
      first
      | exact (Bool.false_ne_true h1).elim
      | exact (Bool.false_ne_true h2).elim
      | skip
    have e1 := eq_of_beq (show (a == _) = true from h1)
    have e2 := eq_of_beq (show (_ == _) = true from h2)
    subst e1 e2
    exact h1
  | .float a, b, c => by
    cases b <;> cases c <;> intro h1 h2 <;>
      first
      | exact (Bool.false_ne_true h1).elim
      | exact (Bool.false_ne_true h2).elim
      | skip
    exact floatEq_trans a _ _ h1 h2
  | .complex a a2, b, c => by
    cases b <;> cases c <;> intro h1 h2 <;>
      first
      | exact (Bool.false_ne_true h1).elim
      | exact (Bool.false_ne_true h2).elim
      | skip
    rename_i b b2 c c2
    have g1 : floatEq a b = true ∧ floatEq a2 b2 = true :=
      Bool.and_eq_true_iff.1 h1
    have g2 : floatEq b c = true ∧ floatEq b2 c2 = true :=
      Bool.and_eq_true_iff.1 h2
    exact Bool.and_eq_true_iff.2
      ⟨floatEq_trans a b c g1.1 g2.1, floatEq_trans a2 b2 c2 g1.2 g2.2⟩
  | .nil, b, c => by
    cases b <;> cases c <;> intro h1 h2 <;>
      first
      | exact (Bool.false_ne_true h1).elim
      | exact (Bool.false_ne_true h2).elim
      | rfl
  | .array a, b, c => by
    cases b <;> cases c <;> intro h1 h2 <;>
      first
      | exact (Bool.false_ne_true h1).elim
      | exact (Bool.false_ne_true h2).elim
      | skip
    exact keyEqList_trans a _ _ h1 h2
  | .struct a, b, c => by
    cases b <;> cases c <;> intro h1 h2 <;>
      first
      | exact (Bool.false_ne_true h1).elim
      | exact (Bool.false_ne_true h2).elim
      | skip
    exact keyEqList_trans a _ _ h1 h2
  | .slice _ _, b, c => by
    cases b <;> intro h1 <;> exact (Bool.false_ne_true h1).elim
  | .map _, b, c => by
    cases b <;> intro h1 <;> exact (Bool.false_ne_true h1).elim
  | .ptr _, b, c => by
    cases b <;> intro h1 <;> exact (Bool.false_ne_true h1).elim
  | .iface _ _, b, c => by
    cases b <;> intro h1 <;> exact (Bool.false_ne_true h1).elim
theorem keyEqList_trans : ∀ (a b c : List Val), keyEqList a b = true → keyEqList b c = true →
    keyEqList a c = true
  | [], b, c => by
    cases b <;> cases c <;> intro h1 h2 <;>
      first
      | exact (Bool.false_ne_true h1).elim
      | exact (Bool.false_ne_true h2).elim
      | rfl
  | x :: xs, b, c => by
    cases b <;> cases c <;> intro h1 h2 <;>
      first
      | exact (Bool.false_ne_true h1).elim
      | exact (Bool.false_ne_true h2).elim
      | skip
    rename_i y ys z zs
    have g1 : keyEq x y = true ∧ keyEqList xs ys = true := Bool.and_eq_true_iff.1 h1
    have g2 : keyEq y z = true ∧ keyEqList ys zs = true := Bool.and_eq_true_iff.1 h2
    exact Bool.and_eq_true_iff.2
      ⟨keyEq_trans x y z g1.1 g2.1, keyEqList_trans xs ys zs g1.2 g2.2⟩
end

theorem MapIndex_cons (k0 v0 : Val) (rest : List (Val × Val)) (k : Val) :
    MapIndex ((k0, v0) :: rest) k = if keyEq k0 k = true then some v0 else MapIndex rest k := by
  simp only [MapIndex]

theorem SetMapIndex_cons (k0 v0 : Val) (rest : List (Val × Val)) (k v : Val) :
    SetMapIndex ((k0, v0) :: rest) k v =
      if keyEq k0 k = true then (k, v) :: rest else (k0, v0) :: SetMapIndex rest k v := by
  simp only [SetMapIndex]

theorem MapIndex_set (m : List (Val × Val)) (k v k1 : Val) :
    MapIndex (SetMapIndex m k v) k1 = if keyEq k k1 = true then some v else MapIndex m k1 := by
  induction m with
  | nil =>
    show MapIndex [(k, v)] k1 = _
    rw [MapIndex_cons]
  | cons kv m ih =>
    obtain ⟨k0, v0⟩ := kv
    rw [SetMapIndex_cons, MapIndex_cons]
    by_cases h0 : keyEq k0 k = true
    · rw [if_pos h0, MapIndex_cons]
      by_cases h1 : keyEq k k1 = true
      · rw [if_pos h1, if_pos h1]
      · have h2 : ¬ keyEq k0 k1 = true := fun h2 =>
          h1 (keyEq_trans k k0 k1 (by rw [keyEq_symm]; exact h0) h2)
        rw [if_neg h1, if_neg h1, if_neg h2]
    · rw [if_neg h0, MapIndex_cons, ih]
      by_cases h1 : keyEq k0 k1 = true
      · have h2 : ¬ keyEq k k1 = true := fun h2 =>
          h0 (keyEq_trans k0 k1 k h1 (by rw [keyEq_symm]; exact h2))
        rw [if_pos h1, if_neg h2, if_pos h1]
      · rw [if_neg h1, if_neg h1]

theorem MapIndex_append (a b : List (Val × Val)) (k : Val) :
    MapIndex (a ++ b) k = (MapIndex a k).or (MapIndex b k) := by
  induction a with
  | nil => rfl
  | cons kv a ih =>
    obtain ⟨k0, v0⟩ := kv
    rw [List.cons_append, MapIndex_cons, MapIndex_cons, ih]
    by_cases h0 : keyEq k0 k = true
    · rw [if_pos h0, if_pos h0]; rfl
    · rw [if_neg h0, if_neg h0]

/-- Storing pairs one after the other: a key finds the value of the last pair
that has it, and what the map held before when no pair has it. -/
theorem MapIndex_storeAll (pairs m : List (Val × Val)) (k : Val) :
    MapIndex (storeAll m pairs) k = (MapIndex pairs.reverse k).or (MapIndex m k) := by
  induction pairs generalizing m with
  | nil => rfl
  | cons p ps ih =>
    obtain ⟨pk, pv⟩ := p
    rw [storeAll_cons, ih, MapIndex_set, List.reverse_cons, MapIndex_append, MapIndex_cons]
    by_cases h0 : keyEq pk k = true
    · rw [if_pos h0, if_pos h0]
      cases MapIndex ps.reverse k <;> rfl
    · rw [if_neg h0, if_neg h0]
      cases MapIndex ps.reverse k <;> rfl

theorem readPairs_zero (fk fv : Reader → DecRes) (r : Reader) :
    readPairs fk fv 0 r = ([], r, none) := rfl

/-- The entry loop stores, in order, the pairs it reads. -/
theorem decodeEntries_readPairs (fk fv : Reader → DecRes) (n : Nat) :
    ∀ (m : List (Val × Val)) (r : Reader),
      decodeEntries fk fv n m r =
        (storeAll m (readPairs fk fv n r).1,
          (readPairs fk fv n r).2.1, (readPairs fk fv n r).2.2) := by
  induction n with
  | zero => intro m r; rfl
  | succ n ih =>
    intro m r
    simp only [decodeEntries, readPairs]
    cases hk : (fk r).err with
    | some err => rfl
    | none =>
      simp only []
      cases hv : (fv (fk r).rest).err with
      | some err => rfl
      | none =>
        simp only []
        rw [ih]
        rfl

/-! ## Failures of the scalar kinds -/

theorem decodeInt_err_val (b : Basic) (rv : Val) (r : Reader)
    (h : (decodeInt b rv r).err ≠ none) : (decodeInt b rv r).val = rv := by
  unfold decodeInt at h ⊢
  rcases hr : ReadVarint r with ⟨i, r1, err⟩
  rw [hr] at h
  cases err with
  | none => exact absurd rfl h
  | some err => rfl

theorem decodeUint_err_val (b : Basic) (rv : Val) (r : Reader)
    (h : (decodeUint b rv r).err ≠ none) : (decodeUint b rv r).val = rv := by
  unfold decodeUint at h ⊢
  rcases hr : ReadUvarint r with ⟨i, r1, err⟩
  rw [hr] at h
  cases err with
  | none => exact absurd rfl h
  | some err => rfl

theorem decodeFloat_err_val (n : Nat) (set : List Byte → Val) (rv : Val) (r : Reader)
    (h : (decodeFloat n set rv r).err ≠ none) : (decodeFloat n set rv r).val = rv := by
  unfold decodeFloat at h ⊢
  rcases hr : Reader.Read r n with ⟨buf, r1, err⟩
  rw [hr] at h
  cases err with
  | some err => rfl
  | none =>
    simp only at h ⊢
    by_cases hl : buf.length ≠ n
    · rw [if_pos hl]
    · rw [if_neg hl] at h
      exact absurd rfl h

theorem decodeString_err_val (rv : Val) (r : Reader)
    (h : (decodeString rv r).err ≠ none) : (decodeString rv r).val = rv := by
  unfold decodeString at h ⊢
  rcases hr : ReadVarint r with ⟨i, r1, err⟩
  rw [hr] at h
  cases err with
  | some err => rfl
  | none =>
    simp only at h ⊢
    by_cases hi : i ≤ 0
    · rw [if_pos hi]
    · rw [if_neg hi] at h ⊢
      rcases hr2 : Reader.Read r1 i.toNat with ⟨slc, r2, err2⟩
      rw [hr2] at h
      cases err2 with
      | some err => rfl
      | none =>
        simp only at h ⊢
        by_cases hl : slc.length ≠ i.toNat
        · rw [if_pos hl]
        · rw [if_neg hl] at h
          exact absurd rfl h

theorem decodeByte_err_val (f : Byte → Val) (rv : Val) (r : Reader)
    (h : (match r.ReadByte with
      | (_, r1, some err) => (⟨rv, r1, some err⟩ : DecRes)
      | (c, r1, none) => ⟨f c, r1, none⟩).err ≠ none) :
    (match r.ReadByte with
      | (_, r1, some err) => (⟨rv, r1, some err⟩ : DecRes)
      | (c, r1, none) => ⟨f c, r1, none⟩).val = rv := by
  rcases hr : r.ReadByte with ⟨c, r1, err⟩
  rw [hr] at h
  cases err with
  | none => exact absurd rfl h
  | some err => rfl

theorem decodeBasic_err_val (b : Basic) (rv : Val) (r : Reader)
    (h : (decodeBasic b rv r).err ≠ none) : (decodeBasic b rv r).val = rv := by
  cases b
  case Bool => exact decodeByte_err_val (fun c => .bool (c ≠ 0)) rv r h
  case Int8 => exact decodeByte_err_val (fun c => SetInt .Int8 (int8OfByte c)) rv r h
  case Uint8 => exact decodeByte_err_val (fun c => SetUint .Uint8 c.val) rv r h
  case String => exact decodeString_err_val rv r h
  case Chan => rfl
  case Func => rfl
  case UnsafePointer => rfl
  case Int => exact decodeInt_err_val _ rv r h
  case Int16 => exact decodeInt_err_val _ rv r h
  case Int32 => exact decodeInt_err_val _ rv r h
  case Int64 => exact decodeInt_err_val _ rv r h
  case Uint => exact decodeUint_err_val _ rv r h
  case Uint16 => exact decodeUint_err_val _ rv r h
  case Uint32 => exact decodeUint_err_val _ rv r h
  case Uint64 => exact decodeUint_err_val _ rv r h
  case Uintptr => exact decodeUint_err_val _ rv r h
  case Float32 => exact decodeFloat_err_val _ _ rv r h
  case Float64 => exact decodeFloat_err_val _ _ rv r h
  case Complex64 => exact decodeFloat_err_val _ _ rv r h
  case Complex128 => exact decodeFloat_err_val _ _ rv r h

/-! ## Records field by field -/

theorem encodeFields_flatten (e : Encoder) :
    ∀ (fs : List StructField) (vs : List Val),
      (∀ p ∈ List.zip fs vs, (InternalEncode e p.1.Typ p.2).err = none) →
      encodeFields e fs vs =
        ⟨((List.zip fs vs).map fun p => (InternalEncode e p.1.Typ p.2).out).flatten, none⟩ := by
  intro fs
  induction fs with
  | nil =>
    intro vs _
    rw [encodeFields_nil]
    rfl
  | cons f fs ih =>
    intro vs h
    obtain ⟨n, t, g⟩ := f
    cases vs with
    | nil =>
      simp only [encodeFields]
      rfl
    | cons v vs =>
      have hv : (InternalEncode e t v).err = none :=
        h (.mk n t g, v) (by simp [List.zip_cons_cons])
      have hrest := ih vs (fun p hp => h p (by
        rw [List.zip_cons_cons]
        exact List.mem_cons_of_mem _ hp))
      rw [encodeFields_cons, andThen_ok _ _ hv, hrest]
      simp [List.zip_cons_cons, StructField.Typ]

/-- The field loop writes what the fields write, up to and including the
first field that fails. -/
theorem encodeFields_upto (e : Encoder) :
    ∀ (fs : List StructField) (vs : List Val),
      (encodeFields e fs vs).out
        = ((uptoFailure (fieldResults e fs vs)).map EncRes.out).flatten := by
  intro fs
  induction fs with
  | nil =>
    intro vs
    rw [encodeFields_nil]
    rfl
  | cons f fs ih =>
    intro vs
    obtain ⟨n, t, g⟩ := f
    cases vs with
    | nil =>
      simp only [encodeFields]
      rfl
    | cons v vs =>
      rw [encodeFields_cons]
      have hfr : fieldResults e (.mk n t g :: fs) (v :: vs)
          = InternalEncode e t v :: fieldResults e fs vs := rfl
      rw [hfr]
      cases hv : (InternalEncode e t v).err with
      | none =>
        rw [andThen_ok _ _ hv]
        simp only [uptoFailure, hv, Option.isSome_none, Bool.false_eq_true, if_false,
          List.map_cons, List.flatten_cons]
        rw [ih vs]
      | some err =>
        rw [andThen_err _ _ (by rw [hv]; simp)]
        simp [uptoFailure, hv]

theorem encodeFields_types (e : Encoder) :
    ∀ (fs gs : List StructField) (vs : List Val),
      gs.map StructField.Typ = fs.map StructField.Typ →
      encodeFields e gs vs = encodeFields e fs vs := by
  intro fs
  induction fs with
  | nil =>
    intro gs vs h
    have : gs = [] := by simpa using h
    rw [this]
  | cons f fs ih =>
    intro gs vs h
    obtain ⟨n, t, g⟩ := f
    cases gs with
    | nil => simp at h
    | cons f2 gs =>
      obtain ⟨n2, t2, g2⟩ := f2
      simp only [List.map_cons, List.cons.injEq, StructField.Typ] at h
      obtain ⟨ht, hrest⟩ := h
      subst ht
      cases vs with
      | nil => simp only [encodeFields]
      | cons v vs => rw [encodeFields_cons, encodeFields_cons, ih gs vs hrest]

theorem Encode_ptr (e : Encoder) (el : Ty) (rv : Val) :
    e.Encode (.iface (.ptr el) rv) = InternalEncode e (.ptr el) rv := by
  unfold Encoder.Encode
  simp [Ty.Kind]

/-! ## Only the entries of struct types are consulted -/

mutual
theorem enc_table_congr (e e2 : Encoder)
    (hx : ∀ fs, e2.Extend (.struct fs) = e.Extend (.struct fs)) (hT : e2.Types = e.Types) :
    ∀ (rv : Val) (t : Ty), InternalEncode e2 t rv = InternalEncode e t rv
  | .slice elems spare, t => by
    cases t <;> simp only [InternalEncode, hx]
    case slice el =>
      rw [encElems_table_congr e e2 hx hT elems el]
  | .array elems, t => by
    cases t <;> simp only [InternalEncode, hx]
    case array n el =>
      exact encElems_table_congr e e2 hx hT elems el
  | .map entries, t => by
    cases t <;> simp only [InternalEncode, hx]
    case map kt vt =>
      rw [encEntries_table_congr e e2 hx hT entries kt vt]
  | .struct vs, t => by
    cases t <;> simp only [InternalEncode, hx]
    case struct fs =>
      rw [encFields_table_congr e e2 hx hT vs fs]
  | .ptr x, t => by
    cases t <;> simp only [InternalEncode, hx]
    case ptr el =>
      rw [enc_table_congr e e2 hx hT x el]
  | .iface tp x, t => by
    cases t <;> simp only [InternalEncode, hx, hT]
    case iface =>
      rw [enc_table_congr e e2 hx hT x tp]
  | .bool _, t => by cases t <;> simp only [InternalEncode, hx]
  | .int _, t => by cases t <;> simp only [InternalEncode, hx]
  | .uint _, t => by cases t <;> simp only [InternalEncode, hx]
  | .float _, t => by cases t <;> simp only [InternalEncode, hx]
  | .complex _ _, t => by cases t <;> simp only [InternalEncode, hx]
  | .str _, t => by cases t <;> simp only [InternalEncode, hx]
  | .nil, t => by cases t <;> simp only [InternalEncode, hx]
theorem encElems_table_congr (e e2 : Encoder)
    (hx : ∀ fs, e2.Extend (.struct fs) = e.Extend (.struct fs)) (hT : e2.Types = e.Types) :
    ∀ (vs : List Val) (el : Ty), encodeElems e2 el vs = encodeElems e el vs
  | [], el => by rw [encodeElems_nil, encodeElems_nil]
  | x :: xs, el => by
    rw [encodeElems_cons, encodeElems_cons, enc_table_congr e e2 hx hT x el,
      encElems_table_congr e e2 hx hT xs el]
theorem encEntries_table_congr (e e2 : Encoder)
    (hx : ∀ fs, e2.Extend (.struct fs) = e.Extend (.struct fs)) (hT : e2.Types = e.Types) :
    ∀ (es : List (Val × Val)) (kt vt : Ty), encodeEntries e2 kt vt es = encodeEntries e kt vt es
  | [], kt, vt => by rw [encodeEntries_nil, encodeEntries_nil]
  | (k, v) :: es, kt, vt => by
    rw [encodeEntries_cons, encodeEntries_cons, enc_table_congr e e2 hx hT k kt,
      enc_table_congr e e2 hx hT v vt, encEntries_table_congr e e2 hx hT es kt vt]
theorem encFields_table_congr (e e2 : Encoder)
    (hx : ∀ fs, e2.Extend (.struct fs) = e.Extend (.struct fs)) (hT : e2.Types = e.Types) :
    ∀ (vs : List Val) (fs : List StructField), encodeFields e2 fs vs = encodeFields e fs vs
  | [], fs => by simp only [encodeFields]
  | v :: vs, fs => by
    cases fs with
    | nil => rw [encodeFields_nil, encodeFields_nil]
    | cons f fs =>
      obtain ⟨n, t, g⟩ := f
      rw [encodeFields_cons, encodeFields_cons, enc_table_congr e e2 hx hT v t,
        encFields_table_congr e e2 hx hT vs fs]
end

mutual
theorem dec_table_congr (d d2 : Decoder)
    (hx : ∀ fs, d2.Extend (.struct fs) = d.Extend (.struct fs)) :
    ∀ (t : Ty) (rv : Val) (r : Reader), InternalDecode d2 t rv r = InternalDecode d t rv r
  | .basic b, rv, r => by rw [dec_basic, dec_basic]
  | .iface, rv, r => by rw [dec_iface, dec_iface]
  | .slice el, rv, r => by
    have hf : InternalDecode d2 el = InternalDecode d el :=
      funext fun rv => funext fun r => dec_table_congr d d2 hx el rv r
    simp only [InternalDecode, hf]
  | .array n el, rv, r => by
    have hf : InternalDecode d2 el = InternalDecode d el :=
      funext fun rv => funext fun r => dec_table_congr d d2 hx el rv r
    simp only [InternalDecode, hf]
  | .map kt vt, rv, r => by
    have hk : InternalDecode d2 kt = InternalDecode d kt :=
      funext fun rv => funext fun r => dec_table_congr d d2 hx kt rv r
    have hv : InternalDecode d2 vt = InternalDecode d vt :=
      funext fun rv => funext fun r => dec_table_congr d d2 hx vt rv r
    simp only [InternalDecode, hk, hv]
  | .ptr el, rv, r => by
    have hf : InternalDecode d2 el = InternalDecode d el :=
      funext fun rv => funext fun r => dec_table_congr d d2 hx el rv r
    simp only [InternalDecode, hf]
  | .struct fs, rv, r => by
    have hf : decodeFields d2 fs = decodeFields d fs :=
      funext fun vs => funext fun r => decFields_table_congr d d2 hx fs vs r
    simp only [InternalDecode, hx, hf]
theorem decFields_table_congr (d d2 : Decoder)
    (hx : ∀ fs, d2.Extend (.struct fs) = d.Extend (.struct fs)) :
    ∀ (fs : List StructField) (vs : List Val) (r : Reader),
      decodeFields d2 fs vs r = decodeFields d fs vs r
  | [], vs, r => by rw [decodeFields_nil, decodeFields_nil]
  | .mk n t g :: fs, vs, r => by
    cases vs with
    | nil => simp only [decodeFields]
    | cons v vs =>
      have hf : decodeFields d2 fs = decodeFields d fs :=
        funext fun vs => funext fun r => decFields_table_congr d d2 hx fs vs r
      simp only [decodeFields, dec_table_congr d d2 hx t v r, decRO_table_congr d d2 hx t v r,
        hf]
theorem decRO_table_congr (d d2 : Decoder)
    (hx : ∀ fs, d2.Extend (.struct fs) = d.Extend (.struct fs)) :
    ∀ (t : Ty) (rv : Val) (r : Reader), decodeRO d2 t rv r = decodeRO d t rv r
  | .basic b, rv, r => by simp only [decodeRO]
  | .iface, rv, r => by simp only [decodeRO]
  | .slice el, rv, r => by simp only [decodeRO]
  | .array n el, rv, r => by
    have hf : decodeRO d2 el = decodeRO d el :=
      funext fun rv => funext fun r => decRO_table_congr d d2 hx el rv r
    simp only [decodeRO, hf]
  | .map kt vt, rv, r => by
    have hk : InternalDecode d2 kt = InternalDecode d kt :=
      funext fun rv => funext fun r => dec_table_congr d d2 hx kt rv r
    have hv : InternalDecode d2 vt = InternalDecode d vt :=
      funext fun rv => funext fun r => dec_table_congr d d2 hx vt rv r
    simp only [decodeRO, hk, hv]
  | .ptr el, rv, r => by
    have hf : decodeRO d2 el = decodeRO d el :=
      funext fun rv => funext fun r => decRO_table_congr d d2 hx el rv r
    simp only [decodeRO, hf]
  | .struct fs, rv, r => by
    have hf : decodeFieldsRO d2 fs = decodeFieldsRO d fs :=
      funext fun vs => funext fun r => decFieldsRO_table_congr d d2 hx fs vs r
    simp only [decodeRO, hx, hf]
theorem decFieldsRO_table_congr (d d2 : Decoder)
    (hx : ∀ fs, d2.Extend (.struct fs) = d.Extend (.struct fs)) :
    ∀ (fs : List StructField) (vs : List Val) (r : Reader),
      decodeFieldsRO d2 fs vs r = decodeFieldsRO d fs vs r
  | [], vs, r => by simp only [decodeFieldsRO]
  | .mk n t g :: fs, vs, r => by
    cases vs with
    | nil => simp only [decodeFieldsRO]
    | cons v vs =>
      have hf : decodeFieldsRO d2 fs = decodeFieldsRO d fs :=
        funext fun vs => funext fun r => decFieldsRO_table_congr d d2 hx fs vs r
      simp only [decodeFieldsRO, decRO_table_congr d d2 hx t v r, hf]
end

/-! ## Where the decoder panics, and where it does not -/

theorem Read_noPanic (r : Reader) (n : Nat) : (r.Read n).2.2 ≠ some Err.setPanic := by
  unfold Reader.Read
  split_ifs <;> simp

theorem ReadByte_noPanic (r : Reader) : r.ReadByte.2.2 ≠ some Err.setPanic := by
  have h := Read_noPanic r 1
  unfold Reader.ReadByte
  rcases hr : r.Read 1 with ⟨buf, r1, err⟩
  rw [hr] at h
  cases err with
  | some err => simpa using h
  | none =>
    simp only []
    split_ifs <;> simp

theorem ReadUvarint_loop_noPanic (n : Nat) :
    ∀ (i x s : Nat) (r : Reader), (ReadUvarint.loop n i x s r).2.2 ≠ some Err.setPanic := by
  induction n with
  | zero =>
    intro i x s r
    simp [ReadUvarint.loop]
  | succ n ih =>
    intro i x s r
    have h := ReadByte_noPanic r
    unfold ReadUvarint.loop
    rcases hr : r.ReadByte with ⟨b, r1, err⟩
    rw [hr] at h
    cases err with
    | some err =>
      simp only []
      split_ifs with hc
      · simp
      · simpa using h
    | none =>
      simp only []
      split_ifs
      · simp
      · simp
      · exact ih _ _ _ _

theorem ReadUvarint_noPanic (r : Reader) : (ReadUvarint r).2.2 ≠ some Err.setPanic :=
  ReadUvarint_loop_noPanic _ _ _ _ _

theorem ReadVarint_noPanic (r : Reader) : (ReadVarint r).2.2 ≠ some Err.setPanic := by
  have h := ReadUvarint_noPanic r
  unfold ReadVarint
  rcases hr : ReadUvarint r with ⟨ux, r1, err⟩
  rw [hr] at h
  exact h

theorem decodeInt_noPanic (b : Basic) (rv : Val) (r : Reader) :
    (decodeInt b rv r).err ≠ some Err.setPanic := by
  have h := ReadVarint_noPanic r
  unfold decodeInt
  rcases hr : ReadVarint r with ⟨i, r1, err⟩
  rw [hr] at h
  cases err with
  | some err => simpa using h
  | none => simp

theorem decodeUint_noPanic (b : Basic) (rv : Val) (r : Reader) :
    (decodeUint b rv r).err ≠ some Err.setPanic := by
  have h := ReadUvarint_noPanic r
  unfold decodeUint
  rcases hr : ReadUvarint r with ⟨i, r1, err⟩
  rw [hr] at h
  cases err with
  | some err => simpa using h
  | none => simp

theorem decodeFloat_noPanic (n : Nat) (set : List Byte → Val) (rv : Val) (r : Reader) :
    (decodeFloat n set rv r).err ≠ some Err.setPanic := by
  have h := Read_noPanic r n
  unfold decodeFloat
  rcases hr : r.Read n with ⟨buf, r1, err⟩
  rw [hr] at h
  cases err with
  | some err => simpa using h
  | none =>
    simp only []
    split_ifs <;> simp

theorem decodeString_noPanic (rv : Val) (r : Reader) :
    (decodeString rv r).err ≠ some Err.setPanic := by
  have h := ReadVarint_noPanic r
  unfold decodeString
  rcases hr : ReadVarint r with ⟨i, r1, err⟩
  rw [hr] at h
  cases err with
  | some err => simpa using h
  | none =>
    simp only []
    split_ifs
    · simp
    · have h2 := Read_noPanic r1 i.toNat
      rcases hr2 : r1.Read i.toNat with ⟨slc, r2, err2⟩
      rw [hr2] at h2
      cases err2 with
      | some err2 => simpa using h2
      | none =>
        simp only []
        split_ifs <;> simp

theorem decodeByte_noPanic (f : Byte → Val) (rv : Val) (r : Reader) :
    (match r.ReadByte with
      | (_, r1, some err) => (⟨rv, r1, some err⟩ : DecRes)
      | (c, r1, none) => ⟨f c, r1, none⟩).err ≠ some Err.setPanic := by
  have h := ReadByte_noPanic r
  rcases hr : r.ReadByte with ⟨c, r1, err⟩
  rw [hr] at h
  cases err with
  | some err => simpa using h
  | none => simp

theorem decodeBasic_noPanic (b : Basic) (rv : Val) (r : Reader) :
    (decodeBasic b rv r).err ≠ some Err.setPanic := by
  cases b
  case Bool => exact decodeByte_noPanic (fun c => .bool (c ≠ 0)) rv r
  case Int8 => exact decodeByte_noPanic (fun c => SetInt .Int8 (int8OfByte c)) rv r
  case Uint8 => exact decodeByte_noPanic (fun c => SetUint .Uint8 c.val) rv r
  case Int => exact decodeInt_noPanic _ rv r
  case Int16 => exact decodeInt_noPanic _ rv r
  case Int32 => exact decodeInt_noPanic _ rv r
  case Int64 => exact decodeInt_noPanic _ rv r
  case Uint => exact decodeUint_noPanic _ rv r
  case Uint16 => exact decodeUint_noPanic _ rv r
  case Uint32 => exact decodeUint_noPanic _ rv r
  case Uint64 => exact decodeUint_noPanic _ rv r
  case Uintptr => exact decodeUint_noPanic _ rv r
  case Float32 => exact decodeFloat_noPanic _ _ rv r
  case Float64 => exact decodeFloat_noPanic _ _ rv r
  case Complex64 => exact decodeFloat_noPanic _ _ rv r
  case Complex128 => exact decodeFloat_noPanic _ _ rv r
  case String => exact decodeString_noPanic rv r
  case Chan => simp [decodeBasic]
  case Func => simp [decodeBasic]
  case UnsafePointer => simp [decodeBasic]

theorem decodeElems_noPanic (f : Val → Reader → DecRes)
    (hf : ∀ x r, (f x r).err ≠ some Err.setPanic) :
    ∀ (xs : List Val) (r : Reader), (decodeElems f xs r).2.2 ≠ some Err.setPanic
  | [], r => by simp [decodeElems]
  | x :: xs, r => by
    have h := hf x r
    rcases hd : f x r with ⟨y, r1, err⟩
    rw [hd] at h
    cases err with
    | some err =>
      rw [decodeElems_cons_err f x xs r r1 y err hd]
      simpa using h
    | none =>
      rw [decodeElems_cons_ok f x xs r r1 y hd]
      exact decodeElems_noPanic f hf xs r1

theorem decodeEntries_noPanic (fk fv : Reader → DecRes)
    (hk : ∀ r, (fk r).err ≠ some Err.setPanic) (hv : ∀ r, (fv r).err ≠ some Err.setPanic) :
    ∀ (n : Nat) (m : List (Val × Val)) (r : Reader),
      (decodeEntries fk fv n m r).2.2 ≠ some Err.setPanic
  | 0, m, r => by simp [decodeEntries]
  | n + 1, m, r => by
    have h1 := hk r
    simp only [decodeEntries]
    cases hx : (fk r).err with
    | some err =>
      rw [hx] at h1
      simpa using h1
    | none =>
      simp only []
      have h2 := hv (fk r).rest
      cases hy : (fv (fk r).rest).err with
      | some err =>
        rw [hy] at h2
        simpa using h2
      | none =>
        simp only []
        exact decodeEntries_noPanic fk fv hk hv n _ _

mutual
/-- On a destination whose shape the codec handles, with an empty extension
table, `InternalDecode` never panics at a setter: whatever the stream, it
returns. -/
theorem dec_noPanic (d : Decoder) (hD : ∀ t, d.Extend t = none) :
    ∀ (t : Ty), t.codable = true → ∀ (rv : Val) (r : Reader),
      (InternalDecode d t rv r).err ≠ some Err.setPanic
  | .basic b, _, rv, r => by
    rw [dec_basic]
    exact decodeBasic_noPanic b rv r
  | .iface, hs, _, _ => by simp [Ty.codable] at hs
  | .array n el, hs, rv, r => by
    have hs2 : el.codable = true := by simpa [Ty.codable] using hs
    rw [dec_array]
    exact decodeElems_noPanic _ (dec_noPanic d hD el hs2) _ _
  | .slice el, hs, rv, r => by
    have hs2 : el.codable = true := by simpa [Ty.codable] using hs
    have h := ReadVarint_noPanic r
    rcases hr : ReadVarint r with ⟨i, r1, err⟩
    rw [hr] at h
    cases err with
    | some err =>
      simp only [InternalDecode, hr]
      simpa using h
    | none =>
      by_cases hi : i ≤ 0
      · rw [dec_slice_nonpos d el rv r r1 i hr hi]
        simp
      · rw [dec_slice_pos d el rv r r1 i hr hi]
        exact decodeElems_noPanic _ (dec_noPanic d hD el hs2) _ _
  | .ptr el, hs, rv, r => by
    have hs2 : el.codable = true := by simpa [Ty.codable] using hs
    have h := ReadByte_noPanic r
    rcases hr : r.ReadByte with ⟨c, r1, err⟩
    rw [hr] at h
    cases err with
    | some err =>
      simp only [InternalDecode, hr]
      simpa using h
    | none =>
      by_cases hc : c.val ≤ 0
      · rw [dec_ptr_zero d el rv r r1 c hr hc]
        simp
      · rw [dec_ptr_pos d el rv r r1 c hr hc]
        exact dec_noPanic d hD el hs2 _ _
  | .map kt vt, hs, rv, r => by
    have hs2 : kt.codable = true ∧ vt.codable = true := by
      simpa [Ty.codable] using hs
    have h := ReadVarint_noPanic r
    rcases hr : ReadVarint r with ⟨i, r1, err⟩
    rw [hr] at h
    cases err with
    | some err =>
      simp only [InternalDecode, hr]
      simpa using h
    | none =>
      by_cases hi : i ≤ 0
      · rw [dec_map_nonpos d kt vt rv r r1 i hr hi]
        simp
      · rw [dec_map_pos d kt vt rv r r1 i hr hi]
        exact decodeEntries_noPanic _ _ (dec_noPanic d hD kt hs2.1 _)
          (dec_noPanic d hD vt hs2.2 _) _ _ _
  | .struct fs, hs, rv, r => by
    have hs2 : Ty.codableFields fs = true := by simpa [Ty.codable] using hs
    rw [dec_struct d fs rv r (hD _)]
    exact decFields_noPanic d hD fs hs2 _ _
theorem decFields_noPanic (d : Decoder) (hD : ∀ t, d.Extend t = none) :
    ∀ (fs : List StructField), Ty.codableFields fs = true → ∀ (vs : List Val) (r : Reader),
      (decodeFields d fs vs r).2.2 ≠ some Err.setPanic
  | [], _, vs, r => by
    rw [decodeFields_nil]
    simp
  | .mk n t g :: fs, hs, vs, r => by
    have hs2 : (IsExported n = true ∧ t.codable = true) ∧ Ty.codableFields fs = true := by
      simpa [Ty.codableFields] using hs
    cases vs with
    | nil => simp [decodeFields]
    | cons v vs =>
      have h := dec_noPanic d hD t hs2.1.2 v r
      rcases hd : InternalDecode d t v r with ⟨y, r1, err⟩
      rw [hd] at h
      cases err with
      | some err =>
        rw [decodeFields_cons_err d n g t fs v vs r r1 y err hs2.1.1 hd]
        simpa using h
      | none =>
        rw [decodeFields_cons_ok d n g t fs v vs r r1 y hs2.1.1 hd]
        exact decFields_noPanic d hD fs hs2.2 vs r1
end

/-! ## The registry: lookups, assignments and the shape of a call -/

instance : LawfulBEq Ty where
  eq_of_beq h := (Ty.beq_iff _ _).1 h
  rfl := (Ty.beq_iff _ _).2 rfl

theorem tm_publish (ts : Types) (typ n : String) (t : Option Ty) :
    (ts.publish typ t).tm.lookup n = if n = typ then some t else ts.tm.lookup n := by
  simp only [Types.publish, List.lookup_cons]
  by_cases h : n = typ
  · simp [h]
  · have : (n == typ) = false := by simpa using h
    simp [h, this]

theorem tn_publish (ts : Types) (typ : String) (t d : Option Ty) :
    (ts.publish typ t).tn.lookup d = if d = t then some typ else ts.tn.lookup d := by
  simp only [Types.publish, List.lookup_cons]
  by_cases h : d = t
  · simp [h]
  · have : (d == t) = false := by simpa using h
    simp [h, this]

theorem os_publish (ts : Types) (typ : String) (t : Option Ty) :
    (ts.publish typ t).os = ts.os := rfl

theorem andThen_inv (r : Option Outcome) (k : Types → Option Ty → Option Outcome)
    (out : Outcome) (h : Outcome.andThen r k = some out) :
    (∃ ts, r = some (.panic ts) ∧ out = .panic ts) ∨
    (∃ ts t e, r = some (.ret ts t (some e)) ∧ out = .ret ts none (some e)) ∨
    (∃ ts t, r = some (.ret ts t none) ∧ k ts t = some out) := by
  unfold Outcome.andThen at h
  split at h
  · cases h
  · injection h with h
    exact Or.inl ⟨_, rfl, h.symm⟩
  · injection h with h
    exact Or.inr (Or.inl ⟨_, _, _, rfl, h.symm⟩)
  · exact Or.inr (Or.inr ⟨_, _, rfl, h⟩)

theorem publishBuilt_inv (ts : Types) (typ : String) (built : Option Ty) (out : Outcome)
    (h : publishBuilt ts typ built = some out) :
    (built = none ∧ out = .panic ts) ∨
    (∃ t, built = some t ∧ out = .ret (ts.publish typ (some t)) (some t) none) := by
  unfold publishBuilt at h
  split at h
  · injection h with h
    exact Or.inl ⟨rfl, h.symm⟩
  · injection h with h
    exact Or.inr ⟨_, rfl, h.symm⟩

theorem createType_zero (ts : Types) (typ : String) : createType 0 ts typ = none := by
  rw [createType]

theorem createType_found (fuel : Nat) (ts : Types) (typ : String) (t : Option Ty)
    (h : ts.tm.lookup typ = some t) : createType (fuel + 1) ts typ = some (.ret ts t none) := by
  rw [createType]
  simp only [h]

theorem createType_slice (fuel : Nat) (ts : Types) (typ : String)
    (h : ts.tm.lookup typ = none) (h1 : HasPrefix typ "[]" = true) :
    createType (fuel + 1) ts typ =
      Outcome.andThen (createType fuel ts (sliceFrom typ 2)) fun s e =>
        publishBuilt s typ (SliceOf e) := by
  rw [createType]
  simp only [h, h1, if_true]

theorem createType_stringMap (fuel : Nat) (ts : Types) (typ : String)
    (h : ts.tm.lookup typ = none) (h1 : HasPrefix typ "[]" = false)
    (h2 : HasPrefix typ "map[string]" = true) :
    createType (fuel + 1) ts typ =
      Outcome.andThen (createType fuel ts (sliceFrom typ 11)) fun s e =>
        publishBuilt s typ (MapOf (some .string) e) := by
  rw [createType]
  simp only [h, h1, h2, if_true, if_false, Bool.false_eq_true]

theorem createType_ptr (fuel : Nat) (ts : Types) (typ : String)
    (h : ts.tm.lookup typ = none) (h1 : HasPrefix typ "[]" = false)
    (h2 : HasPrefix typ "map[string]" = false)
    (h3 : (!ts.os.disablePointer && HasPrefix typ "*") = true) :
    createType (fuel + 1) ts typ =
      Outcome.andThen (createType fuel ts (sliceFrom typ 1)) fun s e =>
        publishBuilt s typ (PtrTo e) := by
  rw [createType]
  simp only [h, h1, h2, h3, if_true, if_false, Bool.false_eq_true]

theorem createType_map (fuel : Nat) (ts : Types) (typ k v : String)
    (h : ts.tm.lookup typ = none) (h1 : HasPrefix typ "[]" = false)
    (h2 : HasPrefix typ "map[string]" = false)
    (h3 : (!ts.os.disablePointer && HasPrefix typ "*") = false)
    (h4 : (if ts.os.stringKeyOnly then none else mr.FindStringSubmatch typ) = some (k, v)) :
    createType (fuel + 1) ts typ =
      Outcome.andThen (createType fuel ts k) fun s1 kt =>
        Outcome.andThen (createType fuel s1 v) fun s2 vt =>
          publishBuilt s2 typ (MapOf kt vt) := by
  rw [createType]
  simp only [h, h1, h2, h3, h4, if_true, if_false, Bool.false_eq_true]

theorem createType_array_range (fuel : Nat) (ts : Types) (typ digits el : String)
    (h : ts.tm.lookup typ = none) (h1 : HasPrefix typ "[]" = false)
    (h2 : HasPrefix typ "map[string]" = false)
    (h3 : (!ts.os.disablePointer && HasPrefix typ "*") = false)
    (h4 : (if ts.os.stringKeyOnly then none else mr.FindStringSubmatch typ) = none)
    (h5 : ar.FindStringSubmatch typ = some (digits, el)) (h6 : ParseInt digits = none) :
    createType (fuel + 1) ts typ = some (.ret ts none (some (.invalidArrayType typ))) := by
  rw [createType]
  simp only [h, h1, h2, h3, h4, h5, h6, if_true, if_false, Bool.false_eq_true]

theorem createType_array (fuel : Nat) (ts : Types) (typ digits el : String) (n : Nat)
    (h : ts.tm.lookup typ = none) (h1 : HasPrefix typ "[]" = false)
    (h2 : HasPrefix typ "map[string]" = false)
    (h3 : (!ts.os.disablePointer && HasPrefix typ "*") = false)
    (h4 : (if ts.os.stringKeyOnly then none else mr.FindStringSubmatch typ) = none)
    (h5 : ar.FindStringSubmatch typ = some (digits, el)) (h6 : ParseInt digits = some n) :
    createType (fuel + 1) ts typ =
      Outcome.andThen (createType fuel ts el) fun s e => publishBuilt s typ (ArrayOf n e) := by
  rw [createType]
  simp only [h, h1, h2, h3, h4, h5, h6, if_true, if_false, Bool.false_eq_true]

theorem createType_resolve_err (fuel : Nat) (ts : Types) (typ : String)
    (resolver : String → Schema × Option Err) (s : Schema) (e : Err)
    (h : ts.tm.lookup typ = none) (h1 : HasPrefix typ "[]" = false)
    (h2 : HasPrefix typ "map[string]" = false)
    (h3 : (!ts.os.disablePointer && HasPrefix typ "*") = false)
    (h4 : (if ts.os.stringKeyOnly then none else mr.FindStringSubmatch typ) = none)
    (h5 : ar.FindStringSubmatch typ = none)
    (h6 : (if ir.MatchString typ then ts.os.schemaResolver else none) = some resolver)
    (h7 : resolver typ = (s, some e)) :
    createType (fuel + 1) ts typ = some (.ret ts none (some (.resolveFailed typ))) := by
  rw [createType]
  simp only [h, h1, h2, h3, h4, h5, h6, h7, if_true, if_false, Bool.false_eq_true]

theorem createType_resolve (fuel : Nat) (ts : Types) (typ : String)
    (resolver : String → Schema × Option Err) (s : Schema)
    (h : ts.tm.lookup typ = none) (h1 : HasPrefix typ "[]" = false)
    (h2 : HasPrefix typ "map[string]" = false)
    (h3 : (!ts.os.disablePointer && HasPrefix typ "*") = false)
    (h4 : (if ts.os.stringKeyOnly then none else mr.FindStringSubmatch typ) = none)
    (h5 : ar.FindStringSubmatch typ = none)
    (h6 : (if ir.MatchString typ then ts.os.schemaResolver else none) = some resolver)
    (h7 : resolver typ = (s, none)) :
    createType (fuel + 1) ts typ =
      Outcome.andThen (createSchema fuel ts s) fun s1 t =>
        some (.ret (s1.publish typ t) t none) := by
  rw [createType]
  simp only [h, h1, h2, h3, h4, h5, h6, h7, if_true, if_false, Bool.false_eq_true]

theorem createType_unknown (fuel : Nat) (ts : Types) (typ : String)
    (h : ts.tm.lookup typ = none) (h1 : HasPrefix typ "[]" = false)
    (h2 : HasPrefix typ "map[string]" = false)
    (h3 : (!ts.os.disablePointer && HasPrefix typ "*") = false)
    (h4 : (if ts.os.stringKeyOnly then none else mr.FindStringSubmatch typ) = none)
    (h5 : ar.FindStringSubmatch typ = none)
    (h6 : (if ir.MatchString typ then ts.os.schemaResolver else none) = none) :
    createType (fuel + 1) ts typ =
      some (.ret (ts.publish typ none) none (some (.unknownType typ))) := by
  rw [createType]
  simp only [h, h1, h2, h3, h4, h5, h6, if_true, if_false, Bool.false_eq_true]

theorem createSchema_zero (ts : Types) (s : Schema) : createSchema 0 ts s = none := by
  rw [createSchema]

theorem createSchema_found (fuel : Nat) (ts : Types) (s : Schema) (t : Option Ty)
    (h : ts.tm.lookup s.Name = some t) :
    createSchema (fuel + 1) ts s = some (.ret ts t none) := by
  rw [createSchema]
  simp only [h]

theorem createSchema_invalid (fuel : Nat) (ts : Types) (s : Schema)
    (h : ts.tm.lookup s.Name = none) (h1 : ir.MatchString s.Name = false) :
    createSchema (fuel + 1) ts s = some (.ret ts none (some (.invalidSchemaName s.Name))) := by
  rw [createSchema]
  simp only [h, h1, Bool.not_false, if_true]

theorem createSchema_none (fuel : Nat) (ts : Types) (s : Schema)
    (h : ts.tm.lookup s.Name = none) (h1 : ir.MatchString s.Name = true)
    (h2 : createFields (createType fuel) ts s.Fields = none) :
    createSchema (fuel + 1) ts s = none := by
  rw [createSchema]
  simp only [h, h1, h2, Bool.not_true, if_false, Bool.false_eq_true]

theorem createSchema_abort (fuel : Nat) (ts : Types) (s : Schema) (o : Outcome)
    (h : ts.tm.lookup s.Name = none) (h1 : ir.MatchString s.Name = true)
    (h2 : createFields (createType fuel) ts s.Fields = some (.abort o)) :
    createSchema (fuel + 1) ts s = some o := by
  rw [createSchema]
  simp only [h, h1, h2, Bool.not_true, if_false, Bool.false_eq_true]

theorem createSchema_panic (fuel : Nat) (ts s1 : Types) (s : Schema)
    (fs : List (String × Option Ty × String))
    (h : ts.tm.lookup s.Name = none) (h1 : ir.MatchString s.Name = true)
    (h2 : createFields (createType fuel) ts s.Fields = some (.built s1 fs))
    (h3 : StructOf fs = none) :
    createSchema (fuel + 1) ts s = some (.panic s1) := by
  rw [createSchema]
  simp only [h, h1, h2, h3, Bool.not_true, if_false, Bool.false_eq_true]

theorem createSchema_built (fuel : Nat) (ts s1 : Types) (s : Schema)
    (fs : List (String × Option Ty × String)) (t : Ty)
    (h : ts.tm.lookup s.Name = none) (h1 : ir.MatchString s.Name = true)
    (h2 : createFields (createType fuel) ts s.Fields = some (.built s1 fs))
    (h3 : StructOf fs = some t) :
    createSchema (fuel + 1) ts s = some (.ret (s1.publish s.Name (some t)) (some t) none) := by
  rw [createSchema]
  simp only [h, h1, h2, h3, Bool.not_true, if_false, Bool.false_eq_true]

theorem createFields_nil (ct : Types → String → Option Outcome) (ts : Types) :
    createFields ct ts [] = some (.built ts []) := by
  rw [createFields]

theorem createFields_invalid (ct : Types → String → Option Outcome) (ts : Types) (f : Field)
    (rest : List Field) (h : ir.MatchString f.Name = false) :
    createFields ct ts (f :: rest) =
      some (.abort (.ret ts none (some (.invalidFieldName f.Name)))) := by
  rw [createFields]
  simp only [h, Bool.not_false, if_true]

theorem createFields_none (ct : Types → String → Option Outcome) (ts : Types) (f : Field)
    (rest : List Field) (h : ir.MatchString f.Name = true) (h1 : ct ts f.Typ = none) :
    createFields ct ts (f :: rest) = none := by
  rw [createFields]
  simp only [h, h1, Bool.not_true, if_false, Bool.false_eq_true]

theorem createFields_panic (ct : Types → String → Option Outcome) (ts s : Types) (f : Field)
    (rest : List Field) (h : ir.MatchString f.Name = true)
    (h1 : ct ts f.Typ = some (.panic s)) :
    createFields ct ts (f :: rest) = some (.abort (.panic s)) := by
  rw [createFields]
  simp only [h, h1, Bool.not_true, if_false, Bool.false_eq_true]

theorem createFields_err (ct : Types → String → Option Outcome) (ts s : Types) (f : Field)
    (rest : List Field) (t : Option Ty) (e : TypeErr) (h : ir.MatchString f.Name = true)
    (h1 : ct ts f.Typ = some (.ret s t (some e))) :
    createFields ct ts (f :: rest) = some (.abort (.ret s none (some e))) := by
  rw [createFields]
  simp only [h, h1, Bool.not_true, if_false, Bool.false_eq_true]

theorem createFields_next_none (ct : Types → String → Option Outcome) (ts s : Types)
    (f : Field) (rest : List Field) (t : Option Ty) (h : ir.MatchString f.Name = true)
    (h1 : ct ts f.Typ = some (.ret s t none)) (h2 : createFields ct s rest = none) :
    createFields ct ts (f :: rest) = none := by
  rw [createFields]
  simp only [h, h1, h2, Bool.not_true, if_false, Bool.false_eq_true]

theorem createFields_next_abort (ct : Types → String → Option Outcome) (ts s : Types)
    (f : Field) (rest : List Field) (t : Option Ty) (o : Outcome)
    (h : ir.MatchString f.Name = true)
    (h1 : ct ts f.Typ = some (.ret s t none)) (h2 : createFields ct s rest = some (.abort o)) :
    createFields ct ts (f :: rest) = some (.abort o) := by
  rw [createFields]
  simp only [h, h1, h2, Bool.not_true, if_false, Bool.false_eq_true]

theorem createFields_next_built (ct : Types → String → Option Outcome) (ts s s2 : Types)
    (f : Field) (rest : List Field) (t : Option Ty) (fs : List (String × Option Ty × String))
    (h : ir.MatchString f.Name = true)
    (h1 : ct ts f.Typ = some (.ret s t none))
    (h2 : createFields ct s rest = some (.built s2 fs)) :
    createFields ct ts (f :: rest) = some (.built s2 ((f.Name, t, tagString f.Tags) :: fs)) := by
  rw [createFields]
  simp only [h, h1, h2, Bool.not_true, if_false, Bool.false_eq_true]

/-! ## Facts about the expression grammar -/

theorem hasPrefix_split (typ p : String) (h : HasPrefix typ p = true) :
    typ.data = p.data ++ (sliceFrom typ p.data.length).data := by
  unfold HasPrefix at h
  rw [List.isPrefixOf_iff_prefix] at h
  obtain ⟨r, hr⟩ := h
  simp [sliceFrom, ← hr]

theorem sliceFrom_shorter (typ p : String) (n : Nat) (h : HasPrefix typ p = true)
    (hn : p.data.length = n) (hp : 0 < n) : (sliceFrom typ n).length < typ.length := by
  have h1 := hasPrefix_split typ p h
  have h2 : typ.length = typ.data.length := rfl
  have h3 : (sliceFrom typ n).length = (sliceFrom typ n).data.length := rfl
  rw [h2, h3, h1, hn, List.length_append, hn]
  omega

theorem ir_head (typ : String) (h : ir.MatchString typ = true) :
    ∃ c cs, typ.data = c :: cs ∧ isUpper c = true ∧ cs.all isWord = true := by
  unfold ir.MatchString at h
  split at h
  · cases h
  · next c cs hd =>
    rw [Bool.and_eq_true] at h
    exact ⟨c, cs, hd, h.1, h.2⟩

theorem ir_of_head (typ : String) (c : Char) (cs : List Char) (hd : typ.data = c :: cs)
    (hc : isUpper c = false) : ir.MatchString typ = false := by
  unfold ir.MatchString
  rw [hd]
  simp [hc]

theorem ir_of_hasPrefix (typ p : String) (c : Char) (cs : List Char)
    (h : HasPrefix typ p = true) (hp : p.data = c :: cs) (hc : isUpper c = false) :
    ir.MatchString typ = false := by
  have h1 := hasPrefix_split typ p h
  rw [hp] at h1
  exact ir_of_head typ c _ h1 hc

theorem bracketGroups_split (cls : Char → Bool) (body : List Char) (k v : String)
    (h : bracketGroups cls body = some (k, v)) :
    body = k.data ++ Char.ofNat 93 :: v.data ∧ k.data ≠ [] ∧
      (∀ c ∈ k.data, cls c = true) ∧ v.data ≠ [] ∧ v.data.all isDot = true := by
  unfold bracketGroups at h
  split at h
  · next c rest hd =>
    split at h
    · next hc =>
      injection h with h
      injection h with hk hv
      subst hk hv
      simp only [Bool.and_eq_true, beq_iff_eq, Bool.not_eq_true', List.isEmpty_eq_false] at hc
      obtain ⟨⟨⟨h1, h2⟩, h3⟩, h4⟩ := hc
      have hc93 : c = Char.ofNat 93 := by
        rw [← Char.ofNat_toNat c, h1]
      refine ⟨?_, h2, ?_, h3, h4⟩
      · rw [← hc93, ← hd]
        exact (List.takeWhile_append_dropWhile cls body).symm
      · intro x hx
        exact List.mem_takeWhile_imp hx
    · cases h
  · cases h

theorem mr_split (typ k v : String) (h : mr.FindStringSubmatch typ = some (k, v)) :
    typ.data = "map[".data ++ (k.data ++ Char.ofNat 93 :: v.data) ∧ k.data ≠ [] ∧
      (∀ c ∈ k.data, isWord c = true) ∧ v.data ≠ [] ∧ v.data.all isDot = true := by
  unfold mr.FindStringSubmatch at h
  split at h
  · next hp =>
    have h1 := hasPrefix_split typ "map[" hp
    have h2 := bracketGroups_split _ _ _ _ h
    refine ⟨?_, h2.2⟩
    rw [h1]
    congr 1
    exact h2.1
  · cases h

theorem ar_split (typ k v : String) (h : ar.FindStringSubmatch typ = some (k, v)) :
    typ.data = "[".data ++ (k.data ++ Char.ofNat 93 :: v.data) ∧ k.data ≠ [] ∧
      (∀ c ∈ k.data, isDigit c = true) ∧ v.data ≠ [] ∧ v.data.all isDot = true := by
  unfold ar.FindStringSubmatch at h
  split at h
  · next hp =>
    have h1 := hasPrefix_split typ "[" hp
    have h2 := bracketGroups_split _ _ _ _ h
    refine ⟨?_, h2.2⟩
    rw [h1]
    congr 1
    exact h2.1
  · cases h

theorem mr_shorter (typ k v : String) (h : mr.FindStringSubmatch typ = some (k, v)) :
    k.length < typ.length ∧ v.length < typ.length := by
  have h1 := (mr_split typ k v h).1
  have e1 : typ.length = typ.data.length := rfl
  have e2 : k.length = k.data.length := rfl
  have e3 : v.length = v.data.length := rfl
  rw [e1, e2, e3, h1]
  simp only [List.length_append, List.length_cons]
  have : "map[".data.length = 4 := rfl
  omega

theorem ar_shorter (typ k v : String) (h : ar.FindStringSubmatch typ = some (k, v)) :
    v.length < typ.length := by
  have h1 := (ar_split typ k v h).1
  have e1 : typ.length = typ.data.length := rfl
  have e3 : v.length = v.data.length := rfl
  rw [e1, e3, h1]
  simp only [List.length_append, List.length_cons]
  omega

theorem ir_of_mr (typ k v : String) (h : mr.FindStringSubmatch typ = some (k, v)) :
    ir.MatchString typ = false := by
  have h1 := (mr_split typ k v h).1
  exact ir_of_head typ (Char.ofNat 109) _ h1 (by decide)

theorem ir_of_ar (typ k v : String) (h : ar.FindStringSubmatch typ = some (k, v)) :
    ir.MatchString typ = false := by
  have h1 := (ar_split typ k v h).1
  exact ir_of_head typ (Char.ofNat 91) _ h1 (by decide)

theorem ir_of_slice (typ : String) (h : HasPrefix typ "[]" = true) :
    ir.MatchString typ = false :=
  ir_of_hasPrefix typ "[]" (Char.ofNat 91) [Char.ofNat 93] h rfl (by decide)

theorem ir_of_stringMap (typ : String) (h : HasPrefix typ "map[string]" = true) :
    ir.MatchString typ = false := by
  have h1 := hasPrefix_split typ "map[string]" h
  exact ir_of_head typ (Char.ofNat 109) _ h1 (by decide)

theorem ir_of_ptr (typ : String) (h : HasPrefix typ "*" = true) :
    ir.MatchString typ = false :=
  ir_of_hasPrefix typ "*" (Char.ofNat 42) [] h rfl (by decide)

/-! ## Every call makes the registry grow -/

theorem Grows.os_eq {ts s : Types} (h : Grows ts s) : s.os = ts.os := by
  induction h with
  | refl => rfl
  | step s typ t _ _ _ _ ih => rw [os_publish, ih]

theorem Grows.keep {ts s : Types} (h : Grows ts s) (n : String) (v : Option Ty)
    (hn : ts.tm.lookup n = some v) : s.tm.lookup n = some v := by
  induction h with
  | refl => exact hn
  | step s typ t _ hf _ _ ih =>
    rw [tm_publish]
    have hne : n ≠ typ := by
      intro he
      rw [he, hf] at hn
      cases hn
    rw [if_neg hne]
    exact ih

theorem Grows.fresh {ts s : Types} (h : Grows ts s) (n : String)
    (hn : s.tm.lookup n = none) : ts.tm.lookup n = none := by
  cases hl : ts.tm.lookup n with
  | none => rfl
  | some v =>
    rw [h.keep n v hl] at hn
    cases hn

theorem Published.os_congr {s s2 : Types} {typ : String} {t : Option Ty}
    (h : Published s typ t) (hos : s2.os = s.os)
    (hk : ∀ n v, s.tm.lookup n = some v → s2.tm.lookup n = some v) : Published s2 typ t := by
  cases h with
  | slice e h1 h2 => exact .slice e h1 (hk _ _ h2)
  | stringMap e h1 h2 => exact .stringMap e h1 (hk _ _ h2)
  | ptr e h0 h1 h2 => exact .ptr e (by rw [hos]; exact h0) h1 (hk _ _ h2)
  | map k v kt vt h0 h1 h2 h3 h4 =>
    exact .map k v kt vt (by rw [hos]; exact h0) h1 (hk _ _ h2) (hk _ _ h3) h4
  | array d el n e h1 h2 h3 => exact .array d el n e h1 h2 (hk _ _ h3)
  | schema t h1 => exact .schema t h1
  | unknown h1 h2 h3 h4 h5 =>
    exact .unknown h1 h2 (by rw [hos]; exact h3) (by rw [hos]; exact h4) h5

theorem Grows.trans {a b c : Types} (h1 : Grows a b) (h2 : Grows b c) : Grows a c := by
  induction h2 with
  | refl => exact h1
  | step s typ t _ hf hp hr ih =>
    refine .step s typ t ih (h1.fresh typ hf) hp ?_
    intro hres
    apply hr
    rw [h1.os_eq]
    exact hres

theorem sound_tail (ts0 ts : Types) (typ sub : String) (build : Option Ty → Option Ty)
    (r : Option Outcome) (out : Outcome) (hG : Grows ts0 ts)
    (hfresh : ts0.tm.lookup typ = none)
    (hpre : ts0.os.schemaResolver = none → ∀ n, ts.tm.lookup n ≠ none →
      ts0.tm.lookup n ≠ none ∨ (n.length < typ.length ∧ ir.MatchString n = false))
    (hlen : sub.length < typ.length) (hir : ir.MatchString typ = false)
    (hbuild : ∀ s e t, Grows ts s → s.tm.lookup sub = some e → build e = some t →
      Published s typ (some t))
    (hr : ∀ o, r = some o → Sound ts sub o)
    (h : Outcome.andThen r (fun s e => publishBuilt s typ (build e)) = some out) :
    Sound ts0 typ out := by
  have hos : ts.os = ts0.os := hG.os_eq
  -- what a nested call that ends the function leaves behind
  have stop : ∀ o : Outcome, Sound ts sub o → (o.err ≠ none ∨ o.panicked = true) →
      (∀ s t, o ≠ .ret s t none) → Sound ts0 typ o := by
    intro o hs hbad hnot
    obtain ⟨g, _, nr⟩ := hs
    refine ⟨hG.trans g, fun s t he => absurd he (hnot s t), ?_⟩
    intro hres n hn
    have hres2 : ts.os.schemaResolver = none := by rw [hos]; exact hres
    rcases nr hres2 n hn with hl | ⟨hl, _⟩
    · rcases hpre hres n hl with h0 | ⟨h0, _⟩
      · exact Or.inl h0
      · refine Or.inr ⟨by omega, fun he hp => ?_⟩
        rcases hbad with hb | hb
        · exact absurd he hb
        · rw [hp] at hb; cases hb
    · refine Or.inr ⟨by omega, fun he hp => ?_⟩
      rcases hbad with hb | hb
      · exact absurd he hb
      · rw [hp] at hb; cases hb
  rcases andThen_inv _ _ _ h with ⟨s, hr1, ho⟩ | ⟨s, t, e, hr1, ho⟩ | ⟨s, e, hr1, hk⟩
  · have hs := hr _ hr1
    rw [ho]
    exact stop _ hs (Or.inr rfl) (fun _ _ he => by cases he)
  · have hs := hr _ hr1
    have hs2 : Sound ts sub (.ret s none (some e)) := by
      refine ⟨hs.1, ?_, ?_⟩
      · intro _ _ he
        cases he
      · intro hres n hn
        rcases hs.2.2 hres n hn with hl | ⟨hl, _⟩
        · exact Or.inl hl
        · exact Or.inr ⟨hl, fun he => by cases he⟩
    rw [ho]
    exact stop _ hs2 (Or.inl (by simp [Outcome.err])) (fun _ _ he => by cases he)
  · have hs := hr _ hr1
    obtain ⟨g, rr, nr⟩ := hs
    have g : Grows ts s := g
    have hsub : s.tm.lookup sub = some e := rr s e rfl
    rcases publishBuilt_inv _ _ _ _ hk with ⟨_, ho⟩ | ⟨t, hb, ho⟩
    · rw [ho]
      refine ⟨hG.trans g, fun _ _ he => (by cases he), ?_⟩
      intro hres n hn
      have hres2 : ts.os.schemaResolver = none := by rw [hos]; exact hres
      rcases nr hres2 n hn with hl | ⟨hl, _⟩
      · rcases hpre hres n hl with h0 | ⟨h0, _⟩
        · exact Or.inl h0
        · exact Or.inr ⟨by omega, fun _ hp => by cases hp⟩
      · exact Or.inr ⟨by omega, fun _ hp => by cases hp⟩
    · rw [ho]
      have key : ts0.os.schemaResolver = none → ∀ n, s.tm.lookup n ≠ none →
          ts0.tm.lookup n ≠ none ∨ (n.length < typ.length ∧ ir.MatchString n = false) := by
        intro hres n hn
        have hres2 : ts.os.schemaResolver = none := by rw [hos]; exact hres
        rcases nr hres2 n hn with hl | ⟨hl, hi⟩
        · exact hpre hres n hl
        · exact Or.inr ⟨by omega, hi rfl rfl⟩
      refine ⟨?_, ?_, ?_⟩
      · refine .step s typ (some t) (hG.trans g) hfresh (hbuild s e t g hsub hb) ?_
        intro hres
        cases hl : s.tm.lookup typ with
        | none => rfl
        | some v =>
          rcases key hres typ (by rw [hl]; simp) with h0 | ⟨h0, _⟩
          · exact absurd hfresh h0
          · omega
      · intro s2 t2 he
        injection he with he1 he2 _
        rw [← he1, ← he2, tm_publish, if_pos rfl]
      · intro hres n hn
        by_cases hnt : n = typ
        · rw [hnt]
          exact Or.inr ⟨Nat.le_refl _, fun _ _ => hir⟩
        · have hn2 : s.tm.lookup n ≠ none := by
            have := hn
            simp only [Outcome.ts] at this
            rw [tm_publish, if_neg hnt] at this
            exact this
          rcases key hres n hn2 with h0 | ⟨h0, h1⟩
          · exact Or.inl h0
          · exact Or.inr ⟨by omega, fun _ _ => h1⟩

/-! ## The shape of every call: `createType` and `createSchema` are sound -/

theorem SliceOf_some (e : Option Ty) (t : Ty) (h : SliceOf e = some t) :
    ∃ x, e = some x ∧ t = .slice x := by
  cases e with
  | none => cases h
  | some x =>
    injection h with h
    exact ⟨x, rfl, h.symm⟩

theorem PtrTo_some (e : Option Ty) (t : Ty) (h : PtrTo e = some t) :
    ∃ x, e = some x ∧ t = .ptr x := by
  cases e with
  | none => cases h
  | some x =>
    injection h with h
    exact ⟨x, rfl, h.symm⟩

theorem ArrayOf_some (n : Nat) (e : Option Ty) (t : Ty) (h : ArrayOf n e = some t) :
    ∃ x, e = some x ∧ t = .array n x := by
  cases e with
  | none => cases h
  | some x =>
    injection h with h
    exact ⟨x, rfl, h.symm⟩

theorem MapOf_some (k e : Option Ty) (t : Ty) (h : MapOf k e = some t) :
    ∃ x y, k = some x ∧ e = some y ∧ x.comparable = true ∧ t = .map x y := by
  cases k with
  | none => simp [MapOf] at h
  | some x =>
    cases e with
    | none => simp [MapOf] at h
    | some y =>
      simp only [MapOf] at h
      split at h
      · next hc =>
        injection h with h
        exact ⟨x, y, rfl, rfl, hc, h.symm⟩
      · cases h

theorem sound_of_unchanged (ts : Types) (typ : String) (e : TypeErr) :
    Sound ts typ (.ret ts none (some e)) := by
  refine ⟨.refl, ?_, ?_⟩
  · intro _ _ he
    cases he
  · intro _ n hn
    exact Or.inl hn

theorem createFields_sound (ct : Types → String → Option Outcome)
    (hct : ∀ ts typ out, ct ts typ = some out → Sound ts typ out) :
    ∀ (fields : List Field) (ts : Types) (res : FieldsRes),
      createFields ct ts fields = some res →
      (∀ o, res = .abort o → Grows ts o.ts ∧ (∀ s t, o ≠ .ret s t none)) ∧
      (∀ s1 fs, res = .built s1 fs → Grows ts s1 ∧
        (ts.os.schemaResolver = none → ∀ n, s1.tm.lookup n ≠ none →
          ts.tm.lookup n ≠ none ∨ ir.MatchString n = false)) := by
  intro fields
  induction fields with
  | nil =>
    intro ts res h
    rw [createFields_nil] at h
    injection h with h
    subst h
    refine ⟨fun o he => (by cases he), fun s1 fs he => ?_⟩
    injection he with he1 _
    subst he1
    exact ⟨.refl, fun _ n hn => Or.inl hn⟩
  | cons f rest ih =>
    intro ts res h
    cases hi : ir.MatchString f.Name with
    | false =>
      rw [createFields_invalid _ _ _ _ hi] at h
      injection h with h
      subst h
      refine ⟨fun o he => ?_, fun s1 fs he => by cases he⟩
      injection he with he
      subst he
      exact ⟨.refl, fun _ _ hc => by cases hc⟩
    | true =>
      cases hc : ct ts f.Typ with
      | none =>
        rw [createFields_none _ _ _ _ hi hc] at h
        cases h
      | some o =>
        have hs := hct _ _ _ hc
        cases o with
        | panic s =>
          rw [createFields_panic _ _ _ _ _ hi hc] at h
          injection h with h
          subst h
          refine ⟨fun o he => ?_, fun s1 fs he => by cases he⟩
          injection he with he
          subst he
          exact ⟨hs.1, fun _ _ hc => by cases hc⟩
        | ret s t e =>
          cases e with
          | some e =>
            rw [createFields_err _ _ _ _ _ _ _ hi hc] at h
            injection h with h
            subst h
            refine ⟨fun o he => ?_, fun s1 fs he => by cases he⟩
            injection he with he
            subst he
            exact ⟨hs.1, fun _ _ hc => by cases hc⟩
          | none =>
            obtain ⟨g0, _, nr⟩ := hs
            have g : Grows ts s := g0
            cases hrest : createFields ct s rest with
            | none =>
              rw [createFields_next_none _ _ _ _ _ _ hi hc hrest] at h
              cases h
            | some r2 =>
              have ih2 := ih s r2 hrest
              cases r2 with
              | abort o =>
                rw [createFields_next_abort _ _ _ _ _ _ _ hi hc hrest] at h
                injection h with h
                subst h
                refine ⟨fun o2 he => ?_, fun s1 fs he => by cases he⟩
                injection he with he
                subst he
                exact ⟨g.trans (ih2.1 _ rfl).1, (ih2.1 _ rfl).2⟩
              | built s2 fs =>
                rw [createFields_next_built _ _ _ _ _ _ _ _ hi hc hrest] at h
                injection h with h
                subst h
                refine ⟨fun o2 he => (by cases he), fun s1 fs2 he => ?_⟩
                injection he with he1 _
                subst he1
                obtain ⟨g2, nr2⟩ := ih2.2 _ _ rfl
                refine ⟨g.trans g2, ?_⟩
                intro hres n hn
                have hres2 : s.os.schemaResolver = none := by rw [g.os_eq]; exact hres
                rcases nr2 hres2 n hn with hl | hl
                · rcases nr hres n hl with h0 | ⟨_, h0⟩
                  · exact Or.inl h0
                  · exact Or.inr (h0 rfl rfl)
                · exact Or.inr hl

theorem createType_sound : ∀ (fuel : Nat),
    (∀ ts typ out, createType fuel ts typ = some out → Sound ts typ out) ∧
    (∀ ts s out, createSchema fuel ts s = some out →
      Grows ts out.ts ∧ (∀ s1 t, out = .ret s1 t none → s1.tm.lookup s.Name = some t)) := by
  intro fuel
  induction fuel with
  | zero =>
    refine ⟨fun ts typ out h => ?_, fun ts s out h => ?_⟩
    · rw [createType_zero] at h
      cases h
    · rw [createSchema_zero] at h
      cases h
  | succ fuel ih =>
    refine ⟨fun ts typ out h => ?_, fun ts s out h => ?_⟩
    · cases hl : ts.tm.lookup typ with
      | some t =>
        rw [createType_found _ _ _ _ hl] at h
        injection h with h
        subst h
        refine ⟨.refl, ?_, fun _ n hn => Or.inl hn⟩
        intro s2 t2 he
        injection he with he1 he2 _
        rw [← he1, ← he2]
        exact hl
      | none =>
        have pre : ts.os.schemaResolver = none → ∀ n, ts.tm.lookup n ≠ none →
            ts.tm.lookup n ≠ none ∨ (n.length < typ.length ∧ ir.MatchString n = false) :=
          fun _ n hn => Or.inl hn
        cases h1 : HasPrefix typ "[]" with
        | true =>
          rw [createType_slice _ _ _ hl h1] at h
          refine sound_tail ts ts typ _ SliceOf _ out .refl hl pre
            (sliceFrom_shorter typ "[]" 2 h1 rfl (by decide)) (ir_of_slice typ h1) ?_
            (fun o ho => ih.1 _ _ _ ho) h
          intro s e t _ hsub hb
          obtain ⟨x, hx, ht⟩ := SliceOf_some e t hb
          subst hx ht
          exact .slice x h1 hsub
        | false =>
        cases h2 : HasPrefix typ "map[string]" with
        | true =>
          rw [createType_stringMap _ _ _ hl h1 h2] at h
          refine sound_tail ts ts typ _ (MapOf (some .string)) _ out .refl hl pre
            (sliceFrom_shorter typ "map[string]" 11 h2 rfl (by decide))
            (ir_of_stringMap typ h2) ?_ (fun o ho => ih.1 _ _ _ ho) h
          intro s e t _ hsub hb
          obtain ⟨x, y, hx, hy, _, ht⟩ := MapOf_some _ e t hb
          injection hx with hx
          subst hx hy ht
          exact .stringMap y h2 hsub
        | false =>
        cases h3 : (!ts.os.disablePointer && HasPrefix typ "*") with
        | true =>
          rw [createType_ptr _ _ _ hl h1 h2 h3] at h
          rw [Bool.and_eq_true, Bool.not_eq_true'] at h3
          refine sound_tail ts ts typ _ PtrTo _ out .refl hl pre
            (sliceFrom_shorter typ "*" 1 h3.2 rfl (by decide)) (ir_of_ptr typ h3.2) ?_
            (fun o ho => ih.1 _ _ _ ho) h
          intro s e t g hsub hb
          obtain ⟨x, hx, ht⟩ := PtrTo_some e t hb
          subst hx ht
          exact .ptr x (by rw [g.os_eq]; exact h3.1) h3.2 hsub
        | false =>
        cases h4 : (if ts.os.stringKeyOnly then none else mr.FindStringSubmatch typ) with
        | some kv =>
          obtain ⟨k, v⟩ := kv
          rw [createType_map _ _ _ _ _ hl h1 h2 h3 h4] at h
          have hsk : ts.os.stringKeyOnly = false := by
            cases hb : ts.os.stringKeyOnly with
            | false => rfl
            | true =>
              rw [hb] at h4
              simp at h4
          have hmr : mr.FindStringSubmatch typ = some (k, v) := by
            rw [hsk] at h4
            simpa using h4
          have hlen := mr_shorter typ k v hmr
          rcases andThen_inv _ _ _ h with ⟨s, hr1, ho⟩ | ⟨s, t, e, hr1, ho⟩ | ⟨s1, kt, hr1, hk⟩
          · obtain ⟨g, _, nr⟩ := ih.1 _ _ _ hr1
            rw [ho]
            refine ⟨g, fun _ _ he => (by cases he), ?_⟩
            intro hres n hn
            rcases nr hres n hn with h0 | ⟨h0, _⟩
            · exact Or.inl h0
            · exact Or.inr ⟨by omega, fun _ hp => by cases hp⟩
          · obtain ⟨g, _, nr⟩ := ih.1 _ _ _ hr1
            rw [ho]
            refine ⟨g, fun _ _ he => (by cases he), ?_⟩
            intro hres n hn
            rcases nr hres n hn with h0 | ⟨h0, _⟩
            · exact Or.inl h0
            · exact Or.inr ⟨by omega, fun he => by cases he⟩
          · obtain ⟨g0, rr, nr⟩ := ih.1 _ _ _ hr1
            have g : Grows ts s1 := g0
            have hkl : s1.tm.lookup k = some kt := rr s1 kt rfl
            refine sound_tail ts s1 typ v (MapOf kt) _ out g hl ?_ hlen.2
              (ir_of_mr typ k v hmr) ?_ (fun o ho => ih.1 _ _ _ ho) hk
            · intro hres n hn
              rcases nr hres n hn with h0 | ⟨h0, h5⟩
              · exact Or.inl h0
              · exact Or.inr ⟨by omega, h5 rfl rfl⟩
            · intro s e t g2 hsub hb
              obtain ⟨x, y, hx, hy, hcmp, ht⟩ := MapOf_some _ e t hb
              subst hx hy ht
              refine .map k v x y ?_ hmr (g2.keep _ _ hkl) hsub hcmp
              rw [g2.os_eq, g.os_eq]
              exact hsk
        | none =>
        cases h5 : ar.FindStringSubmatch typ with
        | some dv =>
          obtain ⟨digits, el⟩ := dv
          cases h6 : ParseInt digits with
          | none =>
            rw [createType_array_range _ _ _ _ _ hl h1 h2 h3 h4 h5 h6] at h
            injection h with h
            subst h
            exact sound_of_unchanged ts typ _
          | some n =>
            rw [createType_array _ _ _ _ _ _ hl h1 h2 h3 h4 h5 h6] at h
            refine sound_tail ts ts typ _ (ArrayOf n) _ out .refl hl pre
              (ar_shorter typ digits el h5) (ir_of_ar typ digits el h5) ?_
              (fun o ho => ih.1 _ _ _ ho) h
            intro s e t _ hsub hb
            obtain ⟨x, hx, ht⟩ := ArrayOf_some n e t hb
            subst hx ht
            exact .array digits el n x h5 h6 hsub
        | none =>
        cases h6 : (if ir.MatchString typ then ts.os.schemaResolver else none) with
        | some resolver =>
          have hir : ir.MatchString typ = true := by
            cases hb : ir.MatchString typ with
            | true => rfl
            | false =>
              rw [hb] at h6
              simp at h6
          have hres : ts.os.schemaResolver = some resolver := by
            rw [hir] at h6
            simpa using h6
          rcases hrs : resolver typ with ⟨s, e⟩
          cases e with
          | some e =>
            rw [createType_resolve_err _ _ _ _ _ _ hl h1 h2 h3 h4 h5 h6 hrs] at h
            injection h with h
            subst h
            exact sound_of_unchanged ts typ _
          | none =>
            rw [createType_resolve _ _ _ _ _ hl h1 h2 h3 h4 h5 h6 hrs] at h
            rcases andThen_inv _ _ _ h with ⟨s1, hr1, ho⟩ | ⟨s1, t, e, hr1, ho⟩ |
              ⟨s1, t, hr1, hk⟩
            · have hg := (ih.2 _ _ _ hr1).1
              rw [ho]
              refine ⟨hg, fun _ _ he => (by cases he), ?_⟩
              intro hn
              rw [hn] at hres
              cases hres
            · have hg := (ih.2 _ _ _ hr1).1
              rw [ho]
              refine ⟨hg, fun _ _ he => (by cases he), ?_⟩
              intro hn
              rw [hn] at hres
              cases hres
            · have hg : Grows ts s1 := (ih.2 _ _ _ hr1).1
              injection hk with hk
              subst hk
              refine ⟨?_, ?_, ?_⟩
              · refine .step s1 typ t hg hl (.schema t hir) ?_
                intro hn
                rw [hn] at hres
                cases hres
              · intro s2 t2 he
                injection he with he1 he2 _
                rw [← he1, ← he2, tm_publish, if_pos rfl]
              · intro hn
                rw [hn] at hres
                cases hres
        | none =>
          rw [createType_unknown _ _ _ hl h1 h2 h3 h4 h5 h6] at h
          injection h with h
          subst h
          refine ⟨?_, ?_, ?_⟩
          · exact .step ts typ none .refl hl (.unknown h1 h2 h3 h4 h5) (fun _ => hl)
          · intro _ _ he
            cases he
          · intro _ n hn
            by_cases hnt : n = typ
            · rw [hnt]
              exact Or.inr ⟨Nat.le_refl _, fun he => by cases he⟩
            · have hn2 := hn
              simp only [Outcome.ts] at hn2
              rw [tm_publish, if_neg hnt] at hn2
              exact Or.inl hn2
    · cases hl : ts.tm.lookup s.Name with
      | some t =>
        rw [createSchema_found _ _ _ _ hl] at h
        injection h with h
        subst h
        refine ⟨.refl, ?_⟩
        intro s2 t2 he
        injection he with he1 he2 _
        rw [← he1, ← he2]
        exact hl
      | none =>
        cases h1 : ir.MatchString s.Name with
        | false =>
          rw [createSchema_invalid _ _ _ hl h1] at h
          injection h with h
          subst h
          exact ⟨.refl, fun _ _ he => by cases he⟩
        | true =>
          cases hf : createFields (createType fuel) ts s.Fields with
          | none =>
            rw [createSchema_none _ _ _ hl h1 hf] at h
            cases h
          | some res =>
            have hs := createFields_sound (createType fuel) ih.1 s.Fields ts res hf
            cases res with
            | abort o =>
              rw [createSchema_abort _ _ _ _ hl h1 hf] at h
              injection h with h
              subst h
              exact ⟨(hs.1 _ rfl).1, fun s1 t he => absurd he ((hs.1 _ rfl).2 s1 t)⟩
            | built s1 fs =>
              obtain ⟨g, nr⟩ := hs.2 _ _ rfl
              cases hst : StructOf fs with
              | none =>
                rw [createSchema_panic _ _ _ _ _ hl h1 hf hst] at h
                injection h with h
                subst h
                exact ⟨g, fun _ _ he => by cases he⟩
              | some t =>
                rw [createSchema_built _ _ _ _ _ _ hl h1 hf hst] at h
                injection h with h
                subst h
                refine ⟨?_, ?_⟩
                · refine .step s1 s.Name (some t) g hl (.schema _ h1) ?_
                  intro hres
                  cases hl2 : s1.tm.lookup s.Name with
                  | none => rfl
                  | some v =>
                    rcases nr hres s.Name (by rw [hl2]; simp) with h0 | h0
                    · exact absurd hl h0
                    · rw [h1] at h0
                      cases h0
                · intro s2 t2 he
                  injection he with he1 he2 _
                  rw [← he1, ← he2, tm_publish, if_pos rfl]

/-! ## The public methods -/

theorem recovered_inv (r : Option Outcome) (out : Outcome) (h : recovered r = some out) :
    (∃ s, r = some (.panic s) ∧ out = .ret s none (some .recovered)) ∨
    (r = some out ∧ out.panicked = false) := by
  unfold recovered at h
  split at h
  · injection h with h
    exact Or.inl ⟨_, rfl, h.symm⟩
  · next hnp =>
    refine Or.inr ⟨h, ?_⟩
    cases out with
    | ret s t e => rfl
    | panic s => exact absurd h (hnp s)

theorem CreateType_found (fuel : Nat) (ts : Types) (typ : String) (t : Option Ty)
    (h : ts.tm.lookup typ = some t) : ts.CreateType fuel typ = some (.ret ts t none) := by
  unfold Types.CreateType
  simp only [h]

theorem CreateType_miss (fuel : Nat) (ts : Types) (typ : String)
    (h : ts.tm.lookup typ = none) :
    ts.CreateType fuel typ = recovered (createType fuel ts typ) := by
  unfold Types.CreateType
  simp only [h]

theorem CreateSchema_found (fuel : Nat) (ts : Types) (s : Schema) (t : Option Ty)
    (h : ts.tm.lookup s.Name = some t) : ts.CreateSchema fuel s = some (.ret ts t none) := by
  unfold Types.CreateSchema
  simp only [h]

theorem CreateSchema_miss (fuel : Nat) (ts : Types) (s : Schema)
    (h : ts.tm.lookup s.Name = none) :
    ts.CreateSchema fuel s = recovered (createSchema fuel ts s) := by
  unfold Types.CreateSchema
  simp only [h]

theorem CreateType_grows (fuel : Nat) (ts : Types) (typ : String) (out : Outcome)
    (h : ts.CreateType fuel typ = some out) : Grows ts out.ts := by
  cases hl : ts.tm.lookup typ with
  | some t =>
    rw [CreateType_found _ _ _ _ hl] at h
    injection h with h
    subst h
    exact .refl
  | none =>
    rw [CreateType_miss _ _ _ hl] at h
    rcases recovered_inv _ _ h with ⟨s, hr, ho⟩ | ⟨hr, _⟩
    · rw [ho]
      exact ((createType_sound fuel).1 _ _ _ hr).1
    · exact ((createType_sound fuel).1 _ _ _ hr).1

theorem CreateSchema_grows (fuel : Nat) (ts : Types) (s : Schema) (out : Outcome)
    (h : ts.CreateSchema fuel s = some out) : Grows ts out.ts := by
  cases hl : ts.tm.lookup s.Name with
  | some t =>
    rw [CreateSchema_found _ _ _ _ hl] at h
    injection h with h
    subst h
    exact .refl
  | none =>
    rw [CreateSchema_miss _ _ _ hl] at h
    rcases recovered_inv _ _ h with ⟨s1, hr, ho⟩ | ⟨hr, _⟩
    · rw [ho]
      exact ((createType_sound fuel).2 _ _ _ hr).1
    · exact ((createType_sound fuel).2 _ _ _ hr).1

theorem CreateType_registered (fuel : Nat) (ts ts1 : Types) (typ : String) (t : Option Ty)
    (h : ts.CreateType fuel typ = some (.ret ts1 t none)) : ts1.tm.lookup typ = some t := by
  cases hl : ts.tm.lookup typ with
  | some t0 =>
    rw [CreateType_found _ _ _ _ hl] at h
    injection h with h
    injection h with h1 h2 _
    rw [← h1, ← h2]
    exact hl
  | none =>
    rw [CreateType_miss _ _ _ hl] at h
    rcases recovered_inv _ _ h with ⟨s, _, ho⟩ | ⟨hr, _⟩
    · cases ho
    · exact ((createType_sound fuel).1 _ _ _ hr).2.1 _ _ rfl

theorem reachable_grows (opts : List (options → options)) (ts : Types)
    (h : Reachable opts ts) : Grows (New opts) ts := by
  induction h with
  | new => exact .refl
  | createType fuel ts typ out _ hc ih => exact ih.trans (CreateType_grows _ _ _ _ hc)
  | createSchema fuel ts s out _ hc ih => exact ih.trans (CreateSchema_grows _ _ _ _ hc)

theorem createSchema_success (fuel : Nat) (ts ts1 : Types) (s : Schema) (d : Option Ty)
    (hn : ts.tm.lookup s.Name = none) (h : createSchema fuel ts s = some (.ret ts1 d none)) :
    ∃ (s1 : Types) (t : Ty), d = some t ∧ ts1 = s1.publish s.Name (some t) := by
  cases fuel with
  | zero =>
    rw [createSchema_zero] at h
    cases h
  | succ fuel =>
    cases h1 : ir.MatchString s.Name with
    | false =>
      rw [createSchema_invalid _ _ _ hn h1] at h
      cases h
    | true =>
      cases hf : createFields (createType fuel) ts s.Fields with
      | none =>
        rw [createSchema_none _ _ _ hn h1 hf] at h
        cases h
      | some res =>
        have hs := createFields_sound (createType fuel) (createType_sound fuel).1 s.Fields
          ts res hf
        cases res with
        | abort o =>
          rw [createSchema_abort _ _ _ _ hn h1 hf] at h
          injection h with h
          exact absurd h ((hs.1 _ rfl).2 _ _)
        | built s1 fs =>
          cases hst : StructOf fs with
          | none =>
            rw [createSchema_panic _ _ _ _ _ hn h1 hf hst] at h
            cases h
          | some t =>
            rw [createSchema_built _ _ _ _ _ _ hn h1 hf hst] at h
            injection h with h
            injection h with h1 h2 _
            exact ⟨s1, t, h2.symm, h1.symm⟩

example : (New []).CreateType 2 "[]int" =
    some (.ret ((New []).publish "[]int" (some (.slice .int))) (some (.slice .int)) none) := rfl

/-! ## Without a resolver every call returns -/

theorem andThen_isSome (r : Option Outcome) (k : Types → Option Ty → Option Outcome)
    (hr : r.isSome = true) (hk : ∀ s t, r = some (.ret s t none) → (k s t).isSome = true) :
    (Outcome.andThen r k).isSome = true := by
  cases r with
  | none => cases hr
  | some o =>
    cases o with
    | panic s => rfl
    | ret s t e =>
      cases e with
      | some e => rfl
      | none => exact hk s t rfl

theorem publishBuilt_isSome (ts : Types) (typ : String) (built : Option Ty) :
    (publishBuilt ts typ built).isSome = true := by
  cases built <;> rfl

theorem createType_total : ∀ (fuel : Nat) (ts : Types) (typ : String),
    ts.os.schemaResolver = none → typ.length < fuel → (createType fuel ts typ).isSome = true := by
  intro fuel
  induction fuel with
  | zero =>
    intro ts typ _ hlt
    omega
  | succ fuel ih =>
    intro ts typ hres hlt
    cases hl : ts.tm.lookup typ with
    | some t =>
      rw [createType_found _ _ _ _ hl]
      rfl
    | none =>
      cases h1 : HasPrefix typ "[]" with
      | true =>
        rw [createType_slice _ _ _ hl h1]
        have := sliceFrom_shorter typ "[]" 2 h1 rfl (by decide)
        exact andThen_isSome _ _ (ih _ _ hres (by omega)) (fun _ _ _ => publishBuilt_isSome _ _ _)
      | false =>
      cases h2 : HasPrefix typ "map[string]" with
      | true =>
        rw [createType_stringMap _ _ _ hl h1 h2]
        have := sliceFrom_shorter typ "map[string]" 11 h2 rfl (by decide)
        exact andThen_isSome _ _ (ih _ _ hres (by omega)) (fun _ _ _ => publishBuilt_isSome _ _ _)
      | false =>
      cases h3 : (!ts.os.disablePointer && HasPrefix typ "*") with
      | true =>
        rw [createType_ptr _ _ _ hl h1 h2 h3]
        rw [Bool.and_eq_true] at h3
        have := sliceFrom_shorter typ "*" 1 h3.2 rfl (by decide)
        exact andThen_isSome _ _ (ih _ _ hres (by omega)) (fun _ _ _ => publishBuilt_isSome _ _ _)
      | false =>
      cases h4 : (if ts.os.stringKeyOnly then none else mr.FindStringSubmatch typ) with
      | some kv =>
        obtain ⟨k, v⟩ := kv
        rw [createType_map _ _ _ _ _ hl h1 h2 h3 h4]
        have hmr : mr.FindStringSubmatch typ = some (k, v) := by
          cases hb : ts.os.stringKeyOnly with
          | false =>
            rw [hb] at h4
            simpa using h4
          | true =>
            rw [hb] at h4
            simp at h4
        have hlen := mr_shorter typ k v hmr
        refine andThen_isSome _ _ (ih _ _ hres (by omega)) ?_
        intro s1 kt hr1
        have hs := (createType_sound fuel).1 _ _ _ hr1
        have hres1 : s1.os.schemaResolver = none := by
          have := hs.1.os_eq
          simp only [Outcome.ts] at this
          rw [this]
          exact hres
        exact andThen_isSome _ _ (ih _ _ hres1 (by omega))
          (fun _ _ _ => publishBuilt_isSome _ _ _)
      | none =>
      cases h5 : ar.FindStringSubmatch typ with
      | some dv =>
        obtain ⟨digits, el⟩ := dv
        cases h6 : ParseInt digits with
        | none =>
          rw [createType_array_range _ _ _ _ _ hl h1 h2 h3 h4 h5 h6]
          rfl
        | some n =>
          rw [createType_array _ _ _ _ _ _ hl h1 h2 h3 h4 h5 h6]
          have := ar_shorter typ digits el h5
          exact andThen_isSome _ _ (ih _ _ hres (by omega))
            (fun _ _ _ => publishBuilt_isSome _ _ _)
      | none =>
        have h6 : (if ir.MatchString typ then ts.os.schemaResolver else none) = none := by
          rw [hres]
          simp
        rw [createType_unknown _ _ _ hl h1 h2 h3 h4 h5 h6]
        rfl

theorem createFields_total (ct : Types → String → Option Outcome) (bound : Nat)
    (hct : ∀ ts typ out, ct ts typ = some out → Sound ts typ out)
    (htot : ∀ ts typ, ts.os.schemaResolver = none → typ.length < bound →
      (ct ts typ).isSome = true) :
    ∀ (fields : List Field) (ts : Types), ts.os.schemaResolver = none →
      (∀ f ∈ fields, f.Typ.length < bound) → (createFields ct ts fields).isSome = true := by
  intro fields
  induction fields with
  | nil =>
    intro ts _ _
    rw [createFields_nil]
    rfl
  | cons f rest ih =>
    intro ts hres hb
    cases hi : ir.MatchString f.Name with
    | false =>
      rw [createFields_invalid _ _ _ _ hi]
      rfl
    | true =>
      have h1 := htot ts f.Typ hres (hb f (List.mem_cons_self _ _))
      cases hc : ct ts f.Typ with
      | none =>
        rw [hc] at h1
        cases h1
      | some o =>
        cases o with
        | panic s =>
          rw [createFields_panic _ _ _ _ _ hi hc]
          rfl
        | ret s t e =>
          cases e with
          | some e =>
            rw [createFields_err _ _ _ _ _ _ _ hi hc]
            rfl
          | none =>
            have hs := hct _ _ _ hc
            have hres1 : s.os.schemaResolver = none := by
              have := hs.1.os_eq
              simp only [Outcome.ts] at this
              rw [this]
              exact hres
            have h2 := ih s hres1 (fun g hg => hb g (List.mem_cons_of_mem _ hg))
            cases hrest : createFields ct s rest with
            | none =>
              rw [hrest] at h2
              cases h2
            | some r2 =>
              cases r2 with
              | abort o =>
                rw [createFields_next_abort _ _ _ _ _ _ _ hi hc hrest]
                rfl
              | built s2 fs =>
                rw [createFields_next_built _ _ _ _ _ _ _ _ hi hc hrest]
                rfl

theorem createSchema_total (fuel : Nat) (ts : Types) (s : Schema)
    (hres : ts.os.schemaResolver = none) (hb : ∀ f ∈ s.Fields, f.Typ.length < fuel) :
    (createSchema (fuel + 1) ts s).isSome = true := by
  cases hl : ts.tm.lookup s.Name with
  | some t =>
    rw [createSchema_found _ _ _ _ hl]
    rfl
  | none =>
    cases h1 : ir.MatchString s.Name with
    | false =>
      rw [createSchema_invalid _ _ _ hl h1]
      rfl
    | true =>
      have h2 := createFields_total (createType fuel) fuel (createType_sound fuel).1
        (createType_total fuel) s.Fields ts hres hb
      cases hf : createFields (createType fuel) ts s.Fields with
      | none =>
        rw [hf] at h2
        cases h2
      | some res =>
        cases res with
        | abort o =>
          rw [createSchema_abort _ _ _ _ hl h1 hf]
          rfl
        | built s1 fs =>
          cases hst : StructOf fs with
          | none =>
            rw [createSchema_panic _ _ _ _ _ hl h1 hf hst]
            rfl
          | some t =>
            rw [createSchema_built _ _ _ _ _ _ hl h1 hf hst]
            rfl

theorem recovered_isSome (r : Option Outcome) (h : r.isSome = true) :
    (recovered r).isSome = true := by
  cases r with
  | none => cases h
  | some o => cases o <;> rfl

theorem CreateSchema_total (fuel : Nat) (ts : Types) (s : Schema)
    (hres : ts.os.schemaResolver = none) (hb : ∀ f ∈ s.Fields, f.Typ.length < fuel) :
    (ts.CreateSchema (fuel + 1) s).isSome = true := by
  cases hl : ts.tm.lookup s.Name with
  | some t =>
    rw [CreateSchema_found _ _ _ _ hl]
    rfl
  | none =>
    rw [CreateSchema_miss _ _ _ hl]
    exact recovered_isSome _ (createSchema_total fuel ts s hres hb)

theorem CreateType_total (fuel : Nat) (ts : Types) (typ : String)
    (hres : ts.os.schemaResolver = none) (hb : typ.length < fuel) :
    (ts.CreateType fuel typ).isSome = true := by
  cases hl : ts.tm.lookup typ with
  | some t =>
    rw [CreateType_found _ _ _ _ hl]
    rfl
  | none =>
    rw [CreateType_miss _ _ _ hl]
    exact recovered_isSome _ (createType_total fuel ts typ hres hb)

/-! ## A name that matches `ir` is no compound expression -/

theorem ir_not_slice (typ : String) (h : ir.MatchString typ = true) :
    HasPrefix typ "[]" = false := by
  cases hp : HasPrefix typ "[]" with
  | false => rfl
  | true =>
    rw [ir_of_slice typ hp] at h
    cases h

theorem ir_not_stringMap (typ : String) (h : ir.MatchString typ = true) :
    HasPrefix typ "map[string]" = false := by
  cases hp : HasPrefix typ "map[string]" with
  | false => rfl
  | true =>
    rw [ir_of_stringMap typ hp] at h
    cases h

theorem ir_not_ptr (typ : String) (h : ir.MatchString typ = true) :
    HasPrefix typ "*" = false := by
  cases hp : HasPrefix typ "*" with
  | false => rfl
  | true =>
    rw [ir_of_ptr typ hp] at h
    cases h

theorem ir_not_mr (typ : String) (h : ir.MatchString typ = true) :
    mr.FindStringSubmatch typ = none := by
  cases hp : mr.FindStringSubmatch typ with
  | none => rfl
  | some kv =>
    rw [ir_of_mr typ kv.1 kv.2 hp] at h
    cases h

theorem ir_not_ar (typ : String) (h : ir.MatchString typ = true) :
    ar.FindStringSubmatch typ = none := by
  cases hp : ar.FindStringSubmatch typ with
  | none => rfl
  | some kv =>
    rw [ir_of_ar typ kv.1 kv.2 hp] at h
    cases h

theorem createType_name (fuel : Nat) (ts : Types) (typ : String)
    (hl : ts.tm.lookup typ = none) (hir : ir.MatchString typ = true)
    (hres : ts.os.schemaResolver = none) :
    createType (fuel + 1) ts typ =
      some (.ret (ts.publish typ none) none (some (.unknownType typ))) := by
  refine createType_unknown fuel ts typ hl (ir_not_slice typ hir) (ir_not_stringMap typ hir)
    ?_ ?_ (ir_not_ar typ hir) ?_
  · rw [ir_not_ptr typ hir]
    simp
  · rw [ir_not_mr typ hir]
    simp
  · rw [hres]
    simp

theorem createType_name_resolved (fuel : Nat) (ts : Types) (typ : String)
    (r : String → Schema × Option Err) (s : Schema)
    (hl : ts.tm.lookup typ = none) (hir : ir.MatchString typ = true)
    (hres : ts.os.schemaResolver = some r) (hr : r typ = (s, none)) :
    createType (fuel + 1) ts typ =
      Outcome.andThen (createSchema fuel ts s) fun s1 t =>
        some (.ret (s1.publish typ t) t none) := by
  refine createType_resolve fuel ts typ r s hl (ir_not_slice typ hir)
    (ir_not_stringMap typ hir) ?_ ?_ (ir_not_ar typ hir) ?_ hr
  · rw [ir_not_ptr typ hir]
    simp
  · rw [ir_not_mr typ hir]
    simp
  · rw [hir, hres]
    simp

/-! ## What a failed call leaves behind -/

theorem Grows.suffix {ts s : Types} (h : Grows ts s) : ts.tm <:+ s.tm ∧ ts.tn <:+ s.tn := by
  induction h with
  | refl => exact ⟨List.suffix_refl _, List.suffix_refl _⟩
  | step s typ t _ _ _ _ ih =>
    exact ⟨ih.1.trans (List.suffix_cons _ _), ih.2.trans (List.suffix_cons _ _)⟩

theorem recovered_err (r : Option Outcome) (out : Outcome) (h : recovered r = some out)
    (hr : ∀ o, r = some o → ∀ s t, o ≠ .ret s t none) : out.err ≠ none := by
  rcases recovered_inv _ _ h with ⟨s, _, ho⟩ | ⟨h1, hp⟩
  · rw [ho]
    simp [Outcome.err]
  · have := hr out h1
    cases out with
    | panic s => cases hp
    | ret s t e =>
      cases e with
      | none => exact absurd rfl (this s t)
      | some e => simp [Outcome.err]

theorem createFields_invalid_name (ct : Types → String → Option Outcome) :
    ∀ (fields : List Field) (ts : Types) (res : FieldsRes),
      (∃ f ∈ fields, ir.MatchString f.Name = false) →
      createFields ct ts fields = some res → ∃ o, res = .abort o := by
  intro fields
  induction fields with
  | nil =>
    intro ts res hbad _
    obtain ⟨f, hf, _⟩ := hbad
    cases hf
  | cons f rest ih =>
    intro ts res hbad h
    cases hi : ir.MatchString f.Name with
    | false =>
      rw [createFields_invalid _ _ _ _ hi] at h
      injection h with h
      exact ⟨_, h.symm⟩
    | true =>
      have hbad2 : ∃ g ∈ rest, ir.MatchString g.Name = false := by
        obtain ⟨g, hg, hgi⟩ := hbad
        rcases List.mem_cons.1 hg with he | hm
        · rw [he, hi] at hgi
          cases hgi
        · exact ⟨g, hm, hgi⟩
      cases hc : ct ts f.Typ with
      | none =>
        rw [createFields_none _ _ _ _ hi hc] at h
        cases h
      | some o =>
        cases o with
        | panic s =>
          rw [createFields_panic _ _ _ _ _ hi hc] at h
          injection h with h
          exact ⟨_, h.symm⟩
        | ret s t e =>
          cases e with
          | some e =>
            rw [createFields_err _ _ _ _ _ _ _ hi hc] at h
            injection h with h
            exact ⟨_, h.symm⟩
          | none =>
            cases hrest : createFields ct s rest with
            | none =>
              rw [createFields_next_none _ _ _ _ _ _ hi hc hrest] at h
              cases h
            | some r2 =>
              obtain ⟨o, ho⟩ := ih s r2 hbad2 hrest
              subst ho
              rw [createFields_next_abort _ _ _ _ _ _ _ hi hc hrest] at h
              injection h with h
              exact ⟨_, h.symm⟩

theorem createFields_self (fuel : Nat) (name : String) (hir : ir.MatchString name = true) :
    ∀ (fields : List Field) (ts : Types) (res : FieldsRes),
      ts.os.schemaResolver = none → ts.tm.lookup name = none →
      (∃ f ∈ fields, f.Typ = name) →
      createFields (createType fuel) ts fields = some res → ∃ o, res = .abort o := by
  intro fields
  induction fields with
  | nil =>
    intro ts res _ _ hself _
    obtain ⟨f, hf, _⟩ := hself
    cases hf
  | cons f rest ih =>
    intro ts res hres hl hself h
    cases hi : ir.MatchString f.Name with
    | false =>
      rw [createFields_invalid _ _ _ _ hi] at h
      injection h with h
      exact ⟨_, h.symm⟩
    | true =>
      cases hc : createType fuel ts f.Typ with
      | none =>
        rw [createFields_none _ _ _ _ hi hc] at h
        cases h
      | some o =>
        cases o with
        | panic s =>
          rw [createFields_panic _ _ _ _ _ hi hc] at h
          injection h with h
          exact ⟨_, h.symm⟩
        | ret s t e =>
          cases e with
          | some e =>
            rw [createFields_err _ _ _ _ _ _ _ hi hc] at h
            injection h with h
            exact ⟨_, h.symm⟩
          | none =>
            have hs := (createType_sound fuel).1 _ _ _ hc
            have hne : f.Typ ≠ name := by
              intro he
              cases fuel with
              | zero =>
                rw [createType_zero] at hc
                cases hc
              | succ fuel =>
                rw [he, createType_name fuel ts name hl hir hres] at hc
                cases hc
            have hself2 : ∃ g ∈ rest, g.Typ = name := by
              obtain ⟨g, hg, hgt⟩ := hself
              rcases List.mem_cons.1 hg with he | hm
              · rw [he] at hgt
                exact absurd hgt hne
              · exact ⟨g, hm, hgt⟩
            have hres1 : s.os.schemaResolver = none := by
              have := hs.1.os_eq
              simp only [Outcome.ts] at this
              rw [this]
              exact hres
            have hl1 : s.tm.lookup name = none := by
              cases hl2 : s.tm.lookup name with
              | none => rfl
              | some v =>
                rcases hs.2.2 hres name (by simp [Outcome.ts, hl2]) with h0 | ⟨_, h0⟩
                · exact absurd hl h0
                · rw [h0 rfl rfl] at hir
                  cases hir
            cases hrest : createFields (createType fuel) s rest with
            | none =>
              rw [createFields_next_none _ _ _ _ _ _ hi hc hrest] at h
              cases h
            | some r2 =>
              obtain ⟨o, ho⟩ := ih s r2 hres1 hl1 hself2 hrest
              subst ho
              rw [createFields_next_abort _ _ _ _ _ _ _ hi hc hrest] at h
              injection h with h
              exact ⟨_, h.symm⟩

theorem createSchema_never_ok (fuel : Nat) (ts : Types) (s : Schema) (out : Outcome)
    (hl : ts.tm.lookup s.Name = none)
    (hab : ∀ f res, createFields (createType f) ts s.Fields = some res → ∃ o, res = .abort o)
    (h : createSchema fuel ts s = some out) : ∀ s1 t, out ≠ .ret s1 t none := by
  cases fuel with
  | zero =>
    rw [createSchema_zero] at h
    cases h
  | succ fuel =>
    cases h1 : ir.MatchString s.Name with
    | false =>
      rw [createSchema_invalid _ _ _ hl h1] at h
      injection h with h
      subst h
      intro _ _ hc
      cases hc
    | true =>
      cases hf : createFields (createType fuel) ts s.Fields with
      | none =>
        rw [createSchema_none _ _ _ hl h1 hf] at h
        cases h
      | some res =>
        obtain ⟨o, ho⟩ := hab fuel res hf
        subst ho
        rw [createSchema_abort _ _ _ _ hl h1 hf] at h
        injection h with h
        subst h
        exact ((createFields_sound (createType fuel) (createType_sound fuel).1 s.Fields ts _
          hf).1 _ rfl).2

theorem self_reference_diverges (ts : Types) (s : Schema) (r : String → Schema × Option Err)
    (f : Field) (rest : List Field) (hres : ts.os.schemaResolver = some r)
    (hr : r s.Name = (s, none)) (hl : ts.tm.lookup s.Name = none)
    (hir : ir.MatchString s.Name = true) (hf : s.Fields = f :: rest)
    (hfn : ir.MatchString f.Name = true) (hft : f.Typ = s.Name) :
    ∀ fuel, createSchema fuel ts s = none ∧ createType fuel ts s.Name = none := by
  intro fuel
  induction fuel with
  | zero => exact ⟨createSchema_zero ts s, createType_zero ts s.Name⟩
  | succ fuel ih =>
    constructor
    · apply createSchema_none fuel ts s hl hir
      rw [hf]
      apply createFields_none _ _ _ _ hfn
      rw [hft]
      exact ih.2
    · rw [createType_name_resolved fuel ts s.Name r s hl hir hres hr, ih.1]
      rfl

theorem lookup_of_suffix {α β : Type} [BEq α] (l1 l2 : List (α × β)) (a : α)
    (h : l1 <:+ l2) (hs : (l1.lookup a).isSome = true) : (l2.lookup a).isSome = true := by
  obtain ⟨pre, hp⟩ := h
  subst hp
  induction pre with
  | nil => exact hs
  | cons p pre ih =>
    obtain ⟨k, v⟩ := p
    rw [List.cons_append, List.lookup_cons]
    cases a == k with
    | true => rfl
    | false => exact ih

theorem star_data (T : String) : ("*" ++ T).data = Char.ofNat 42 :: T.data := by
  rw [String.data_append]
  rfl

theorem createType_star (fuel : Nat) (ts : Types) (T : String)
    (hd : ts.os.disablePointer = true) (hl : ts.tm.lookup ("*" ++ T) = none) :
    createType (fuel + 1) ts ("*" ++ T) =
      some (.ret (ts.publish ("*" ++ T) none) none (some (.unknownType ("*" ++ T)))) := by
  have hdata := star_data T
  have hir : ir.MatchString ("*" ++ T) = false := ir_of_head _ _ _ hdata (by decide)
  have h1 : HasPrefix ("*" ++ T) "[]" = false := by
    unfold HasPrefix
    rw [hdata]
    rfl
  have h2 : HasPrefix ("*" ++ T) "map[string]" = false := by
    unfold HasPrefix
    rw [hdata]
    rfl
  have hmr : mr.FindStringSubmatch ("*" ++ T) = none := by
    unfold mr.FindStringSubmatch
    rw [hdata]
    rfl
  have har : ar.FindStringSubmatch ("*" ++ T) = none := by
    unfold ar.FindStringSubmatch
    rw [hdata]
    rfl
  refine createType_unknown fuel ts _ hl h1 h2 ?_ ?_ har ?_
  · rw [hd]
    rfl
  · rw [hmr]
    simp
  · rw [hir]
    simp

/-! ## Invariants of the reachable registries -/

theorem lookup_mem {α β : Type} [BEq α] [LawfulBEq α] (l : List (α × β)) (a : α) (b : β)
    (h : l.lookup a = some b) : (a, b) ∈ l := by
  induction l with
  | nil => cases h
  | cons p l ih =>
    obtain ⟨k, v⟩ := p
    rw [List.lookup_cons] at h
    cases hk : a == k with
    | true =>
      rw [hk] at h
      injection h with h
      rw [eq_of_beq hk, h]
      exact List.mem_cons_self _ _
    | false =>
      rw [hk] at h
      exact List.mem_cons_of_mem _ (ih h)

theorem lookup_of_nodup {α β : Type} [BEq α] [LawfulBEq α] (l : List (α × β)) (a : α) (b : β)
    (hn : (l.map Prod.fst).Nodup) (h : (a, b) ∈ l) : l.lookup a = some b := by
  induction l with
  | nil => cases h
  | cons p l ih =>
    obtain ⟨k, v⟩ := p
    rw [List.map_cons, List.nodup_cons] at hn
    rw [List.lookup_cons]
    rcases List.mem_cons.1 h with he | hm
    · injection he with h1 h2
      rw [h1, h2]
      simp
    · have hne : (a == k) = false := by
        cases hk : a == k with
        | false => rfl
        | true =>
          have := eq_of_beq hk
          subst this
          exact absurd (List.mem_map_of_mem Prod.fst hm) hn.1
      rw [hne]
      exact ih hn.2 hm

theorem builtins_facts : ∀ p ∈ builtins, mr.FindStringSubmatch p.1 = none ∧
    p.1.data ≠ [] ∧ p.1.data.all isDot = true := by
  decide

theorem New_tm (opts : List (options → options)) : (New opts).tm = builtins := rfl

theorem New_tn (opts : List (options → options)) :
    (New opts).tn = builtins.map fun nt => (nt.2, nt.1) := rfl

theorem New_string (opts : List (options → options)) :
    (New opts).tm.lookup "string" = some (some .string) := by
  rw [New_tm]
  decide

theorem New_named (opts : List (options → options)) (n : String) (D : Option Ty)
    (h : (New opts).tm.lookup n = some D) : ((New opts).tn.lookup D).isSome = true := by
  rw [New_tm] at h
  rw [New_tn]
  generalize builtins = l at h
  induction l with
  | nil => cases h
  | cons p l ih =>
    obtain ⟨k, v⟩ := p
    rw [List.lookup_cons] at h
    rw [List.map_cons, List.lookup_cons]
    cases hk : n == k with
    | true =>
      rw [hk] at h
      injection h with h
      rw [h]
      simp
    | false =>
      rw [hk] at h
      cases D == v with
      | true => rfl
      | false => exact ih h

theorem New_inverse (opts : List (options → options)) (D : Option Ty) (n : String)
    (h : (New opts).tn.lookup D = some n) : (New opts).tm.lookup n = some D := by
  rw [New_tn] at h
  rw [New_tm]
  have hm := lookup_mem _ _ _ h
  rw [List.mem_map] at hm
  obtain ⟨p, hp, he⟩ := hm
  injection he with h1 h2
  apply lookup_of_nodup builtins n D (by decide)
  rw [← h1, ← h2]
  exact hp

theorem grows_named (base ts : Types) (g : Grows base ts)
    (hb : ∀ n D, base.tm.lookup n = some D → (base.tn.lookup D).isSome = true) :
    ∀ n D, ts.tm.lookup n = some D → (ts.tn.lookup D).isSome = true := by
  induction g with
  | refl => exact hb
  | step s typ t _ _ _ _ ih =>
    intro n D h
    rw [tm_publish] at h
    rw [tn_publish]
    by_cases hd : D = t
    · rw [if_pos hd]
      rfl
    · rw [if_neg hd]
      by_cases hn : n = typ
      · rw [if_pos hn] at h
        injection h with h
        exact absurd h.symm hd
      · rw [if_neg hn] at h
        exact ih n D h

theorem grows_inverse (base ts : Types) (g : Grows base ts)
    (hres : base.os.schemaResolver = none)
    (hb : ∀ D n, base.tn.lookup D = some n → base.tm.lookup n = some D) :
    ∀ D n, ts.tn.lookup D = some n → ts.tm.lookup n = some D := by
  induction g with
  | refl => exact hb
  | step s typ t _ _ _ hfresh ih =>
    intro D n h
    rw [tn_publish] at h
    rw [tm_publish]
    by_cases hd : D = t
    · rw [if_pos hd] at h
      injection h with h
      rw [← h, if_pos rfl, hd]
    · rw [if_neg hd] at h
      have h2 := ih D n h
      have hne : n ≠ typ := by
        intro he
        rw [he, hfresh hres] at h2
        cases h2
      rw [if_neg hne]
      exact h2

/-! ## Map expressions -/

theorem isWord_isDot (c : Char) (h : isWord c = true) : isDot c = true := by
  simp only [isWord, isUpper, isDigit, Bool.or_eq_true, Bool.and_eq_true, decide_eq_true_eq,
    beq_iff_eq] at h
  simp only [isDot, bne_iff_ne, ne_eq]
  omega

theorem isDigit_isDot (c : Char) (h : isDigit c = true) : isDot c = true := by
  simp only [isDigit, Bool.and_eq_true, decide_eq_true_eq] at h
  simp only [isDot, bne_iff_ne, ne_eq]
  omega

theorem isUpper_isWord (c : Char) (h : isUpper c = true) : isWord c = true := by
  simp [isWord, h]

theorem takeWhile_stop (p : Char → Bool) (l : List Char) (x : Char) (r : List Char)
    (hl : ∀ c ∈ l, p c = true) (hx : p x = false) :
    (l ++ x :: r).takeWhile p = l ∧ (l ++ x :: r).dropWhile p = x :: r := by
  induction l with
  | nil => simp [List.takeWhile, List.dropWhile, hx]
  | cons a l ih =>
    have ha := hl a (List.mem_cons_self _ _)
    have ih2 := ih (fun c hc => hl c (List.mem_cons_of_mem _ hc))
    simp [List.takeWhile, List.dropWhile, ha, ih2.1, ih2.2]

theorem bracketGroups_build (cls : Char → Bool) (K V : String)
    (hK : K.data ≠ []) (hKw : ∀ c ∈ K.data, cls c = true) (hc : cls (Char.ofNat 93) = false)
    (hV : V.data ≠ []) (hVd : V.data.all isDot = true) :
    bracketGroups cls (K.data ++ Char.ofNat 93 :: V.data) = some (K, V) := by
  have h := takeWhile_stop cls K.data (Char.ofNat 93) V.data hKw hc
  unfold bracketGroups
  rw [h.1, h.2]
  have h1 : K.data.isEmpty = false := by
    cases hd : K.data with
    | nil => exact absurd hd hK
    | cons _ _ => rfl
  have h2 : V.data.isEmpty = false := by
    cases hd : V.data with
    | nil => exact absurd hd hV
    | cons _ _ => rfl
  simp [h1, h2, hVd]

theorem map_expr_data (K V : String) :
    ("map[" ++ K ++ "]" ++ V).data = "map[".data ++ (K.data ++ Char.ofNat 93 :: V.data) := by
  simp only [String.data_append, List.append_assoc]
  rfl

theorem mr_build (K V : String) (hK : K.data ≠ []) (hKw : K.data.all isWord = true)
    (hV : V.data ≠ []) (hVd : V.data.all isDot = true) :
    mr.FindStringSubmatch ("map[" ++ K ++ "]" ++ V) = some (K, V) := by
  unfold mr.FindStringSubmatch
  rw [map_expr_data]
  have h1 : "map[".data.isPrefixOf ("map[".data ++ (K.data ++ Char.ofNat 93 :: V.data)) = true := by
    rw [List.isPrefixOf_iff_prefix]
    exact List.prefix_append _ _
  rw [if_pos h1]
  have h2 : ("map[".data ++ (K.data ++ Char.ofNat 93 :: V.data)).drop 4
      = K.data ++ Char.ofNat 93 :: V.data := rfl
  rw [h2]
  exact bracketGroups_build isWord K V hK (fun c hc => List.all_eq_true.1 hKw c hc)
    (by decide) hV hVd

theorem append_stop_inj (a c b d : List Char) (x : Char) (ha : x ∉ a) (hc : x ∉ c)
    (h : a ++ x :: b = c ++ x :: d) : a = c ∧ b = d := by
  induction a generalizing c with
  | nil =>
    cases c with
    | nil =>
      injection h with _ h
      exact ⟨rfl, h⟩
    | cons y c =>
      injection h with h1 _
      exact absurd (h1 ▸ List.mem_cons_self _ _) hc
  | cons y a ih =>
    cases c with
    | nil =>
      injection h with h1 _
      exact absurd (h1 ▸ List.mem_cons_self _ _) ha
    | cons z c =>
      injection h with h1 h2
      obtain ⟨e1, e2⟩ := ih c (fun hm => ha (List.mem_cons_of_mem _ hm))
        (fun hm => hc (List.mem_cons_of_mem _ hm)) h2
      exact ⟨by rw [h1, e1], e2⟩

theorem mr_stringMap (typ k v : String) (h : mr.FindStringSubmatch typ = some (k, v))
    (hp : HasPrefix typ "map[string]" = true) : k = "string" ∧ v = sliceFrom typ 11 := by
  obtain ⟨h1, _, hkw, _, _⟩ := mr_split typ k v h
  have h2 := hasPrefix_split typ "map[string]" hp
  have h3 : "map[string]".data = "map[".data ++ ("string".data ++ [Char.ofNat 93]) := rfl
  have h4 : "map[string]".data.length = 11 := rfl
  rw [h4, h3, h1, List.append_assoc, List.append_assoc, List.singleton_append] at h2
  have h5 := List.append_cancel_left h2
  have hnk : Char.ofNat 93 ∉ k.data := by
    intro hm
    have := hkw _ hm
    revert this
    decide
  obtain ⟨e1, e2⟩ := append_stop_inj _ _ _ _ _ hnk (by decide) h5
  exact ⟨String.ext e1, String.ext e2⟩

theorem mr_not_slice (typ k v : String) (h : mr.FindStringSubmatch typ = some (k, v)) :
    HasPrefix typ "[]" = false := by
  have h1 := (mr_split typ k v h).1
  unfold HasPrefix
  rw [h1]
  rfl

theorem mr_not_ptr (typ k v : String) (h : mr.FindStringSubmatch typ = some (k, v)) :
    HasPrefix typ "*" = false := by
  have h1 := (mr_split typ k v h).1
  unfold HasPrefix
  rw [h1]
  rfl

theorem mr_not_ar (typ k v : String) (h : mr.FindStringSubmatch typ = some (k, v)) :
    ar.FindStringSubmatch typ = none := by
  have h1 := (mr_split typ k v h).1
  unfold ar.FindStringSubmatch
  rw [h1]
  rfl

theorem all_isDot_append (a b : List Char) (ha : a.all isDot = true) (hb : b.all isDot = true) :
    (a ++ b).all isDot = true := by
  rw [List.all_append, ha, hb]
  rfl

theorem grows_wellformed (base ts : Types) (g : Grows base ts)
    (hb : ∀ n D, base.tm.lookup n = some (some D) → n.data ≠ [] ∧ n.data.all isDot = true) :
    ∀ n D, ts.tm.lookup n = some (some D) → n.data ≠ [] ∧ n.data.all isDot = true := by
  induction g with
  | refl => exact hb
  | step s typ t _ _ hp _ ih =>
    intro n D h
    rw [tm_publish] at h
    by_cases hn : n = typ
    · rw [if_pos hn] at h
      injection h with h
      subst hn
      cases hp with
      | slice e h1 h2 =>
        have hd := hasPrefix_split n "[]" h1
        have hr := ih _ _ h2
        rw [hd]
        exact ⟨by simp, all_isDot_append _ _ (by decide) hr.2⟩
      | stringMap e h1 h2 =>
        have hd := hasPrefix_split n "map[string]" h1
        have hr := ih _ _ h2
        rw [hd]
        exact ⟨by simp, all_isDot_append _ _ (by decide) hr.2⟩
      | ptr e _ h1 h2 =>
        have hd := hasPrefix_split n "*" h1
        have hr := ih _ _ h2
        rw [hd]
        exact ⟨by simp, all_isDot_append _ _ (by decide) hr.2⟩
      | map k v kt vt _ h1 _ _ _ =>
        obtain ⟨hd, _, hkw, _, hvd⟩ := mr_split n k v h1
        rw [hd]
        refine ⟨by simp, all_isDot_append _ _ (by decide) (all_isDot_append _ _ ?_ ?_)⟩
        · exact List.all_eq_true.2 (fun c hc => isWord_isDot c (hkw c hc))
        · rw [List.all_cons, hvd]
          rfl
      | array d el m e h1 _ _ =>
        obtain ⟨hd, _, hkw, _, hvd⟩ := ar_split n d el h1
        rw [hd]
        refine ⟨by simp, all_isDot_append _ _ (by decide) (all_isDot_append _ _ ?_ ?_)⟩
        · exact List.all_eq_true.2 (fun c hc => isDigit_isDot c (hkw c hc))
        · rw [List.all_cons, hvd]
          rfl
      | schema t h1 =>
        obtain ⟨c, cs, hd, hc, hcs⟩ := ir_head n h1
        rw [hd]
        refine ⟨by simp, ?_⟩
        rw [List.all_cons, isWord_isDot c (isUpper_isWord c hc)]
        exact List.all_eq_true.2 (fun x hx => isWord_isDot x (List.all_eq_true.1 hcs x hx))
      | unknown _ _ _ _ _ => cases h
    · rw [if_neg hn] at h
      exact ih n D h

theorem grows_maps (opts : List (options → options)) (ts : Types)
    (g : Grows (New opts) ts) (hres : (New opts).os.schemaResolver = none)
    (hsk : (New opts).os.stringKeyOnly = false) :
    ∀ typ k v T, mr.FindStringSubmatch typ = some (k, v) → ts.tm.lookup typ = some T →
      ∃ kt vt, ts.tm.lookup k = some (some kt) ∧ ts.tm.lookup v = some (some vt) ∧
        T = some (.map kt vt) := by
  induction g with
  | refl =>
    intro typ k v T hmr h
    rw [New_tm] at h
    have := (builtins_facts _ (lookup_mem _ _ _ h)).1
    rw [hmr] at this
    cases this
  | step s typ0 t g0 _ hp hfresh ih =>
    intro typ k v T hmr h
    have hf : s.tm.lookup typ0 = none := hfresh hres
    have keep : ∀ n x, s.tm.lookup n = some x → (s.publish typ0 t).tm.lookup n = some x := by
      intro n x hx
      rw [tm_publish]
      have hne : n ≠ typ0 := by
        intro he
        rw [he, hf] at hx
        cases hx
      rw [if_neg hne]
      exact hx
    rw [tm_publish] at h
    by_cases hn : typ = typ0
    · rw [if_pos hn] at h
      injection h with h
      subst hn
      subst h
      cases hp with
      | slice e h1 h2 =>
        rw [mr_not_slice typ k v hmr] at h1
        cases h1
      | stringMap e h1 h2 =>
        obtain ⟨e1, e2⟩ := mr_stringMap typ k v hmr h1
        subst e1 e2
        exact ⟨.string, e, keep _ _ (g0.keep _ _ (New_string opts)), keep _ _ h2, rfl⟩
      | ptr e _ h1 h2 =>
        rw [mr_not_ptr typ k v hmr] at h1
        cases h1
      | map k2 v2 kt vt _ h1 h2 h3 _ =>
        rw [hmr] at h1
        injection h1 with h1
        injection h1 with e1 e2
        subst e1 e2
        exact ⟨kt, vt, keep _ _ h2, keep _ _ h3, rfl⟩
      | array d el m e h1 _ _ =>
        rw [mr_not_ar typ k v hmr] at h1
        cases h1
      | schema t h1 =>
        rw [ir_of_mr typ k v hmr] at h1
        cases h1
      | unknown _ _ _ h4 _ =>
        rw [g0.os_eq, hsk, hmr] at h4
        simp at h4
    · rw [if_neg hn] at h
      obtain ⟨kt, vt, h1, h2, h3⟩ := ih typ k v T hmr h
      exact ⟨kt, vt, keep _ _ h1, keep _ _ h2, h3⟩

theorem New_wellformed (opts : List (options → options)) (n : String) (D : Ty)
    (h : (New opts).tm.lookup n = some (some D)) :
    n.data ≠ [] ∧ n.data.all isDot = true := by
  rw [New_tm] at h
  exact (builtins_facts _ (lookup_mem _ _ _ h)).2

theorem map_rule_core (opts : List (options → options)) (ts : Types)
    (g : Grows (New opts) ts) (hsk : (New opts).os.stringKeyOnly = false)
    (K V : String) (DK DV : Ty) (hK : K.data ≠ []) (hKw : K.data.all isWord = true)
    (hk : ts.tm.lookup K = some (some DK)) (hv : ts.tm.lookup V = some (some DV))
    (hcmp : DK.comparable = true)
    (hfirst : (New opts).os.schemaResolver = none ∨
      ts.tm.lookup ("map[" ++ K ++ "]" ++ V) = none) (fuel : Nat) :
    (ts.CreateType (fuel + 2) ("map[" ++ K ++ "]" ++ V)).map (fun o => (o.t, o.err))
      = some (some (.map DK DV), none) := by
  have hVwf := grows_wellformed (New opts) ts g (New_wellformed opts) V DV hv
  have hmr := mr_build K V hK hKw hVwf.1 hVwf.2
  generalize "map[" ++ K ++ "]" ++ V = typ at hmr hfirst ⊢
  cases hl : ts.tm.lookup typ with
  | some T =>
    rcases hfirst with hres | hnone
    · obtain ⟨kt, vt, h1, h2, h3⟩ := grows_maps opts ts g hres hsk typ K V T hmr hl
      rw [hk] at h1
      rw [hv] at h2
      injection h1 with h1
      injection h1 with h1
      injection h2 with h2
      injection h2 with h2
      subst h1 h2 h3
      rw [CreateType_found _ _ _ _ hl]
      rfl
    · rw [hnone] at hl
      cases hl
  | none =>
    rw [CreateType_miss _ _ _ hl]
    have h1 := mr_not_slice typ K V hmr
    have hos : ts.os = (New opts).os := g.os_eq
    cases h2 : HasPrefix typ "map[string]" with
    | true =>
      obtain ⟨e1, e2⟩ := mr_stringMap typ K V hmr h2
      have hstr := g.keep _ _ (New_string opts)
      rw [e1, hstr] at hk
      injection hk with hk
      injection hk with hk
      rw [createType_stringMap _ _ _ hl h1 h2, ← e2, createType_found fuel ts V _ hv, ← hk]
      rfl
    | false =>
      have h3 : (!ts.os.disablePointer && HasPrefix typ "*") = false := by
        rw [mr_not_ptr typ K V hmr]
        simp
      have h4 : (if ts.os.stringKeyOnly then none else mr.FindStringSubmatch typ)
          = some (K, V) := by
        rw [hos, hsk, hmr]
        simp
      rw [createType_map _ _ _ _ _ hl h1 h2 h3 h4, createType_found fuel ts K _ hk]
      simp only [Outcome.andThen]
      rw [createType_found fuel ts V _ hv]
      simp only [Outcome.andThen, MapOf, hcmp, if_true, publishBuilt, recovered, Option.map,
        Outcome.t, Outcome.err]

/-! ## Properties of the wire format -/

example : InternalEncode plainEncoder sampleTy sampleVal = ⟨sampleBytes, none⟩ := by decide
example : InternalDecode plainDecoder sampleTy (zero sampleTy) sampleBytes
    = ⟨sampleVal, [], none⟩ := by decide
example : hasType sampleTy sampleVal = true := by decide

/-- A record with unexported fields is not a destination the decoder can
fill.  Encoding reads the fields and succeeds; decoding reads the byte of the
first field and panics in `SetUint`, whether or not the stream holds all
bytes; only on an empty stream, where nothing is to be stored, does it return
the error of the stream.  Through `Decode` the panic reaches the caller. -/
theorem unexported_field_panics :
    Ty.codable hiddenTy = false ∧
    InternalEncode plainEncoder hiddenTy (.struct [.uint 5, .uint 6]) = ⟨[5, 6], none⟩ ∧
    InternalDecode plainDecoder hiddenTy (zero hiddenTy) [5, 6]
      = ⟨.struct [.uint 0, .uint 0], [6], some Err.setPanic⟩ ∧
    InternalDecode plainDecoder hiddenTy (zero hiddenTy) [5]
      = ⟨.struct [.uint 0, .uint 0], [], some Err.setPanic⟩ ∧
    InternalDecode plainDecoder hiddenTy (zero hiddenTy) []
      = ⟨.struct [.uint 0, .uint 0], [], some Err.EOF⟩ ∧
    plainDecoder.Decode (.iface (.ptr hiddenTy) (.ptr (zero hiddenTy))) [1, 5, 6] = none := by
  decide

/-- C1 (counterexample): values that do not come back.  The non-nil empty
slice `[]int{}` is encoded as the single byte 0, and decoding that byte into
a fresh destination succeeds and leaves the destination nil.  The `float32`
with the bits 0x7fa00000, a signalling NaN, is written with the bits
0x7fe00000, because its value passes through `float64`, and these are the
bits the decoder stores.  And a record with unexported fields is encoded,
but decoding its bytes does not succeed: it panics at the first field. -/
theorem round_trip_changes_value :
    (Ty.codable (.slice .int) = true ∧ hasType (.slice .int) (.slice [] []) = true ∧
      InternalEncode plainEncoder (.slice .int) (.slice [] []) = ⟨[0], none⟩ ∧
      InternalDecode plainDecoder (.slice .int) (zero (.slice .int))
        (InternalEncode plainEncoder (.slice .int) (.slice [] [])).out = ⟨.nil, [], none⟩ ∧
      (InternalDecode plainDecoder (.slice .int) (zero (.slice .int))
        (InternalEncode plainEncoder (.slice .int) (.slice [] [])).out).val ≠ .slice [] []) ∧
    (Ty.codable .float32 = true ∧ hasType .float32 (.float snan32) = true ∧
      InternalEncode plainEncoder .float32 (.float snan32) = ⟨qnan32, none⟩ ∧
      InternalDecode plainDecoder .float32 (zero .float32)
        (InternalEncode plainEncoder .float32 (.float snan32)).out = ⟨.float qnan32, [], none⟩ ∧
      (InternalDecode plainDecoder .float32 (zero .float32)
        (InternalEncode plainEncoder .float32 (.float snan32)).out).val ≠ .float snan32) ∧
    (hasType hiddenTy (.struct [.uint 5, .uint 6]) = true ∧
      (InternalEncode plainEncoder hiddenTy (.struct [.uint 5, .uint 6])).err = none ∧
      (InternalDecode plainDecoder hiddenTy (zero hiddenTy)
        (InternalEncode plainEncoder hiddenTy (.struct [.uint 5, .uint 6])).out).err
          = some Err.setPanic) := by
  decide

/-- C1 (amended): for every well-typed value `v` of a shape the codec handles
(built from bool, the integer kinds, floats, complex numbers, strings,
slices, arrays, maps, records with exported fields, and pointers) and empty
extension tables, `InternalEncode` succeeds and `InternalDecode` of the
produced bytes into a fresh zero-valued destination succeeds, consumes all
bytes, and leaves `canon v`: the value `v` in which every empty slice or map
is nil (and slices have no spare capacity) and every NaN of a `float32`, or
of a part of a `complex64`, has its quiet bit set.  When `v` holds no empty
non-nil slice or map and no such NaN with a clear quiet bit, the destination
is `v` itself. -/
theorem round_trip_canon (e : Encoder) (d : Decoder) (hE : ∀ t, e.Extend t = none)
    (hD : ∀ t, d.Extend t = none) (t : Ty) (v : Val) (hs : t.codable = true)
    (ht : hasType t v = true) :
    (InternalEncode e t v).err = none ∧
    InternalDecode d t (zero t) (InternalEncode e t v).out = ⟨canon v, [], none⟩ ∧
    (plain v = true →
      InternalDecode d t (zero t) (InternalEncode e t v).out = ⟨v, [], none⟩) := by
  have hg := codec_good e d hE hD t v hs ht
  have h2 := hg.2.1 []
  rw [List.append_nil] at h2
  refine ⟨hg.1, h2, fun hp => ?_⟩
  rw [h2, canon_plain v hp]

/-- C1 (witness): the sample record round-trips. -/
theorem round_trip_canon_witness :
    (InternalEncode plainEncoder sampleTy sampleVal).err = none ∧
    InternalDecode plainDecoder sampleTy (zero sampleTy)
      (InternalEncode plainEncoder sampleTy sampleVal).out = ⟨canon sampleVal, [], none⟩ ∧
    InternalDecode plainDecoder sampleTy (zero sampleTy)
      (InternalEncode plainEncoder sampleTy sampleVal).out = ⟨sampleVal, [], none⟩ :=
  ⟨(round_trip_canon plainEncoder plainDecoder (fun _ => rfl) (fun _ => rfl) sampleTy sampleVal
      (by decide) (by decide)).1,
    (round_trip_canon plainEncoder plainDecoder (fun _ => rfl) (fun _ => rfl) sampleTy sampleVal
      (by decide) (by decide)).2.1,
    (round_trip_canon plainEncoder plainDecoder (fun _ => rfl) (fun _ => rfl) sampleTy sampleVal
      (by decide) (by decide)).2.2 (by decide)⟩

/-- C2 (counterexample): the string `"123456"` is written as the byte 0x0c
followed by its six bytes (as in the test vector of the repository), not as
the byte 0x06 followed by them. -/
theorem string_123456_bytes :
    (InternalEncode plainEncoder .string (.str str123456)).out
      = [0x0c, 0x31, 0x32, 0x33, 0x34, 0x35, 0x36] ∧
    (InternalEncode plainEncoder .string (.str str123456)).out ≠ PutUvarint 6 ++ str123456 ∧
    (InternalEncode plainEncoder .string (.str str123456)).out
      ≠ [0x06, 0x31, 0x32, 0x33, 0x34, 0x35, 0x36] := by
  decide

/-- C2 (amended): for every string `s` of `N` bytes, `InternalEncode` writes
the zigzag varint of `N` (what `binary.PutVarint` stores: the unsigned LEB128
varint of `2 * N`) followed by exactly the `N` bytes of `s`, and returns no
error. -/
theorem string_wire_format (e : Encoder) (s : List Byte) (hl : s.length < 2 ^ 63) :
    InternalEncode e .string (.str s) = ⟨PutVarint s.length ++ s, none⟩ ∧
    InternalEncode e .string (.str s) = ⟨PutUvarint (2 * s.length) ++ s, none⟩ := by
  have h1 : InternalEncode e .string (.str s) = ⟨PutVarint s.length ++ s, none⟩ := by
    rw [enc_basic]
    rfl
  refine ⟨h1, ?_⟩
  rw [h1]
  unfold PutVarint
  rw [zigzag_nonneg _ (by omega) (by exact_mod_cast hl)]
  simp

/-- C2 (witness): the string `"123456"`. -/
theorem string_wire_format_witness :
    InternalEncode plainEncoder .string (.str str123456)
      = ⟨PutVarint str123456.length ++ str123456, none⟩ ∧
    InternalEncode plainEncoder .string (.str str123456)
      = ⟨PutUvarint (2 * str123456.length) ++ str123456, none⟩ :=
  string_wire_format plainEncoder str123456 (by decide)

/-- C3: for a record whose type has no extension entry, the bytes
`InternalEncode` writes are exactly the concatenation, in declaration order,
of the bytes it writes for each field value, with nothing added (the fields
after a failing one are not reached: the concatenation runs up to and
including the first field that fails, over all fields when none does); and
two record types with the same field types in the same order, whatever their
field names and tags, give the same result on the same field values. -/
theorem record_wire_format (e : Encoder) (fs : List StructField) (vs : List Val)
    (hE : e.Extend (.struct fs) = none) :
    (InternalEncode e (.struct fs) (.struct vs)).out
      = ((uptoFailure (fieldResults e fs vs)).map EncRes.out).flatten ∧
    ((∀ p ∈ List.zip fs vs, (InternalEncode e p.1.Typ p.2).err = none) →
      InternalEncode e (.struct fs) (.struct vs) =
        ⟨((List.zip fs vs).map fun p => (InternalEncode e p.1.Typ p.2).out).flatten, none⟩) ∧
    (∀ gs, gs.map StructField.Typ = fs.map StructField.Typ → e.Extend (.struct gs) = none →
      InternalEncode e (.struct gs) (.struct vs) = InternalEncode e (.struct fs) (.struct vs)) := by
  refine ⟨?_, ?_, ?_⟩
  · rw [enc_struct e fs vs hE]
    exact encodeFields_upto e fs vs
  · intro h
    rw [enc_struct e fs vs hE]
    exact encodeFields_flatten e fs vs h
  · intro gs hgs hG
    rw [enc_struct e fs vs hE, enc_struct e gs vs hG]
    exact encodeFields_types e fs gs vs hgs

/-- C3 (witness): the record with an id and a string; renaming the fields
and dropping the tag changes nothing. -/
theorem record_wire_format_witness :
    InternalEncode plainEncoder idRecordTy (.struct [.uint 1, .str str123456])
      = ⟨[1] ++ ([0x0c, 0x31, 0x32, 0x33, 0x34, 0x35, 0x36] ++ []), none⟩ ∧
    InternalEncode plainEncoder (.struct [.mk "Key" .uint "", .mk "Name" .string "x:\"y\""])
        (.struct [.uint 1, .str str123456])
      = InternalEncode plainEncoder idRecordTy (.struct [.uint 1, .str str123456]) :=
  ⟨(record_wire_format plainEncoder
      [.mk "ID" .uint "json:\"id,omitempty\"", .mk "UUID" .string ""]
      [.uint 1, .str str123456] rfl).2.1 (by decide),
    (record_wire_format plainEncoder
      [.mk "ID" .uint "json:\"id,omitempty\"", .mk "UUID" .string ""]
      [.uint 1, .str str123456] rfl).2.2
      [.mk "Key" .uint "", .mk "Name" .string "x:\"y\""] rfl rfl⟩

/-- C4: `InternalEncode` on a pointer writes one presence byte, 0 for nil and
1 otherwise, followed by the encoding of the pointee exactly when the pointer
is not nil; `Encode` on a pointer to `x` therefore writes the byte 1 and then
the encoding of `x`, as the test vector of the repository starts with 1, 1
for a record whose first field is the unsigned integer 1. -/
theorem pointer_wire_format (e : Encoder) (el : Ty) (x : Val) :
    InternalEncode e (.ptr el) .nil = ⟨[0], none⟩ ∧
    InternalEncode e (.ptr el) (.ptr x)
      = ⟨1 :: (InternalEncode e el x).out, (InternalEncode e el x).err⟩ ∧
    e.Encode (.iface (.ptr el) .nil) = ⟨[0], none⟩ ∧
    e.Encode (.iface (.ptr el) (.ptr x))
      = ⟨1 :: (InternalEncode e el x).out, (InternalEncode e el x).err⟩ ∧
    plainEncoder.Encode (.iface (.ptr idRecordTy) (.ptr (.struct [.uint 1, .str str123456])))
      = ⟨[1, 1, 0x0c, 0x31, 0x32, 0x33, 0x34, 0x35, 0x36], none⟩ := by
  have h2 : InternalEncode e (.ptr el) (.ptr x)
      = ⟨1 :: (InternalEncode e el x).out, (InternalEncode e el x).err⟩ := by
    rw [enc_ptr, andThen_ok _ _ rfl]
    rfl
  refine ⟨enc_ptr_nil e el, h2, ?_, ?_, by decide⟩
  · rw [Encode_ptr, enc_ptr_nil]
  · rw [Encode_ptr, h2]

/-- C5 (counterexample): with an extension entry for the type `int`, a value
of that type is still encoded and decoded structurally (as a varint); the
registered functions, which would write 0xff and fail, are not called. -/
theorem extension_ignored_for_int :
    intHookEncoder.Extend .int = some sampleHook ∧
    InternalEncode intHookEncoder .int (.int 1) = ⟨[2], none⟩ ∧
    InternalEncode intHookEncoder .int (.int 1) ≠ sampleHook (.int 1) ∧
    intHookDecoder.Extend .int = some sampleDecHook ∧
    InternalDecode intHookDecoder .int (.int 0) [2] = ⟨.int 1, [], none⟩ ∧
    InternalDecode intHookDecoder .int (.int 0) [2] ≠ sampleDecHook (.int 0) [2] :=
  ⟨rfl, by decide, by decide, rfl, by decide, by decide⟩

/-- C5 (amended): for every value of struct kind whose type has an entry in
the extension table, `InternalEncode` (resp. `InternalDecode`) returns exactly
what the registered function returns and writes (resp. reads) nothing else; a
struct type without entry is encoded and decoded field by field; and the
entries of types of any other kind are never consulted: two tables that agree
on the struct types give the same result on every value. -/
theorem extension_dispatch_struct (e : Encoder) (d : Decoder) (fs : List StructField)
    (rv : Val) (r : Reader) :
    (∀ fn, e.Extend (.struct fs) = some fn → InternalEncode e (.struct fs) rv = fn rv) ∧
    (∀ gn, d.Extend (.struct fs) = some gn → InternalDecode d (.struct fs) rv r = gn rv r) ∧
    (e.Extend (.struct fs) = none → ∀ vs,
      InternalEncode e (.struct fs) (.struct vs) = encodeFields e fs vs) ∧
    (d.Extend (.struct fs) = none →
      InternalDecode d (.struct fs) rv r =
        ⟨.struct (decodeFields d fs rv.structFields r).1,
          (decodeFields d fs rv.structFields r).2.1, (decodeFields d fs rv.structFields r).2.2⟩) ∧
    (∀ e2 : Encoder, (∀ gs, e2.Extend (.struct gs) = e.Extend (.struct gs)) →
      e2.Types = e.Types → ∀ t, InternalEncode e2 t rv = InternalEncode e t rv) ∧
    (∀ d2 : Decoder, (∀ gs, d2.Extend (.struct gs) = d.Extend (.struct gs)) →
      ∀ t, InternalDecode d2 t rv r = InternalDecode d t rv r) :=
  ⟨fun fn h => enc_struct_ext e fs rv fn h, fun gn h => dec_struct_ext d fs rv r gn h,
    fun h vs => enc_struct e fs vs h, fun h => dec_struct d fs rv r h,
    fun e2 hx hT t => enc_table_congr e e2 hx hT rv t,
    fun d2 hx t => dec_table_congr d d2 hx t rv r⟩

/-- C5 (witness): a record type with an entry. -/
theorem extension_dispatch_struct_witness :
    InternalEncode pairHookEncoder pairTy (.struct [.uint 1, .uint 2])
      = sampleHook (.struct [.uint 1, .uint 2]) ∧
    InternalDecode pairHookDecoder pairTy (zero pairTy) [1, 2]
      = sampleDecHook (zero pairTy) [1, 2] :=
  ⟨(extension_dispatch_struct pairHookEncoder pairHookDecoder
      [.mk "A" .uint8 "", .mk "B" .uint8 ""] (.struct [.uint 1, .uint 2]) [1, 2]).1
      sampleHook rfl,
    (extension_dispatch_struct pairHookEncoder pairHookDecoder
      [.mk "A" .uint8 "", .mk "B" .uint8 ""] (zero pairTy) [1, 2]).2.1
      sampleDecHook rfl⟩

/-- C6: for every well-typed value `v` of a shape the codec handles (no
interface, channel, function or unsafe pointer, and records with exported
fields, the records the decoder can fill), with empty extension tables, and
every strict initial segment `p` of the bytes `InternalEncode` produces for
`v`, `InternalDecode` of `p` into a fresh destination of the same shape
returns an error: it does not report success, and it does not panic. -/
theorem truncation_is_reported (e : Encoder) (d : Decoder) (hE : ∀ t, e.Extend t = none)
    (hD : ∀ t, d.Extend t = none) (t : Ty) (v : Val) (hs : t.codable = true)
    (ht : hasType t v = true) (p q : List Byte) (h : (InternalEncode e t v).out = p ++ q)
    (hq : q ≠ []) :
    (InternalDecode d t (zero t) p).err ≠ none ∧
    (InternalDecode d t (zero t) p).err ≠ some Err.setPanic :=
  ⟨(codec_good e d hE hD t v hs ht).2.2 p q h hq, dec_noPanic d hD t hs _ _⟩

/-- C6 (witness): the sample record cut inside its string field. -/
theorem truncation_is_reported_witness :
    (InternalDecode plainDecoder sampleTy (zero sampleTy)
      [172, 2, 12, 0x31, 0x32, 0x33]).err ≠ none ∧
    (InternalDecode plainDecoder sampleTy (zero sampleTy)
      [172, 2, 12, 0x31, 0x32, 0x33]).err ≠ some Err.setPanic :=
  truncation_is_reported plainEncoder plainDecoder (fun _ => rfl) (fun _ => rfl) sampleTy
    sampleVal (by decide) (by decide) [172, 2, 12, 0x31, 0x32, 0x33]
    [0x34, 0x35, 0x36, 4, 5, 248, 10, 4, 2, 1, 1, 251, 0, 0, 0, 0, 128, 63] (by decide)
    (by decide)

/-- C7 (counterexample): decoding the one-byte stream 5 into a record of two
`uint8` fields fails with `io.EOF` on the second field, and the destination
keeps the 5 decoded into the first field: it is not what it was before the
call. -/
theorem partial_record_remains :
    InternalDecode plainDecoder pairTy (zero pairTy) [5]
      = ⟨.struct [.uint 5, .uint 0], [], some Err.EOF⟩ ∧
    (InternalDecode plainDecoder pairTy (zero pairTy) [5]).val ≠ zero pairTy := by
  decide

/-- C7 (amended): for every destination of a basic kind (bool, the integer
kinds, floats, complex numbers, strings) and every stream, whenever
`InternalDecode` returns an error the destination is the same as before the
call.  (A record, array, slice, map or pointer destination keeps what was
decoded before the failure.) -/
theorem scalar_failure_keeps_destination (d : Decoder) (b : Basic) (rv : Val) (r : Reader)
    (h : (InternalDecode d (.basic b) rv r).err ≠ none) :
    (InternalDecode d (.basic b) rv r).val = rv := by
  rw [dec_basic] at h ⊢
  exact decodeBasic_err_val b rv r h

/-- C7 (witness): a truncated varint read into a `uint32` that holds 7. -/
theorem scalar_failure_keeps_destination_witness :
    (InternalDecode plainDecoder .uint32 (.uint 7) [0x80]).val = .uint 7 :=
  scalar_failure_keeps_destination plainDecoder .Uint32 (.uint 7) [0x80] (by decide)

/-- C8 (counterexample): decoding one pair (2, 2) into a map that already
holds the entry (1, 1) succeeds and the destination then holds both
entries: the entry present before the call is still there. -/
theorem map_decode_keeps_old_entry :
    InternalDecode plainDecoder (.map .uint8 .uint8) (.map [(.uint 1, .uint 1)]) [2, 2, 2]
      = ⟨.map [(.uint 1, .uint 1), (.uint 2, .uint 2)], [], none⟩ ∧
    readPairs (InternalDecode plainDecoder .uint8 (zero .uint8))
      (InternalDecode plainDecoder .uint8 (zero .uint8)) 1 [2, 2]
      = ([(.uint 2, .uint 2)], [], none) ∧
    MapIndex [(.uint 1, .uint 1), (.uint 2, .uint 2)] (.uint 1) = some (.uint 1) ∧
    MapIndex [(.uint 2, .uint 2)] (.uint 1) = none := by
  decide

/-- C8 (amended): for every map destination whose keys are booleans,
integers, strings, or arrays and records of those, and every stream whose
entry count `N` is positive and whose `N` key/value pairs decode
successfully, `InternalDecode` succeeds and leaves the map obtained by
storing the decoded pairs, in order, into what the destination held: a key
finds the value of the last decoded pair with that key and, when no decoded
pair has it, the value it had in the destination before the call.  A
destination that was nil or empty therefore contains exactly the decoded
pairs; an entry of a non-empty destination stays unless a decoded key
overwrites it.  (The keys are restricted to the kinds on which every key can
be looked up again: a NaN and a decoded pointer find nothing.) -/
theorem map_decode_overlays (d : Decoder) (kt vt : Ty) (_hk : kt.keyOK = true) (rv : Val)
    (r r1 r2 : Reader) (i : Int)
    (pairs : List (Val × Val)) (h1 : ReadVarint r = (i, r1, none)) (hi : 0 < i)
    (h2 : readPairs (InternalDecode d kt (zero kt)) (InternalDecode d vt (zero vt)) i.toNat r1
      = (pairs, r2, none)) :
    InternalDecode d (.map kt vt) rv r = ⟨.map (storeAll rv.mapEntries pairs), r2, none⟩ ∧
    (∀ k, MapIndex (storeAll rv.mapEntries pairs) k
      = (MapIndex pairs.reverse k).or (MapIndex rv.mapEntries k)) ∧
    (rv.mapEntries = [] →
      ∀ k, MapIndex (storeAll rv.mapEntries pairs) k = MapIndex pairs.reverse k) := by
  refine ⟨?_, ?_, ?_⟩
  · rw [dec_map_pos d kt vt rv r r1 i h1 (by omega), decodeEntries_readPairs, h2]
  · intro k
    exact MapIndex_storeAll pairs rv.mapEntries k
  · intro he k
    rw [MapIndex_storeAll, he]
    cases MapIndex pairs.reverse k <;> rfl

/-- C8 (witness): the pair (2, 2) decoded into the map holding (1, 1): the
key 2 finds the decoded value, the key 1 the value from before the call. -/
theorem map_decode_overlays_witness :
    InternalDecode plainDecoder (.map .uint8 .uint8) (.map [(.uint 1, .uint 1)]) [2, 2, 2]
      = ⟨.map (storeAll (Val.map [(.uint 1, .uint 1)]).mapEntries [(.uint 2, .uint 2)]), [],
          none⟩ ∧
    MapIndex (storeAll (Val.map [(.uint 1, .uint 1)]).mapEntries [(.uint 2, .uint 2)]) (.uint 2)
      = (MapIndex [(Val.uint 2, Val.uint 2)].reverse (.uint 2)).or
          (MapIndex (Val.map [(.uint 1, .uint 1)]).mapEntries (.uint 2)) ∧
    MapIndex (storeAll (Val.map [(.uint 1, .uint 1)]).mapEntries [(.uint 2, .uint 2)]) (.uint 1)
      = (MapIndex [(Val.uint 2, Val.uint 2)].reverse (.uint 1)).or
          (MapIndex (Val.map [(.uint 1, .uint 1)]).mapEntries (.uint 1)) :=
  ⟨(map_decode_overlays plainDecoder .uint8 .uint8 rfl (.map [(.uint 1, .uint 1)]) [2, 2, 2] [2, 2]
      [] 1 [(.uint 2, .uint 2)] (by decide) (by decide) (by decide)).1,
    (map_decode_overlays plainDecoder .uint8 .uint8 rfl (.map [(.uint 1, .uint 1)]) [2, 2, 2] [2, 2]
      [] 1 [(.uint 2, .uint 2)] (by decide) (by decide) (by decide)).2.1 (.uint 2),
    (map_decode_overlays plainDecoder .uint8 .uint8 rfl (.map [(.uint 1, .uint 1)]) [2, 2, 2] [2, 2]
      [] 1 [(.uint 2, .uint 2)] (by decide) (by decide) (by decide)).2.1 (.uint 1)⟩

/-- C9: for every string, slice or map destination and every stream whose
length prefix parses to a value that is zero or negative, `InternalDecode`
returns without error, consumes only the bytes of the length prefix, and
leaves the destination exactly as it was. -/
theorem nonpositive_length_no_payload (d : Decoder) (rv : Val) (r r1 : Reader) (i : Int)
    (h : ReadVarint r = (i, r1, none)) (hi : i ≤ 0) :
    InternalDecode d .string rv r = ⟨rv, r1, none⟩ ∧
    (∀ el, InternalDecode d (.slice el) rv r = ⟨rv, r1, none⟩) ∧
    (∀ kt vt, InternalDecode d (.map kt vt) rv r = ⟨rv, r1, none⟩) := by
  refine ⟨?_, fun el => dec_slice_nonpos d el rv r r1 i h hi,
    fun kt vt => dec_map_nonpos d kt vt rv r r1 i h hi⟩
  rw [dec_basic]
  exact decodeString_nonpos rv r r1 i h hi

/-- C9 (witness): the length prefix -1 (the byte 1) before the byte 9, read
into a string, a slice and a map that hold something. -/
theorem nonpositive_length_no_payload_witness :
    InternalDecode plainDecoder .string (.str str123456) [1, 9]
      = ⟨.str str123456, [9], none⟩ ∧
    InternalDecode plainDecoder (.slice .uint8) (.slice [.uint 7] []) [1, 9]
      = ⟨.slice [.uint 7] [], [9], none⟩ ∧
    InternalDecode plainDecoder (.map .uint8 .uint8) (.map [(.uint 1, .uint 1)]) [1, 9]
      = ⟨.map [(.uint 1, .uint 1)], [9], none⟩ :=
  ⟨(nonpositive_length_no_payload plainDecoder (.str str123456) [1, 9] [9] (-1) (by decide)
      (by decide)).1,
    (nonpositive_length_no_payload plainDecoder (.slice [.uint 7] []) [1, 9] [9] (-1) (by decide)
      (by decide)).2.1 .uint8,
    (nonpositive_length_no_payload plainDecoder (.map [(.uint 1, .uint 1)]) [1, 9] [9] (-1)
      (by decide) (by decide)).2.2 .uint8 .uint8⟩

/-- C10: for every non-nil interface value whose concrete type has no name
in the registry of the encoder, and for every non-nil interface value when
the encoder has no registry, `InternalEncode` returns an error and writes no
bytes. -/
theorem unknown_discriminant (e : Encoder) (tp : Ty) (x : Val)
    (h : e.Types = none ∨ ∃ ts, e.Types = some ts ∧ ts.NameByType (some tp) = none) :
    InternalEncode e .iface (.iface tp x) = ⟨[], some Err.unknownType⟩ := by
  rcases h with h | ⟨ts, h, h2⟩
  · exact enc_iface_noTypes e tp x h
  · exact enc_iface_unknown e tp x ts h h2

/-- C10 (witness): a string in an interface, with a registry that only knows
`int`. -/
theorem unknown_discriminant_witness :
    InternalEncode ⟨fun _ => none, some intRegistry⟩ .iface (.iface .string (.str str123456))
      = ⟨[], some Err.unknownType⟩ :=
  unknown_discriminant ⟨fun _ => none, some intRegistry⟩ .string (.str str123456)
    (Or.inr ⟨intRegistry, rfl, by decide⟩)

/-! ## Properties of the top-level calls and of the registry -/

/-- C11: for every argument that is not a pointer (its dynamic kind is not
`Ptr`; this includes the nil interface), `Encoder.Encode` and
`Decoder.Decode` return the error "is not pointer"; `Encode` writes no byte
and `Decode` leaves the stream, and the argument, as they were. -/
theorem top_level_handle_check (e : Encoder) (d : Decoder) (a : Val) (r : Reader)
    (h : kindOfArg a ≠ Kind.Ptr) :
    e.Encode a = ⟨[], some Err.notPointer⟩ ∧
    d.Decode a r = some ⟨a, r, some Err.notPointer⟩ := by
  unfold kindOfArg at h
  unfold Encoder.Encode Decoder.Decode
  cases a <;> simp_all

/-- C11 (witness): an `int` handed over by value, before the stream 1, 2. -/
theorem top_level_handle_check_witness :
    plainEncoder.Encode (.iface .int (.int 5)) = ⟨[], some Err.notPointer⟩ ∧
    plainDecoder.Decode (.iface .int (.int 5)) [1, 2]
      = some ⟨.iface .int (.int 5), [1, 2], some Err.notPointer⟩ :=
  top_level_handle_check plainEncoder plainDecoder (.iface .int (.int 5)) [1, 2] (by decide)

/-- C12 (counterexample): the two maps are not inverse.  After requests for
`[2]int` and `[02]int` both names have the array type, and `NameByType`
answers the second name, not the first.  With a resolver that answers two
names with schemas of one name, `NameByType` answers the name `A` for the
empty struct although `TypeByName("A")` is another type. -/
theorem names_share_descriptor :
    ((New []).CreateType 2 "[2]int"
      = some (.ret ((New []).publish "[2]int" (some arrayTy)) (some arrayTy) none) ∧
    ((New []).publish "[2]int" (some arrayTy)).CreateType 2 "[02]int"
      = some (.ret aliasRegistry (some arrayTy) none) ∧
    aliasRegistry.TypeByName "[2]int" = some (some arrayTy) ∧
    aliasRegistry.NameByType (some arrayTy) = some "[02]int") ∧
    ((New [UseResolver aliasResolver]).CreateType 4 "A").map
      (fun o => (o.err, o.ts.NameByType (some (.struct [])), o.ts.TypeByName "A"))
      = some (none, some "A",
          some (some (.struct [.mk "F1" (.struct []) "", .mk "F2" (.struct []) ""]))) :=
  ⟨⟨rfl, rfl, by decide, by decide⟩, by decide⟩

/-- C12 (amended): in every registry state reachable from `New(opts)` by
calls of `CreateType` and `CreateSchema`, every descriptor registered under a
name has an entry in the descriptor-to-name map; and when the registry has no
resolver, `NameByType(D) = n` implies `TypeByName(n) = D`.  (The converse
does not hold: several names can have one descriptor, and `NameByType`
answers the name assigned last.) -/
theorem registry_maps_correspond (opts : List (options → options)) (ts : Types)
    (h : Reachable opts ts) :
    (∀ n D, ts.TypeByName n = some D → (ts.NameByType D).isSome = true) ∧
    ((New opts).os.schemaResolver = none →
      ∀ D n, ts.NameByType D = some n → ts.TypeByName n = some D) :=
  ⟨grows_named (New opts) ts (reachable_grows opts ts h) (New_named opts),
    fun hres => grows_inverse (New opts) ts (reachable_grows opts ts h) hres
      (New_inverse opts)⟩

/-- C12 (witness): the registry after the requests for `[2]int` and
`[02]int`. -/
theorem registry_maps_correspond_witness :
    (aliasRegistry.NameByType (some arrayTy)).isSome = true ∧
    aliasRegistry.TypeByName "[02]int" = some (some arrayTy) :=
  ⟨(registry_maps_correspond [] aliasRegistry
      (Reachable.createType 2 ((New []).publish "[2]int" (some arrayTy)) "[02]int"
        (.ret aliasRegistry (some arrayTy) none)
        (Reachable.createType 2 (New []) "[2]int"
          (.ret ((New []).publish "[2]int" (some arrayTy)) (some arrayTy) none)
          Reachable.new rfl) rfl)).1 "[2]int" (some arrayTy) (by decide),
    (registry_maps_correspond [] aliasRegistry
      (Reachable.createType 2 ((New []).publish "[2]int" (some arrayTy)) "[02]int"
        (.ret aliasRegistry (some arrayTy) none)
        (Reachable.createType 2 (New []) "[2]int"
          (.ret ((New []).publish "[2]int" (some arrayTy)) (some arrayTy) none)
          Reachable.new rfl) rfl)).2 rfl (some arrayTy) "[02]int" (by decide)⟩

/-- C13 (counterexample): the build of a schema whose second field has an
invalid name returns an error, yet the entry made for the type `[]int` of the
first field stays in both maps. -/
theorem failed_build_leaves_entries :
    (New []).CreateSchema 3 badFieldSchema
      = some (.ret sliceIntRegistry none (some (.invalidFieldName "b"))) ∧
    (New []).TypeByName "[]int" = none ∧
    sliceIntRegistry.TypeByName "[]int" = some (some (.slice .int)) ∧
    (New []).NameByType (some (.slice .int)) = none ∧
    sliceIntRegistry.NameByType (some (.slice .int)) = some "[]int" :=
  ⟨rfl, by decide, by decide, by decide, by decide⟩

/-- C13 (amended): whenever `CreateType` or `CreateSchema` returns an error,
the registry is the one before the call with the assignments added that the
call made before it failed: both maps keep their earlier assignments, every
name registered before still has its descriptor, and every descriptor that
had a name still has one.  The build is not rolled back.  When `CreateSchema`
fails on the name of the schema or on the name of its first field, nothing was
assigned and the registry is unchanged. -/
theorem failed_build_keeps_earlier_entries (ts : Types) :
    (∀ fuel typ out, ts.CreateType fuel typ = some out → out.err ≠ none →
      ts.tm <:+ out.ts.tm ∧ ts.tn <:+ out.ts.tn ∧
      (∀ n D, ts.TypeByName n = some D → out.ts.TypeByName n = some D) ∧
      (∀ D, (ts.NameByType D).isSome = true → (out.ts.NameByType D).isSome = true)) ∧
    (∀ fuel s out, ts.CreateSchema fuel s = some out → out.err ≠ none →
      ts.tm <:+ out.ts.tm ∧ ts.tn <:+ out.ts.tn ∧
      (∀ n D, ts.TypeByName n = some D → out.ts.TypeByName n = some D) ∧
      (∀ D, (ts.NameByType D).isSome = true → (out.ts.NameByType D).isSome = true)) ∧
    (∀ fuel s out, ts.TypeByName s.Name = none → ir.MatchString s.Name = false →
      ts.CreateSchema fuel s = some out → out.err ≠ none ∧ out.ts = ts) ∧
    (∀ fuel s f rest out, ts.TypeByName s.Name = none → s.Fields = f :: rest →
      ir.MatchString f.Name = false →
      ts.CreateSchema fuel s = some out → out.err ≠ none ∧ out.ts = ts) := by
  have frame : ∀ out : Outcome, Grows ts out.ts →
      ts.tm <:+ out.ts.tm ∧ ts.tn <:+ out.ts.tn ∧
      (∀ n D, ts.TypeByName n = some D → out.ts.TypeByName n = some D) ∧
      (∀ D, (ts.NameByType D).isSome = true → (out.ts.NameByType D).isSome = true) :=
    fun out g => ⟨g.suffix.1, g.suffix.2, fun n D h => g.keep n D h,
      fun D h => lookup_of_suffix _ _ D g.suffix.2 h⟩
  refine ⟨fun fuel typ out h _ => frame out (CreateType_grows fuel ts typ out h),
    fun fuel s out h _ => frame out (CreateSchema_grows fuel ts s out h), ?_, ?_⟩
  · intro fuel s out hl hir h
    rw [CreateSchema_miss fuel ts s hl] at h
    cases fuel with
    | zero =>
      rw [createSchema_zero] at h
      cases h
    | succ fuel =>
      rw [createSchema_invalid fuel ts s hl hir] at h
      injection h with h
      subst h
      exact ⟨by simp [Outcome.err], rfl⟩
  · intro fuel s f rest out hl hf hfn h
    rw [CreateSchema_miss fuel ts s hl] at h
    cases fuel with
    | zero =>
      rw [createSchema_zero] at h
      cases h
    | succ fuel =>
      cases hir : ir.MatchString s.Name with
      | false =>
        rw [createSchema_invalid fuel ts s hl hir] at h
        injection h with h
        subst h
        exact ⟨by simp [Outcome.err], rfl⟩
      | true =>
        have hc : createFields (createType fuel) ts s.Fields
            = some (.abort (.ret ts none (some (.invalidFieldName f.Name)))) := by
          rw [hf]
          exact createFields_invalid _ ts f rest hfn
        rw [createSchema_abort fuel ts s _ hl hir hc] at h
        injection h with h
        subst h
        exact ⟨by simp [Outcome.err], rfl⟩

/-- C13 (witness): the failed build of the schema with the invalid second
field keeps the builtin name `int` and all earlier assignments; the build of
a schema with the invalid name `record` leaves a new registry unchanged. -/
theorem failed_build_keeps_earlier_entries_witness :
    ((New []).tm <:+ sliceIntRegistry.tm ∧ (New []).tn <:+ sliceIntRegistry.tn ∧
      sliceIntRegistry.TypeByName "int" = some (some .int) ∧
      (sliceIntRegistry.NameByType (some .int)).isSome = true) ∧
    (Outcome.ret (New []) none (some (.invalidSchemaName "record"))).ts = New [] :=
  ⟨⟨((failed_build_keeps_earlier_entries (New [])).2.1 3 badFieldSchema
        (.ret sliceIntRegistry none (some (.invalidFieldName "b"))) rfl (by decide)).1,
      ((failed_build_keeps_earlier_entries (New [])).2.1 3 badFieldSchema
        (.ret sliceIntRegistry none (some (.invalidFieldName "b"))) rfl (by decide)).2.1,
      ((failed_build_keeps_earlier_entries (New [])).2.1 3 badFieldSchema
        (.ret sliceIntRegistry none (some (.invalidFieldName "b"))) rfl (by decide)).2.2.1
        "int" (some .int) rfl,
      ((failed_build_keeps_earlier_entries (New [])).2.1 3 badFieldSchema
        (.ret sliceIntRegistry none (some (.invalidFieldName "b"))) rfl (by decide)).2.2.2
        (some .int) rfl⟩,
    ((failed_build_keeps_earlier_entries (New [])).2.2.1 1 ⟨"record", []⟩
      (.ret (New []) none (some (.invalidSchemaName "record"))) rfl rfl rfl).2⟩

/-- C14: on a registry with pointers disabled, in every state in which the
expression `*T` is not registered, the first `CreateType("*" + T)` returns
the error "unknown type" but also assigns the nil type to the expression, and
every later `CreateType("*" + T)` finds that entry and returns the nil type
without an error. -/
theorem disabled_pointer_request_twice (ts : Types) (T : String)
    (hd : ts.os.disablePointer = true) (hl : ts.TypeByName ("*" ++ T) = none)
    (fuel fuel2 : Nat) :
    ts.CreateType (fuel + 1) ("*" ++ T)
      = some (.ret (ts.publish ("*" ++ T) none) none (some (.unknownType ("*" ++ T)))) ∧
    (ts.publish ("*" ++ T) none).CreateType fuel2 ("*" ++ T)
      = some (.ret (ts.publish ("*" ++ T) none) none none) := by
  constructor
  · rw [CreateType_miss _ ts _ hl, createType_star fuel ts T hd hl]
    rfl
  · apply CreateType_found
    rw [tm_publish, if_pos rfl]

/-- C14 (witness): `*int`, requested twice on a registry made with
`DisablePointer()`. -/
theorem disabled_pointer_request_twice_witness :
    noPointerRegistry.CreateType 1 "*int"
      = some (.ret (noPointerRegistry.publish "*int" none) none
          (some (.unknownType "*int"))) ∧
    (noPointerRegistry.publish "*int" none).CreateType 1 "*int"
      = some (.ret (noPointerRegistry.publish "*int" none) none none) :=
  disabled_pointer_request_twice noPointerRegistry "int" rfl rfl 0 1

/-- C15 (counterexample): the schema name `int` does not match the pattern,
yet `CreateSchema` succeeds: the name is registered, and the registered type
is returned before any validation. -/
theorem registered_name_not_validated :
    ir.MatchString "int" = false ∧
    (New []).CreateSchema 1 ⟨"int", []⟩ = some (.ret (New []) (some .int) none) :=
  ⟨by decide, rfl⟩

/-- C15 (amended): for every registry state and every schema whose name is not
registered and whose name, or one of whose field names, does not match
`^[A-Z][A-Za-z0-9_]*$`: whenever `CreateSchema` returns, it returns an error;
with an invalid schema name it returns the error "invalid schema name" at
once; and on a registry without resolver it returns for every schema (with
fuel above the lengths of the field types). -/
theorem invalid_names_rejected (ts : Types) (s : Schema)
    (hn : ts.TypeByName s.Name = none)
    (hbad : ir.MatchString s.Name = false ∨ ∃ f ∈ s.Fields, ir.MatchString f.Name = false) :
    (∀ fuel, (ts.CreateSchema fuel s).map (fun o => o.err) ≠ some none) ∧
    (ir.MatchString s.Name = false → ∀ fuel,
      (ts.CreateSchema (fuel + 1) s).map (fun o => o.err)
        = some (some (.invalidSchemaName s.Name))) ∧
    (ts.os.schemaResolver = none → ∀ fuel, (∀ f ∈ s.Fields, f.Typ.length < fuel) →
      (ts.CreateSchema (fuel + 1) s).isSome = true) := by
  refine ⟨?_, ?_, fun hres fuel hb => CreateSchema_total fuel ts s hres hb⟩
  · intro fuel hok
    cases h : ts.CreateSchema fuel s with
    | none =>
      rw [h] at hok
      cases hok
    | some out =>
    rw [h] at hok
    injection hok with hok
    revert hok
    rw [CreateSchema_miss fuel ts s hn] at h
    refine recovered_err _ out h (fun o ho => ?_)
    rcases hbad with hir | hf
    · cases fuel with
      | zero =>
        rw [createSchema_zero] at ho
        cases ho
      | succ fuel =>
        rw [createSchema_invalid fuel ts s hn hir] at ho
        injection ho with ho
        subst ho
        intro _ _ hc
        cases hc
    · exact createSchema_never_ok fuel ts s o hn
        (fun f res hc => createFields_invalid_name _ s.Fields ts res hf hc) ho
  · intro hir fuel
    rw [CreateSchema_miss _ ts s hn, createSchema_invalid fuel ts s hn hir]
    rfl

/-- C15 (witness): the lowercase schema name `record`, and the field name
`b` of the schema `Rec`, on a new registry. -/
theorem invalid_names_rejected_witness :
    ((New []).CreateSchema 1 ⟨"record", []⟩).map (fun o => o.err)
      = some (some (.invalidSchemaName "record")) ∧
    ((New []).CreateSchema 7 badFieldSchema).map (fun o => o.err) ≠ some none ∧
    ((New []).CreateSchema 7 badFieldSchema).isSome = true :=
  ⟨(invalid_names_rejected (New []) ⟨"record", []⟩ rfl (Or.inl (by decide))).2.1
      (by decide) 0,
    (invalid_names_rejected (New []) badFieldSchema rfl
      (Or.inr ⟨⟨"b", "int", []⟩, by simp [badFieldSchema], by decide⟩)).1 7,
    (invalid_names_rejected (New []) badFieldSchema rfl
      (Or.inr ⟨⟨"b", "int", []⟩, by simp [badFieldSchema], by decide⟩)).2.2 rfl 6
      (by decide)⟩

/-- C16: the registry has no guard against self-reference.  With a resolver
that answers the schema `Node` for its name, `CreateSchema` of `Node`, whose
field has the type `Node`, does not return an error: it does not return at
all, whatever the number of nested calls allowed.  `createSchema` asks
`createType` for `Node`, which asks the resolver and calls `createSchema`
with the same schema in the same registry state, without bound; in Go the
stack overflows, which ends the process and which no `recover` catches. -/
theorem self_reference_never_returns :
    ¬ ∃ fuel, ((New [UseResolver nodeResolver]).CreateSchema fuel nodeSchema).isSome = true := by
  rintro ⟨fuel, h⟩
  rw [CreateSchema_miss fuel (New [UseResolver nodeResolver]) nodeSchema rfl,
    (self_reference_diverges (New [UseResolver nodeResolver]) nodeSchema nodeResolver
      ⟨"Next", "Node", []⟩ [] rfl rfl rfl (by decide) rfl (by decide) rfl fuel).1] at h
  cases h

/-- Self-reference in general, for a schema with a valid name that is not
registered.  Without a resolver, when a field has the name of the schema as
its type expression, `CreateSchema` returns (with fuel above the lengths of
the field types) and what it returns is an error.  With a resolver that
answers the schema itself for its name, when the first field has the name of
the schema as its type expression, `CreateSchema` does not return with any
fuel: the registry keeps no record of the names in progress. -/
theorem self_reference_unguarded (ts : Types) (s : Schema)
    (hn : ts.TypeByName s.Name = none) (hir : ir.MatchString s.Name = true) :
    (ts.os.schemaResolver = none → (∃ f ∈ s.Fields, f.Typ = s.Name) →
      (∀ fuel, (∀ f ∈ s.Fields, f.Typ.length < fuel) →
        (ts.CreateSchema (fuel + 1) s).isSome = true) ∧
      (∀ fuel, (ts.CreateSchema fuel s).map (fun o => o.err) ≠ some none)) ∧
    (∀ r f rest, ts.os.schemaResolver = some r → r s.Name = (s, none) →
      s.Fields = f :: rest → ir.MatchString f.Name = true → f.Typ = s.Name →
      ∀ fuel, ts.CreateSchema fuel s = none) := by
  constructor
  · intro hres hself
    refine ⟨fun fuel hb => CreateSchema_total fuel ts s hres hb, fun fuel hok => ?_⟩
    cases h : ts.CreateSchema fuel s with
    | none =>
      rw [h] at hok
      cases hok
    | some out =>
    rw [h] at hok
    injection hok with hok
    revert hok
    rw [CreateSchema_miss fuel ts s hn] at h
    refine recovered_err _ out h (fun o ho => ?_)
    exact createSchema_never_ok fuel ts s o hn
      (fun f res hc => createFields_self f s.Name hir s.Fields ts res hres hn hself hc) ho
  · intro r f rest hres hr hf hfn hft fuel
    rw [CreateSchema_miss fuel ts s hn,
      (self_reference_diverges ts s r f rest hres hr hn hir hf hfn hft fuel).1]
    rfl

/-- An instance: the schema `Node` on a new registry without resolver, and on
one with the resolver that knows `Node`. -/
theorem self_reference_unguarded_witness :
    (((New []).CreateSchema 6 nodeSchema).isSome = true ∧
      ((New []).CreateSchema 6 nodeSchema).map (fun o => o.err) ≠ some none) ∧
    (New [UseResolver nodeResolver]).CreateSchema 7 nodeSchema = none :=
  ⟨⟨((self_reference_unguarded (New []) nodeSchema rfl (by decide)).1 rfl
        ⟨⟨"Next", "Node", []⟩, by simp [nodeSchema], rfl⟩).1 5 (by decide),
      ((self_reference_unguarded (New []) nodeSchema rfl (by decide)).1 rfl
        ⟨⟨"Next", "Node", []⟩, by simp [nodeSchema], rfl⟩).2 6⟩,
    (self_reference_unguarded (New [UseResolver nodeResolver]) nodeSchema rfl (by decide)).2
      nodeResolver ⟨"Next", "Node", []⟩ [] rfl rfl rfl (by decide) rfl 7⟩

/-- C17: compound key expressions are not accepted.  The key expression
`*int` resolves to a pointer type and `[2]int` to an array type, both usable
as a map key, and `int` resolves, yet `CreateType("map[*int]int")` and
`CreateType("map[[2]int]int")` return the error "unknown type": the pattern
`mr` takes letters, digits and underscores as key only, although the grammar
in the comment of `Field.Type` has `map[T]T` with `*T` and `[n]T` among the
`T`. -/
theorem compound_key_unknown :
    ((New []).CreateType 2 "*int" = some (.ret ptrIntRegistry (some (.ptr .int)) none) ∧
      (Ty.ptr .int).comparable = true ∧
      ptrIntRegistry.CreateType 1 "int" = some (.ret ptrIntRegistry (some .int) none) ∧
      ptrIntRegistry.CreateType 3 "map[*int]int"
        = some (.ret (ptrIntRegistry.publish "map[*int]int" none) none
            (some (.unknownType "map[*int]int")))) ∧
    ((New []).CreateType 2 "[2]int"
        = some (.ret ((New []).publish "[2]int" (some arrayTy)) (some arrayTy) none) ∧
      arrayTy.comparable = true ∧
      ((New []).publish "[2]int" (some arrayTy)).CreateType 3 "map[[2]int]int"
        = some (.ret (((New []).publish "[2]int" (some arrayTy)).publish "map[[2]int]int" none)
            none (some (.unknownType "map[[2]int]int")))) :=
  ⟨⟨rfl, by decide, rfl, rfl⟩, rfl, by decide, rfl⟩

/-- With a resolver an expression can be registered with another key type
than the key expression has afterwards: after `CreateType("A")` with
`staleResolver` the name `A` has the type `staleTy`, usable as a key, while
`map[A]int` is answered with the empty struct as key. -/
theorem stale_map_key :
    ((New [UseResolver staleResolver]).CreateType 6 "A").bind (fun o =>
      ((o.ts.CreateType 1 "A").bind fun o1 =>
        (o1.ts.CreateType 1 "int").bind fun o2 =>
          (o2.ts.CreateType 3 "map[A]int").map fun o3 => (o1.t, o2.t, o3.t, o3.err)))
      = some (some staleTy, some .int, some (.map (.struct []) .int), none) ∧
    staleTy.comparable = true :=
  ⟨by decide, by decide⟩

/-- The map rule for plain key names: on a registry with non-string map keys
enabled, in every
reachable state, for every key expression `K` that consists of letters,
digits and underscores and every value expression `V` such that
`CreateType(K)` and `CreateType(V)` succeed with the descriptors `DK`, usable
as a map key, and `DV`: `CreateType("map[" + K + "]" + V)` succeeds and
returns the map type of `DK` and `DV`, provided the registry has no resolver
or the map expression is not yet registered. -/
theorem general_map_rule (opts : List (options → options)) (ts0 ts1 ts2 : Types)
    (f1 f2 fuel : Nat) (K V : String) (DK DV : Ty) (hreach : Reachable opts ts0)
    (hsk : (New opts).os.stringKeyOnly = false)
    (hK : K.data ≠ [] ∧ K.data.all isWord = true)
    (h1 : ts0.CreateType f1 K = some (.ret ts1 (some DK) none))
    (h2 : ts1.CreateType f2 V = some (.ret ts2 (some DV) none))
    (hcmp : DK.comparable = true)
    (hfirst : (New opts).os.schemaResolver = none ∨
      ts2.TypeByName ("map[" ++ K ++ "]" ++ V) = none) :
    (ts2.CreateType (fuel + 2) ("map[" ++ K ++ "]" ++ V)).map (fun o => (o.t, o.err))
      = some (some (.map DK DV), none) := by
  have g1 : Grows ts0 ts1 := CreateType_grows f1 ts0 K _ h1
  have g2 : Grows ts1 ts2 := CreateType_grows f2 ts1 V _ h2
  exact map_rule_core opts ts2 (((reachable_grows opts ts0 hreach).trans g1).trans g2) hsk
    K V DK DV hK.1 hK.2 (g2.keep _ _ (CreateType_registered f1 ts0 ts1 K _ h1))
    (CreateType_registered f2 ts1 ts2 V _ h2) hcmp hfirst fuel

/-- An instance: the expression `map[uint][]string` on a new registry. -/
theorem general_map_rule_witness :
    (sliceStringRegistry.CreateType 2 "map[uint][]string").map (fun o => (o.t, o.err))
      = some (some (.map .uint (.slice .string)), none) :=
  general_map_rule [] (New []) (New []) sliceStringRegistry 1 2 0 "uint" "[]string" .uint
    (.slice .string) Reachable.new rfl (by decide) rfl rfl (by decide) (Or.inl rfl)

/-- C18: for every registry state and every expression, if `CreateType`
succeeds with the descriptor `D`, leaving the registry `ts1`, then a
following `CreateType` of the same expression succeeds as well, returns the
identical `D`, and leaves the registry `ts1` unchanged; it does so without
any nested call (with any fuel). -/
theorem type_creation_idempotent (fuel fuel2 : Nat) (ts ts1 : Types) (typ : String)
    (D : Option Ty) (h : ts.CreateType fuel typ = some (.ret ts1 D none)) :
    ts1.CreateType fuel2 typ = some (.ret ts1 D none) :=
  CreateType_found fuel2 ts1 typ D (CreateType_registered fuel ts ts1 typ D h)

/-- C18 (witness): `[]int`, requested twice on a new registry. -/
theorem type_creation_idempotent_witness :
    sliceIntRegistry.CreateType 0 "[]int"
      = some (.ret sliceIntRegistry (some (.slice .int)) none) :=
  type_creation_idempotent 2 0 (New []) sliceIntRegistry "[]int" (some (.slice .int)) rfl

/-- C19: for every registry state and every name `n` that `TypeByName` finds
with the descriptor `D`, after every call of `CreateType` and of
`CreateSchema` that returns (with success, with an error, or with the error
made from a recovered panic; with or without a resolver) `TypeByName(n)`
still finds `D`: registered names are neither removed nor rewritten. -/
theorem name_lookups_never_rewritten (ts : Types) (n : String) (D : Option Ty)
    (h : ts.TypeByName n = some D) :
    (∀ fuel typ out, ts.CreateType fuel typ = some out → out.ts.TypeByName n = some D) ∧
    (∀ fuel s out, ts.CreateSchema fuel s = some out → out.ts.TypeByName n = some D) :=
  ⟨fun fuel typ out hc => (CreateType_grows fuel ts typ out hc).keep n D h,
    fun fuel s out hc => (CreateSchema_grows fuel ts s out hc).keep n D h⟩

/-- C19 (witness): the name `int` after a request for `[]int` and after the
build of the schema `Pair`. -/
theorem name_lookups_never_rewritten_witness :
    sliceIntRegistry.TypeByName "int" = some (some .int) ∧
    ((New []).publish "Pair" (some pairTy)).TypeByName "int" = some (some .int) :=
  ⟨(name_lookups_never_rewritten (New []) "int" (some .int) rfl).1 2 "[]int"
      (.ret sliceIntRegistry (some (.slice .int)) none) rfl,
    (name_lookups_never_rewritten (New []) "int" (some .int) rfl).2 2 pairSchema
      (.ret ((New []).publish "Pair" (some pairTy)) (some pairTy) none) rfl⟩

/-- C20: for every registry state and every schema whose name is not
registered, if `CreateSchema` succeeds with the descriptor `D`, then in the
registry it leaves `TypeByName` finds `D` under the name of the schema and
`NameByType` finds that name for `D`. -/
theorem new_schema_registered (fuel : Nat) (ts ts1 : Types) (s : Schema) (D : Option Ty)
    (hn : ts.TypeByName s.Name = none) (h : ts.CreateSchema fuel s = some (.ret ts1 D none)) :
    ts1.TypeByName s.Name = some D ∧ ts1.NameByType D = some s.Name := by
  rw [CreateSchema_miss fuel ts s hn] at h
  rcases recovered_inv _ _ h with ⟨_, _, ho⟩ | ⟨hr, _⟩
  · cases ho
  · obtain ⟨s1, t, hd, hts⟩ := createSchema_success fuel ts ts1 s D hn hr
    subst hd hts
    exact ⟨by rw [Types.TypeByName, tm_publish, if_pos rfl],
      by rw [Types.NameByType, tn_publish, if_pos rfl]⟩

/-- C20 (witness): the schema `Pair` on a new registry. -/
theorem new_schema_registered_witness :
    ((New []).publish "Pair" (some pairTy)).TypeByName "Pair" = some (some pairTy) ∧
    ((New []).publish "Pair" (some pairTy)).NameByType (some pairTy) = some "Pair" :=
  new_schema_registered 2 (New []) ((New []).publish "Pair" (some pairTy)) pairSchema
    (some pairTy) rfl rfl

/-! ## Properties that relate the paths of the codec -/

theorem byteLike_kind (el : Ty) (h : byteLike el = true) :
    el.Kind = .Int8 ∨ el.Kind = .Uint8 ∨ el.Kind = .Bool := by
  simpa [byteLike, or_assoc] using h

/-- C21: for every slice whose element kind is `int8`, `uint8` or `bool` (nil
or not, with any extension table), what `InternalEncode` writes through its
raw copy is what the general element loop writes for the same slice: both
are the length prefix followed by one byte for each element, the byte
`InternalEncode` writes for that element on its own. -/
theorem fast_path_agrees (e : Encoder) (el : Ty) (rv : Val) (hk : byteLike el = true)
    (ht : hasType (.slice el) rv = true) :
    InternalEncode e (.slice el) rv = encodeSliceGeneral e el rv ∧
    InternalEncode e (.slice el) rv = encodeSliceRaw rv ∧
    (∀ x, hasType el x = true → InternalEncode e el x = ⟨[x.memByte], none⟩) := by
  have hkind := byteLike_kind el hk
  refine ⟨?_, ?_, fun x hx => enc_memByte e el x hkind hx⟩
  · rcases hasType_slice el rv ht with rfl | ⟨elems, spare, rfl, _, hall⟩
    · rw [enc_slice_nil]
      rfl
    · rw [enc_slice_bytes e el elems spare hkind]
      show _ = EncRes.andThen ⟨PutVarint elems.length, none⟩ (encodeElems e el elems)
      rw [encodeElems_bytes e el elems hkind hall, andThen_ok _ _ rfl]
  · rcases hasType_slice el rv ht with rfl | ⟨elems, spare, rfl, _, _⟩
    · rw [enc_slice_nil]
      rfl
    · rw [enc_slice_bytes e el elems spare hkind]
      rfl

/-- C21 (witness): a slice of four `uint8` and a slice of three `int8`. -/
theorem fast_path_agrees_witness :
    (InternalEncode plainEncoder (.slice .uint8) sampleByteSlice
        = encodeSliceGeneral plainEncoder .uint8 sampleByteSlice ∧
      InternalEncode plainEncoder (.slice .uint8) sampleByteSlice
        = encodeSliceRaw sampleByteSlice) ∧
    (InternalEncode plainEncoder (.slice .int8) sampleInt8Slice
        = encodeSliceGeneral plainEncoder .int8 sampleInt8Slice ∧
      InternalEncode plainEncoder .int8 (.int (-1)) = ⟨[(Val.int (-1)).memByte], none⟩) :=
  ⟨⟨(fast_path_agrees plainEncoder .uint8 sampleByteSlice (by decide) (by decide)).1,
      (fast_path_agrees plainEncoder .uint8 sampleByteSlice (by decide) (by decide)).2.1⟩,
    (fast_path_agrees plainEncoder .int8 sampleInt8Slice (by decide) (by decide)).1,
    (fast_path_agrees plainEncoder .int8 sampleInt8Slice (by decide) (by decide)).2.2
      (.int (-1)) (by decide)⟩

/-- C22: for every well-typed value `v` of a shape the codec handles (no
interface, channel, function or unsafe pointer, and records with exported
fields, the records the decoder can fill), with empty extension tables, and
every byte sequence `rest`: `InternalEncode` of `v` succeeds, and
`InternalDecode` of its bytes followed by `rest` into a fresh destination of
the same shape succeeds (it returns no error and does not panic) and leaves
exactly `rest` unread. -/
theorem decode_consumes_encoding (e : Encoder) (d : Decoder) (hE : ∀ t, e.Extend t = none)
    (hD : ∀ t, d.Extend t = none) (t : Ty) (v : Val) (hs : t.codable = true)
    (ht : hasType t v = true) (rest : List Byte) :
    (InternalEncode e t v).err = none ∧
    (InternalDecode d t (zero t) ((InternalEncode e t v).out ++ rest)).err = none ∧
    (InternalDecode d t (zero t) ((InternalEncode e t v).out ++ rest)).rest = rest := by
  have h := codec_good e d hE hD t v hs ht
  refine ⟨h.1, ?_, ?_⟩
  · rw [h.2.1 rest]
  · rw [h.2.1 rest]

/-- C22 (witness): the sample record followed by the bytes 9, 8. -/
theorem decode_consumes_encoding_witness :
    (InternalEncode plainEncoder sampleTy sampleVal).err = none ∧
    (InternalDecode plainDecoder sampleTy (zero sampleTy)
      ((InternalEncode plainEncoder sampleTy sampleVal).out ++ [9, 8])).err = none ∧
    (InternalDecode plainDecoder sampleTy (zero sampleTy)
      ((InternalEncode plainEncoder sampleTy sampleVal).out ++ [9, 8])).rest = [9, 8] :=
  decode_consumes_encoding plainEncoder plainDecoder (fun _ => rfl) (fun _ => rfl) sampleTy
    sampleVal (by decide) (by decide) [9, 8]

end GoSchema
